import Mathlib

/-! Liveness analysis (`LivenessAnalysis.cpp`).

A shallow embedding of the LLVM function pass `LivenessAnalysis::runOnFunction`:
the per-block USE/KILL extractor (source lines 33-82), the worklist solver for
LIVE_OUT (source lines 85-128), and the properties of both.

Modelling conventions.
* A `BasicBlock *` is an address (`BasicBlockPtr`); the blocks of a function are
  the list `F.blocks`, in the order in which `for (BasicBlock &bb : F)` visits them.
* A `StringRef` is a `String`; a value without a name has the empty name `""`,
  which is what `Value::getName()` returns for it.
* A `std::set<StringRef>` is a `Finset StringRef`.
* A `std::map<BasicBlock *, std::set<StringRef>>` is a key-sorted association
  list (`StdMap`) with the `find` / `erase` / `insert` of `std::map`.
* Dereferencing `end()` after a failed `find`, or a null terminator, is undefined
  behaviour in the source; the embedding returns `none` there.
* The `while` loop is run with an explicit bound on its number of iterations.
-/

namespace LivenessAnalysis

/-! ## Program representation consumed by the pass -/

/-- The address of a basic block (`BasicBlock *`). -/
abbrev BasicBlockPtr := Nat

/-- The name of a value (`llvm::StringRef`); unnamed values have the name `""`. -/
abbrev StringRef := String

/-- The instruction opcodes of LLVM (`llvm/IR/Instruction.def`). -/
inductive Opcode where
  | Ret | Br | Switch | IndirectBr | Invoke | Resume | Unreachable
  | CleanupRet | CatchRet | CatchSwitch | CallBr
  | FNeg
  | Add | FAdd | Sub | FSub | Mul | FMul | UDiv | SDiv | FDiv | URem | SRem | FRem
  | Shl | LShr | AShr | And | Or | Xor
  | Alloca | Load | Store | GetElementPtr | Fence | AtomicCmpXchg | AtomicRMW
  | Trunc | ZExt | SExt | FPToUI | FPToSI | UIToFP | SIToFP | FPTrunc | FPExt
  | PtrToInt | IntToPtr | BitCast | AddrSpaceCast
  | CleanupPad | CatchPad
  | ICmp | FCmp | PHI | Call | Select | UserOp1 | UserOp2 | VAArg
  | ExtractElement | InsertElement | ShuffleVector | ExtractValue | InsertValue
  | LandingPad | Freeze
  deriving DecidableEq, Repr

/-- The terminator opcodes (`Instruction::isTerminator`). -/
def Opcode.isTerminator : Opcode → Bool
  | .Ret | .Br | .Switch | .IndirectBr | .Invoke | .Resume | .Unreachable
  | .CleanupRet | .CatchRet | .CatchSwitch | .CallBr => true
  | _ => false

/-- An instruction as the pass sees it: `getOpcode()`, the names
`getOperand(i)->getName()` for `i = 0 .. getNumOperands()-1`, `getName()`, and
`getSuccessor(i)` for `i = 0 .. getNumSuccessors()-1`. -/
structure Instruction where
  opcode : Opcode
  operands : List StringRef
  name : StringRef
  successors : List BasicBlockPtr
  deriving DecidableEq, Repr

/-- A basic block: its address, its name, its instructions in program order and
the blocks enumerated by `pred_begin .. pred_end`. -/
structure BasicBlock where
  addr : BasicBlockPtr
  name : StringRef
  insts : List Instruction
  preds : List BasicBlockPtr
  deriving DecidableEq, Repr

/-- A function: its name and its basic blocks in iteration order. -/
structure Func where
  name : StringRef
  blocks : List BasicBlock
  deriving DecidableEq, Repr

/-- The result of `BasicBlock::getTerminator()`: the last instruction when it is
a terminator, null (`none`) otherwise. -/
def BasicBlock.getTerminator (B : BasicBlock) : Option Instruction :=
  match B.insts.getLast? with
  | some I => if I.opcode.isTerminator then some I else none
  | none => none

/-- The successor list of a block with a terminator, `[]` for a block without. -/
def BasicBlock.succs (B : BasicBlock) : List BasicBlockPtr :=
  match B.getTerminator with
  | some T => T.successors
  | none => []

/-- The block a pointer refers to, when it is a block of `F`. -/
def Func.deref (F : Func) (p : BasicBlockPtr) : Option BasicBlock :=
  F.blocks.find? (fun B => B.addr == p)

/-- The addresses of the blocks of `F`, in iteration order. -/
def Func.addrs (F : Func) : List BasicBlockPtr :=
  F.blocks.map (fun B => B.addr)

/-! ## `std::map<BasicBlock *, std::set<StringRef>>` -/

/-- A `std::map` from block addresses to name sets: entries sorted by key. -/
abbrev StdMap := List (BasicBlockPtr × Finset StringRef)

/-- The value stored under key `k` (`m.find(k)->second`), `none` when
`m.find(k) == m.end()`. -/
def StdMap.find : StdMap → BasicBlockPtr → Option (Finset StringRef)
  | [], _ => none
  | (k', v) :: m, k => if k' = k then some v else StdMap.find m k

/-- Removal of the entry with key `k` (`m.erase(it)` for `it = m.find(k)`). -/
def StdMap.erase : StdMap → BasicBlockPtr → StdMap
  | [], _ => []
  | (k', v) :: m, k => if k' = k then StdMap.erase m k else (k', v) :: StdMap.erase m k

/-- The position of a new entry: in front of the first entry with a larger key. -/
def StdMap.place : StdMap → BasicBlockPtr → Finset StringRef → StdMap
  | [], k, v => [(k, v)]
  | (k', v') :: m, k, v =>
    if k < k' then (k, v) :: (k', v') :: m
    else (k', v') :: StdMap.place m k v

/-- Insertion `m.insert(std::pair(k, v))`: nothing happens when `k` is already a
key; otherwise the entry goes to its place in key order. -/
def StdMap.insert (m : StdMap) (k : BasicBlockPtr) (v : Finset StringRef) : StdMap :=
  match StdMap.find m k with
  | some _ => m
  | none => StdMap.place m k v

/-- The keys of a map, in iteration order. -/
def StdMap.keys (m : StdMap) : List BasicBlockPtr :=
  m.map Prod.fst

/-- The set stored under `k`, read as `∅` when there is no entry. -/
def StdMap.get (m : StdMap) (k : BasicBlockPtr) : Finset StringRef :=
  (StdMap.find m k).getD ∅

/-! ## The USE/KILL extractor (source lines 33-82) -/

/-- The two maps built by the extractor. -/
structure UseKill where
  variable_use : StdMap
  variable_kill : StdMap
  deriving DecidableEq

/-- The opcodes whose operands are not inserted into `variable_use`
(the condition of source line 60, negated). -/
def isExcluded (op : Opcode) : Bool :=
  op == .Alloca || op == .Store || op == .Br || op == .ICmp

/-- The body of the operand loop (source lines 48-72) for block `bb`,
instruction `I` and the operand named `varName`. -/
def operandStep (bb : BasicBlockPtr) (I : Instruction) (st : UseKill)
    (varName : StringRef) : Option UseKill :=
  match StdMap.find st.variable_kill bb with
  | none => none
  | some killed =>
    if varName ∈ killed then some st
    else
      match StdMap.find st.variable_use bb with
      | none => none
      | some temp_variable_use =>
        let use1 := StdMap.insert (StdMap.erase st.variable_use bb) bb
          (if isExcluded I.opcode then temp_variable_use
           else insert varName temp_variable_use)
        if I.opcode = .Store then
          match StdMap.find st.variable_kill bb with
          | none => none
          | some temp_variable_kill =>
            some { variable_use := use1
                   variable_kill := StdMap.insert (StdMap.erase st.variable_kill bb) bb
                     (insert varName temp_variable_kill) }
        else some { variable_use := use1, variable_kill := st.variable_kill }

/-- The operand loop `for (int i = 0; i != I.getNumOperands(); i++)`. -/
def forOperands (bb : BasicBlockPtr) (I : Instruction) :
    List StringRef → UseKill → Option UseKill
  | [], st => some st
  | varName :: rest, st =>
    match operandStep bb I st varName with
    | none => none
    | some st1 => forOperands bb I rest st1

/-- The insertion of `I.getName()` into the kill set of `bb` (source lines 76-80). -/
def killResult (bb : BasicBlockPtr) (I : Instruction) (st : UseKill) : Option UseKill :=
  match StdMap.find st.variable_kill bb with
  | none => none
  | some temp_variable_kill =>
    some { variable_use := st.variable_use
           variable_kill := StdMap.insert (StdMap.erase st.variable_kill bb) bb
             (insert I.name temp_variable_kill) }

/-- The body of the instruction loop (source lines 46-80). -/
def instructionStep (bb : BasicBlockPtr) (st : UseKill) (I : Instruction) : Option UseKill :=
  match forOperands bb I I.operands st with
  | none => none
  | some st1 => killResult bb I st1

/-- The instruction loop `for (Instruction &I : basic_block)`. -/
def forInstructions (bb : BasicBlockPtr) : List Instruction → UseKill → Option UseKill
  | [], st => some st
  | I :: rest, st =>
    match instructionStep bb st I with
    | none => none
    | some st1 => forInstructions bb rest st1

/-- The body of the block loop (source lines 38-81): both maps get an empty
entry for the block, then its instructions are scanned. -/
def blockStep (st : UseKill) (B : BasicBlock) : Option UseKill :=
  forInstructions B.addr B.insts
    { variable_use := StdMap.insert st.variable_use B.addr ∅
      variable_kill := StdMap.insert st.variable_kill B.addr ∅ }

/-- The block loop `for (BasicBlock &basic_block : F)` of the extractor. -/
def forBlocks : List BasicBlock → UseKill → Option UseKill
  | [], st => some st
  | B :: rest, st =>
    match blockStep st B with
    | none => none
    | some st1 => forBlocks rest st1

/-- The extractor: source lines 33-82, from empty maps. -/
def extractUseKill (F : Func) : Option UseKill :=
  forBlocks F.blocks { variable_use := [], variable_kill := [] }

/-! ### The extractor on the two sets of the block being scanned

The loops of the extractor only read and replace the entries of the current
block; the functions below are those loops on that pair of sets `(use, kill)`. -/

/-- The body of the operand loop on the sets of the current block. -/
def scanOperand (I : Instruction) (s : Finset StringRef × Finset StringRef)
    (varName : StringRef) : Finset StringRef × Finset StringRef :=
  if varName ∈ s.2 then s
  else (if isExcluded I.opcode then s.1 else insert varName s.1,
        if I.opcode = .Store then insert varName s.2 else s.2)

/-- The operand loop on the sets of the current block. -/
def scanOperands (I : Instruction) :
    List StringRef → Finset StringRef × Finset StringRef →
      Finset StringRef × Finset StringRef
  | [], s => s
  | varName :: rest, s => scanOperands I rest (scanOperand I s varName)

/-- The body of the instruction loop on the sets of the current block. -/
def scanInstruction (s : Finset StringRef × Finset StringRef) (I : Instruction) :
    Finset StringRef × Finset StringRef :=
  ((scanOperands I I.operands s).1, insert I.name (scanOperands I I.operands s).2)

/-- The instruction loop on the sets of the current block. -/
def scanInstructions :
    List Instruction → Finset StringRef × Finset StringRef →
      Finset StringRef × Finset StringRef
  | [], s => s
  | I :: rest, s => scanInstructions rest (scanInstruction s I)

/-- The entries of block `bb` in the two maps are the pair `s`. -/
def Tracks (bb : BasicBlockPtr) (st : UseKill) (s : Finset StringRef × Finset StringRef) :
    Prop :=
  StdMap.find st.variable_use bb = some s.1 ∧ StdMap.find st.variable_kill bb = some s.2

instance (bb : BasicBlockPtr) (st : UseKill) (s : Finset StringRef × Finset StringRef) :
    Decidable (Tracks bb st s) := by
  unfold Tracks; infer_instance

/-- The two states agree on every key other than `bb`. -/
def SameElsewhere (bb : BasicBlockPtr) (st st1 : UseKill) : Prop :=
  ∀ a, a ≠ bb → StdMap.find st1.variable_use a = StdMap.find st.variable_use a ∧
    StdMap.find st1.variable_kill a = StdMap.find st.variable_kill a

/-! ## The worklist solver (source lines 85-128) -/

/-- The state of the solver: the `live_variables` map and the `workList`. -/
structure SolverState where
  live_variables : StdMap
  workList : List BasicBlockPtr
  deriving DecidableEq

/-- The initialisation loop (source lines 87-92): an empty entry for every
block, and every block pushed to the back of the work list. -/
def initSolver : List BasicBlock → SolverState → SolverState
  | [], st => st
  | B :: rest, st =>
    initSolver rest
      { live_variables := StdMap.insert st.live_variables B.addr ∅
        workList := st.workList ++ [B.addr] }

/-- The state in which the `while` loop is entered. -/
def initialState (F : Func) : SolverState :=
  initSolver F.blocks { live_variables := [], workList := [] }

/-- The successor loop (source lines 103-116): every successor contributes
`USE[succ] ∪ (LIVE_OUT[succ] minus KILL[succ])` to `resultSet`. -/
def forSuccessors (uk : UseKill) (live_variables : StdMap) :
    List BasicBlockPtr → Finset StringRef → Option (Finset StringRef)
  | [], resultSet => some resultSet
  | succ :: rest, resultSet =>
    match StdMap.find live_variables succ with
    | none => none
    | some live_variables_out =>
      match StdMap.find uk.variable_kill succ with
      | none => none
      | some temp_variable_kill =>
        match StdMap.find uk.variable_use succ with
        | none => none
        | some temp_variable_use =>
          forSuccessors uk live_variables rest
            (resultSet ∪ (temp_variable_use ∪ (live_variables_out \ temp_variable_kill)))

/-- The body of the `while` loop (source lines 97-127), entered with a non-empty
work list. -/
def loopBody (F : Func) (uk : UseKill) (st : SolverState) : Option SolverState :=
  match st.workList with
  | [] => none
  | tmp :: rest =>
    match StdMap.find st.live_variables tmp with
    | none => none
    | some originlive_variables_out =>
      match F.deref tmp with
      | none => none
      | some B =>
        match B.getTerminator with
        | none => none
        | some T =>
          match forSuccessors uk st.live_variables T.successors ∅ with
          | none => none
          | some resultSet =>
            some { live_variables :=
                     StdMap.insert (StdMap.erase st.live_variables tmp) tmp resultSet
                   workList :=
                     if resultSet ≠ originlive_variables_out then rest ++ B.preds else rest }

/-- How a run ends: the loop was left with an empty work list, a lookup failed
(undefined behaviour in the source), or the iteration bound was used up. -/
inductive Outcome (α : Type) where
  | finished : α → Outcome α
  | undefinedBehaviour : Outcome α
  | outOfFuel : Outcome α
  deriving DecidableEq

/-- The loop `while (!workList.empty())`, with at most `fuel` tests of its condition. -/
def whileLoop (F : Func) (uk : UseKill) : Nat → SolverState → Outcome StdMap
  | 0, _ => .outOfFuel
  | fuel + 1, st =>
    match st.workList with
    | [] => .finished st.live_variables
    | _ :: _ =>
      match loopBody F uk st with
      | none => .undefinedBehaviour
      | some st1 => whileLoop F uk fuel st1

/-- The state after exactly `n` executions of the loop body, started from `st`;
`none` when the loop stops or fails earlier. -/
def iterations (F : Func) (uk : UseKill) : Nat → SolverState → Option SolverState
  | 0, st => some st
  | n + 1, st =>
    match loopBody F uk st with
    | none => none
    | some st1 => iterations F uk n st1

/-- The three maps that the pass has computed when it starts printing. -/
structure Analysis where
  variable_use : StdMap
  variable_kill : StdMap
  live_variables : StdMap
  deriving DecidableEq

/-- The computation of `runOnFunction` up to the report: the extractor, then the
solver with at most `fuel` tests of the loop condition. -/
def runOnFunction (F : Func) (fuel : Nat) : Outcome Analysis :=
  match extractUseKill F with
  | none => .undefinedBehaviour
  | some uk =>
    match whileLoop F uk fuel (initialState F) with
    | .finished live => .finished
        { variable_use := uk.variable_use
          variable_kill := uk.variable_kill
          live_variables := live }
    | .undefinedBehaviour => .undefinedBehaviour
    | .outOfFuel => .outOfFuel

/-! ## Well-formed units, the dataflow equation and the iteration bound -/

/-- A well-formed CFG: blocks have distinct addresses, every block ends in a
terminator, every successor and every predecessor is a block of the unit, and
the predecessor lists are exactly the inverse of the successor lists. -/
def WellFormed (F : Func) : Prop :=
  F.addrs.Nodup ∧
  (∀ B ∈ F.blocks, B.getTerminator.isSome = true) ∧
  (∀ B ∈ F.blocks, ∀ s ∈ B.succs, s ∈ F.addrs) ∧
  (∀ B ∈ F.blocks, ∀ p ∈ B.preds, p ∈ F.addrs) ∧
  (∀ A ∈ F.blocks, ∀ B ∈ F.blocks, A.addr ∈ B.preds ↔ B.addr ∈ A.succs)

instance (F : Func) : Decidable (WellFormed F) := by
  unfold WellFormed; infer_instance

/-- The right-hand side of the dataflow equation for a block with successor list
`succs`: the union over `S` in `succs` of `USE[S] ∪ (LIVE_OUT[S] minus KILL[S])`. -/
def liveOutRHS (uk : UseKill) (LIVE_OUT : BasicBlockPtr → Finset StringRef)
    (succs : List BasicBlockPtr) : Finset StringRef :=
  succs.toFinset.biUnion
    (fun S => StdMap.get uk.variable_use S ∪ (LIVE_OUT S \ StdMap.get uk.variable_kill S))

/-- Every name stored in some entry of a map. -/
def nameUniverse : StdMap → Finset StringRef
  | [] => ∅
  | (_, v) :: m => v ∪ nameUniverse m

/-- The number of predecessor-list entries of the unit. -/
def totalPreds (F : Func) : Nat :=
  (F.blocks.map (fun B => B.preds.length)).sum

/-- A bound on the number of tests of the loop condition: every block is seeded
once, and each of the at most `blocks * names` growth steps pushes at most
`totalPreds` blocks. -/
def iterationBound (F : Func) (uk : UseKill) : Nat :=
  F.blocks.length
    + totalPreds F * (F.blocks.length * (nameUniverse uk.variable_use).card) + 1

/-- The iteration bound for the USE sets that the extractor produces from `F`. -/
def fuelBound (F : Func) : Nat :=
  match extractUseKill F with
  | some uk => iterationBound F uk
  | none => 0

/-- The potential that every execution of the loop body decreases. -/
def potential (F : Func) (uk : UseKill) (st : SolverState) : Nat :=
  st.workList.length
    + totalPreds F *
        (F.blocks.map (fun B => (nameUniverse uk.variable_use).card
            - (StdMap.get st.live_variables B.addr).card)).sum

/-- Both extractor maps have an entry for every block of the unit. -/
def HasEntries (F : Func) (uk : UseKill) : Prop :=
  ∀ B ∈ F.blocks, (∃ u, StdMap.find uk.variable_use B.addr = some u) ∧
    (∃ k, StdMap.find uk.variable_kill B.addr = some k)

/-- The invariant of the worklist loop. -/
structure SolverInv (F : Func) (uk : UseKill) (st : SolverState) : Prop where
  keys : ∀ B ∈ F.blocks, ∃ s, StdMap.find st.live_variables B.addr = some s
  queued : ∀ a ∈ st.workList, a ∈ F.addrs
  inflationary : ∀ B ∈ F.blocks, StdMap.get st.live_variables B.addr ⊆
    liveOutRHS uk (StdMap.get st.live_variables) B.succs
  settled : ∀ B ∈ F.blocks, B.addr ∉ st.workList →
    liveOutRHS uk (StdMap.get st.live_variables) B.succs ⊆
      StdMap.get st.live_variables B.addr
  least : ∀ M : BasicBlockPtr → StringRef → Prop,
    (∀ B ∈ F.blocks, ∀ n, ∀ S ∈ B.succs,
      (n ∈ StdMap.get uk.variable_use S ∨ (M S n ∧ n ∉ StdMap.get uk.variable_kill S)) →
        M B.addr n) →
    ∀ B ∈ F.blocks, ∀ n ∈ StdMap.get st.live_variables B.addr, M B.addr n

/-- The successor list of the block at address `a` (`[]` when `a` is no block). -/
def Func.succsOf (F : Func) (a : BasicBlockPtr) : List BasicBlockPtr :=
  match F.deref a with
  | some B => B.succs
  | none => []

/-- The path `B -> S1 -> ... -> Sk` (`path = [S1, ..., Sk]`, `k ≥ 1`) follows
successor edges, `n` is in `USE[Sk]`, and `n` is not in `KILL[Si]` for `i < k`. -/
def LivePath (F : Func) (uk : UseKill) (n : StringRef) :
    BasicBlockPtr → List BasicBlockPtr → Prop
  | _, [] => False
  | B, [S] => S ∈ F.succsOf B ∧ n ∈ StdMap.get uk.variable_use S
  | B, S :: T :: rest =>
    S ∈ F.succsOf B ∧ n ∉ StdMap.get uk.variable_kill S ∧ LivePath F uk n S (T :: rest)

/-! ## Concrete program units -/

/-- The instruction `br label %target` (the label is its only operand). -/
def brTo (label : StringRef) (target : BasicBlockPtr) : Instruction :=
  { opcode := .Br, operands := [label], name := "", successors := [target] }

/-- The instruction `ret i32 %x`. -/
def retVar (x : StringRef) : Instruction :=
  { opcode := .Ret, operands := [x], name := "", successors := [] }

/-- Block A of the linear chain: `br label %B`. -/
def blockA : BasicBlock :=
  { addr := 10, name := "A", insts := [brTo "B" 20], preds := [] }

/-- Block B of the linear chain: `br label %C`. -/
def blockB : BasicBlock :=
  { addr := 20, name := "B", insts := [brTo "C" 30], preds := [10] }

/-- Block C of the linear chain: `ret i32 %x`. -/
def blockC : BasicBlock :=
  { addr := 30, name := "C", insts := [retVar "x"], preds := [20] }

/-- Blocks A -> B -> C; A and B only branch, C returns `x`. -/
def chainABC : Func :=
  { name := "chain", blocks := [blockA, blockB, blockC] }

/-- The extractor output for `chainABC`. -/
def chainUseKill : UseKill :=
  (extractUseKill chainABC).getD { variable_use := [], variable_kill := [] }

/-- A chain of blocks inside a unit, for the variable `x`: every block but the
last has the next block as its only successor, an empty USE set and a KILL set
without `x`; the last block has no successor and USE = `{x}`. -/
def LinearChain (uk : UseKill) (x : StringRef) : List BasicBlock → Prop
  | [] => False
  | [Bn] => Bn.succs = [] ∧ StdMap.get uk.variable_use Bn.addr = {x}
  | B :: B1 :: rest =>
    B.succs = [B1.addr] ∧ StdMap.get uk.variable_use B.addr = ∅ ∧
      x ∉ StdMap.get uk.variable_kill B.addr ∧ LinearChain uk x (B1 :: rest)

/-- Block Q of `constUnit`: `%0 = add i32 %a, 1` and `ret i32 %0`; the constant,
the result of the addition and the result of the return have no name. -/
def blockQ : BasicBlock :=
  { addr := 2, name := "Q",
    insts :=
      [ { opcode := .Add, operands := ["a", ""], name := "", successors := [] },
        retVar "" ],
    preds := [1] }

/-- Blocks P -> Q, with unnamed values in Q. -/
def constUnit : Func :=
  { name := "const"
    blocks := [ { addr := 1, name := "P", insts := [brTo "Q" 2], preds := [] }, blockQ ] }

/-- The extractor output for `constUnit`. -/
def constUseKill : UseKill :=
  (extractUseKill constUnit).getD { variable_use := [], variable_kill := [] }

/-- The instruction `%y = load i32, i32* %p`. -/
def loadY : Instruction :=
  { opcode := .Load, operands := ["p"], name := "y", successors := [] }

/-- The instruction `%z = add i32 %y, %y`. -/
def addYY : Instruction :=
  { opcode := .Add, operands := ["y", "y"], name := "z", successors := [] }

/-- A block that defines `y` and reads it afterwards in a trackable instruction. -/
def shadowBlock : BasicBlock :=
  { addr := 1, name := "entry", insts := [loadY, addYY, retVar "z"], preds := [] }

/-- The unit made of `shadowBlock`. -/
def shadowUnit : Func :=
  { name := "shadow", blocks := [shadowBlock] }

/-- The extractor output for `shadowUnit`. -/
def shadowUseKill : UseKill :=
  (extractUseKill shadowUnit).getD { variable_use := [], variable_kill := [] }

/-- A block in which `v`, `q`, `a` and `b` occur only as operands of `store` and
`icmp`: `%q = alloca i32`, `store i32 %v, i32* %q`, `%c = icmp eq i32 %a, %b`,
`ret i32 %r`. -/
def excludedBlock : BasicBlock :=
  { addr := 1, name := "entry",
    insts :=
      [ { opcode := .Alloca, operands := [""], name := "q", successors := [] },
        { opcode := .Store, operands := ["v", "q"], name := "", successors := [] },
        { opcode := .ICmp, operands := ["a", "b"], name := "c", successors := [] },
        retVar "r" ],
    preds := [] }

/-- The unit made of `excludedBlock`. -/
def excludedUnit : Func :=
  { name := "excluded", blocks := [excludedBlock] }

/-- The extractor output for `excludedUnit`. -/
def excludedUseKill : UseKill :=
  (extractUseKill excludedUnit).getD { variable_use := [], variable_kill := [] }

/-- The exit block of `loopUnit`: `ret i32 %t`, no successor. -/
def exitBlock : BasicBlock :=
  { addr := 4, name := "exit", insts := [retVar "t"], preds := [3] }

/-- A unit with a self-loop (`head -> head`) and a cycle (`head -> body -> head`):
`entry -> head`, `head -> {head, body}`, `body -> {head, exit}`. -/
def loopUnit : Func :=
  { name := "loop"
    blocks :=
      [ { addr := 1, name := "entry", insts := [brTo "head" 2], preds := [] },
        { addr := 2, name := "head",
          insts :=
            [ { opcode := .Add, operands := ["i", "n"], name := "t", successors := [] },
              { opcode := .Br, operands := ["c", "body", "head"], name := "",
                successors := [2, 3] } ],
          preds := [1, 2, 3] },
        { addr := 3, name := "body",
          insts :=
            [ { opcode := .Load, operands := ["p"], name := "u", successors := [] },
              { opcode := .Br, operands := ["u", "exit", "head"], name := "",
                successors := [2, 4] } ],
          preds := [2] },
        exitBlock ] }

/-- The extractor output for `loopUnit`. -/
def loopUnitUseKill : UseKill :=
  (extractUseKill loopUnit).getD { variable_use := [], variable_kill := [] }

/-- The solver state of `loopUnit` after `n` executions of the loop body. -/
def loopUnitState (n : Nat) : SolverState :=
  (iterations loopUnit loopUnitUseKill n (initialState loopUnit)).getD
    { live_variables := [], workList := [] }

/-- Block A of the diamond: `br i1 %c, label %B, label %C`. -/
def diamondA : BasicBlock :=
  { addr := 1, name := "A",
    insts := [ { opcode := .Br, operands := ["c", "C", "B"], name := "",
                 successors := [2, 3] } ],
    preds := [] }

/-- Block B of the diamond: `%t = add i32 %v, %v` and `br label %D`. -/
def diamondB : BasicBlock :=
  { addr := 2, name := "B",
    insts := [ { opcode := .Add, operands := ["v", "v"], name := "t", successors := [] },
               brTo "D" 4 ],
    preds := [1] }

/-- Block C of the diamond: `br label %D`. -/
def diamondC : BasicBlock :=
  { addr := 3, name := "C", insts := [brTo "D" 4], preds := [1] }

/-- Block D of the diamond: `ret void`. -/
def diamondD : BasicBlock :=
  { addr := 4, name := "D",
    insts := [ { opcode := .Ret, operands := [], name := "", successors := [] } ],
    preds := [2, 3] }

/-- The diamond `A -> {B, C} -> D`. -/
def diamondUnit : Func :=
  { name := "diamond", blocks := [diamondA, diamondB, diamondC, diamondD] }

/-- The extractor output for `diamondUnit`. -/
def diamondUseKill : UseKill :=
  (extractUseKill diamondUnit).getD { variable_use := [], variable_kill := [] }

/-- A block that branches to itself or to the exit: `%j = add i32 %i, %n` and
`br i1 %c, label %L, label %X`. -/
def selfLoopL : BasicBlock :=
  { addr := 2, name := "L",
    insts := [ { opcode := .Add, operands := ["i", "n"], name := "j", successors := [] },
               { opcode := .Br, operands := ["c", "X", "L"], name := "",
                 successors := [2, 3] } ],
    preds := [1, 2] }

/-- The unit `entry -> L`, `L -> {L, X}`, where `X` is `ret i32 %r`. -/
def selfLoopUnit : Func :=
  { name := "selfloop"
    blocks :=
      [ { addr := 1, name := "entry", insts := [brTo "L" 2], preds := [] },
        selfLoopL,
        { addr := 3, name := "X", insts := [retVar "r"], preds := [2] } ] }

/-- The extractor output for `selfLoopUnit`. -/
def selfLoopUseKill : UseKill :=
  (extractUseKill selfLoopUnit).getD { variable_use := [], variable_kill := [] }

/-- The instruction `store i32 %v, i32* %q`: the stored value `v` is the 1st
operand, the target `q` the 2nd; a store has no result name. -/
def storeVQ : Instruction :=
  { opcode := .Store, operands := ["v", "q"], name := "", successors := [] }

/-- A block made of `store i32 %v, i32* %q` and `ret void`. -/
def storeBlock : BasicBlock :=
  { addr := 1, name := "entry",
    insts := [ storeVQ, { opcode := .Ret, operands := [], name := "", successors := [] } ],
    preds := [] }

/-- The unit made of `storeBlock`. -/
def storeUnit : Func :=
  { name := "store", blocks := [storeBlock] }

/-! ## Other seedings of the work list -/

/-- The addresses of the exit blocks (the blocks without successors). -/
def exitBlocks (F : Func) : List BasicBlockPtr :=
  (F.blocks.filter (fun B => B.succs.isEmpty)).map (fun B => B.addr)

/-- The state in which the loop is entered when the work list is seeded with
`seed` instead of every block; `LIVE_OUT` is empty for every block, as in the
source. -/
def seededState (F : Func) (seed : List BasicBlockPtr) : SolverState :=
  { live_variables := (initialState F).live_variables, workList := seed }

/-! ## Units that differ in the order of their lists -/

/-- What the extractor reads of an instruction: its opcode, the names of its
operands and its result name. -/
def Instruction.core (I : Instruction) : Opcode × List StringRef × StringRef :=
  (I.opcode, I.operands, I.name)

/-- The block `B1` is the block `B` with its successors and its predecessors
listed in another order. -/
def BasicBlock.Reordered (B B1 : BasicBlock) : Prop :=
  B1.addr = B.addr ∧ B1.name = B.name ∧
    B1.insts.map Instruction.core = B.insts.map Instruction.core ∧
    B1.succs.Perm B.succs ∧ B1.preds.Perm B.preds

instance (B B1 : BasicBlock) : Decidable (B.Reordered B1) := by
  unfold BasicBlock.Reordered; infer_instance

/-- The unit `F1` is the unit `F` with its blocks enumerated in another order and
the successor and predecessor lists of its blocks listed in another order. -/
def Func.Reordered (F F1 : Func) : Prop :=
  F1.addrs.Perm F.addrs ∧
    ∀ B ∈ F.blocks, ∀ B1 ∈ F1.blocks, B1.addr = B.addr → B.Reordered B1

instance (F F1 : Func) : Decidable (F.Reordered F1) := by
  unfold Func.Reordered; infer_instance

/-- The unit `loopUnit` with its blocks in the order exit, body, head, entry, and
with the successor lists and the predecessor lists of head and body permuted. -/
def loopUnitReordered : Func :=
  { name := "loop"
    blocks :=
      [ exitBlock,
        { addr := 3, name := "body",
          insts :=
            [ { opcode := .Load, operands := ["p"], name := "u", successors := [] },
              { opcode := .Br, operands := ["u", "exit", "head"], name := "",
                successors := [4, 2] } ],
          preds := [2] },
        { addr := 2, name := "head",
          insts :=
            [ { opcode := .Add, operands := ["i", "n"], name := "t", successors := [] },
              { opcode := .Br, operands := ["c", "body", "head"], name := "",
                successors := [3, 2] } ],
          preds := [3, 1, 2] },
        { addr := 1, name := "entry", insts := [brTo "head" 2], preds := [] } ] }

/-! ## Totality -/

/-- The map `m` holds exactly one entry for every address of the duplicate-free
list `l`, and no other entry. -/
def KeysAre (l : List BasicBlockPtr) (m : StdMap) : Prop :=
  (StdMap.keys m).Perm l

instance (l : List BasicBlockPtr) (m : StdMap) : Decidable (KeysAre l m) := by
  unfold KeysAre; infer_instance

/-- The units on which the pass is total: blocks have distinct addresses, every
block ends in a terminator, and every successor and every predecessor of a block
is a block of the unit. -/
def Closed (F : Func) : Prop :=
  F.addrs.Nodup ∧
  (∀ B ∈ F.blocks, B.getTerminator.isSome = true) ∧
  (∀ B ∈ F.blocks, ∀ s ∈ B.succs, s ∈ F.addrs) ∧
  (∀ B ∈ F.blocks, ∀ p ∈ B.preds, p ∈ F.addrs)

instance (F : Func) : Decidable (Closed F) := by
  unfold Closed; infer_instance

/-- The part of the loop invariant that needs no relation between predecessor
and successor lists: one entry per block, a work list of blocks, stored sets
that the formula does not shrink and that hold names of USE sets only. -/
structure SolverSafe (F : Func) (uk : UseKill) (st : SolverState) : Prop where
  keys : KeysAre F.addrs st.live_variables
  queued : ∀ a ∈ st.workList, a ∈ F.addrs
  inflationary : ∀ B ∈ F.blocks, StdMap.get st.live_variables B.addr ⊆
    liveOutRHS uk (StdMap.get st.live_variables) B.succs
  bounded : ∀ B ∈ F.blocks,
    StdMap.get st.live_variables B.addr ⊆ nameUniverse uk.variable_use

/-! ## Malformed units -/

/-- The unit has a block without a terminator, or a block with a successor that
is no block of the unit. -/
def Malformed (F : Func) : Prop :=
  ∃ B ∈ F.blocks, B.getTerminator = none ∨ ∃ s ∈ B.succs, s ∉ F.addrs

instance (F : Func) : Decidable (Malformed F) := by
  unfold Malformed; infer_instance

/-- The map has no entry for an address that is no block of the unit. -/
def NoExtra (F : Func) (m : StdMap) : Prop :=
  ∀ a, a ∉ F.addrs → StdMap.find m a = none

/-- A unit whose second block has no terminator: `entry` is `br label %next`,
`next` is `%y = add i32 %x, %x` and nothing else. -/
def unterminatedUnit : Func :=
  { name := "unterminated"
    blocks :=
      [ { addr := 1, name := "entry", insts := [brTo "next" 2], preds := [] },
        { addr := 2, name := "next",
          insts := [ { opcode := .Add, operands := ["x", "x"], name := "y",
                       successors := [] } ],
          preds := [1] } ] }

/-- A unit with a dangling successor reference: `entry` branches to address 7,
which is no block of the unit. -/
def danglingUnit : Func :=
  { name := "dangling"
    blocks :=
      [ { addr := 1, name := "entry", insts := [brTo "next" 2], preds := [] },
        { addr := 2, name := "next", insts := [brTo "gone" 7], preds := [1] } ] }

/-! ## The report (source lines 30-31 and 130-141) -/

/-- The order of `StringRef` in a `std::set`: lexicographic on the characters. -/
def nameLE (a b : StringRef) : Prop :=
  a.data ≤ b.data

instance (a b : StringRef) : Decidable (nameLE a b) := by
  unfold nameLE; infer_instance

instance : IsTotal StringRef nameLE :=
  ⟨fun a b => le_total a.data b.data⟩

instance : IsTrans StringRef nameLE :=
  ⟨fun a _ _ h1 h2 => le_trans (a := a.data) h1 h2⟩

instance : IsAntisymm StringRef nameLE :=
  ⟨fun a _ h1 h2 => String.ext (le_antisymm (a := a.data) h1 h2)⟩

/-- The members of a `std::set<StringRef>` in iteration order. -/
def setOrder (s : Finset StringRef) : List StringRef :=
  Quot.liftOn s.val (List.insertionSort nameLE) (fun a b h =>
    List.eq_of_perm_of_sorted
      ((List.perm_insertionSort _ a).trans (h.trans (List.perm_insertionSort _ b).symm))
      (List.sorted_insertionSort _ a) (List.sorted_insertionSort _ b))

/-- The inner printing loop (source lines 136-139): every name is followed by
one space. -/
def printNames : List StringRef → String
  | [] => ""
  | v :: rest => v ++ " " ++ printNames rest

/-- The text printed for one entry of `live_variables` (source lines 135-140):
the name of the block, `": "`, the names, a newline. -/
def printLine (blockName : StringRef) (live_variables_out : Finset StringRef) : String :=
  blockName ++ ": " ++ printNames (setOrder live_variables_out) ++ "\n"

/-- The printing loop over the entries of `live_variables` (source lines 131-141). -/
def printLiveVariables (F : Func) : StdMap → Option String
  | [] => some ""
  | (tmpkey, live_variables_out) :: rest =>
    match F.deref tmpkey with
    | none => none
    | some B =>
      match printLiveVariables F rest with
      | none => none
      | some text => some (printLine B.name live_variables_out ++ text)

/-- The text that a run of the pass writes to `errs()`: the header of source
lines 30-31, then the lines of the printing loop. -/
def errsText (F : Func) (fuel : Nat) : Outcome String :=
  match runOnFunction F fuel with
  | .finished a =>
    match printLiveVariables F a.live_variables with
    | some text => .finished ("LivenessAnalysis: " ++ F.name ++ "\n" ++ text)
    | none => .undefinedBehaviour
  | .undefinedBehaviour => .undefinedBehaviour
  | .outOfFuel => .outOfFuel

/-- The concatenation of a list of lines. -/
def concatLines : List String → String
  | [] => ""
  | line :: rest => line ++ concatLines rest

/-! ## Scenario conditions on the instructions of a block -/

/-- No instruction of the block outside the four excluded categories has an
operand of any kind (a variable, a callee, a label or an unnamed constant). -/
def BasicBlock.ReadsNothing (B : BasicBlock) : Prop :=
  ∀ I ∈ B.insts, isExcluded I.opcode = false → I.operands = []

instance (B : BasicBlock) : Decidable B.ReadsNothing := by
  unfold BasicBlock.ReadsNothing; infer_instance

/-- Every operand of an instruction of the block outside the four excluded
categories is named `x`. -/
def BasicBlock.ReadsOnly (B : BasicBlock) (x : StringRef) : Prop :=
  ∀ I ∈ B.insts, isExcluded I.opcode = false → ∀ n ∈ I.operands, n = x

instance (B : BasicBlock) (x : StringRef) : Decidable (B.ReadsOnly x) := by
  unfold BasicBlock.ReadsOnly; infer_instance

/-- Some instruction of the block outside the four excluded categories has the
operand `x`, and no instruction before it has the result name `x` or is a
`store` with an operand named `x`. -/
def BasicBlock.ReadsBeforeDef (B : BasicBlock) (x : StringRef) : Prop :=
  ∃ pre I post, B.insts = pre ++ I :: post ∧ isExcluded I.opcode = false ∧
    x ∈ I.operands ∧ ∀ J ∈ pre, J.name ≠ x ∧ (J.opcode = Opcode.Store → x ∉ J.operands)

/-- No instruction of the block has the result name `x`, and no `store` of the
block has an operand named `x`. -/
def BasicBlock.DoesNotDefine (B : BasicBlock) (x : StringRef) : Prop :=
  ∀ I ∈ B.insts, I.name ≠ x ∧ (I.opcode = Opcode.Store → x ∉ I.operands)

instance (B : BasicBlock) (x : StringRef) : Decidable (B.DoesNotDefine x) := by
  unfold BasicBlock.DoesNotDefine; infer_instance

/-- A chain of blocks described by their instructions, for the variable `x`:
every block but the last has the next block as its only successor, reads
nothing in a trackable instruction and does not define `x`; the last block has
no successor, reads `x` before any definition of `x`, and reads nothing but `x`
in its trackable instructions. -/
def InstructionChain (x : StringRef) : List BasicBlock → Prop
  | [] => False
  | [Bn] => Bn.succs = [] ∧ Bn.ReadsOnly x ∧ Bn.ReadsBeforeDef x
  | B :: B1 :: rest =>
    B.succs = [B1.addr] ∧ B.ReadsNothing ∧ B.DoesNotDefine x ∧
      InstructionChain x (B1 :: rest)

/-- The chain A -> B -> C in which B is `call void @h(); br label %C` and C is
`call void @g(i32 %x); ret void`: no block defines a variable, A and B read no
variable, and C reads the variable `x`; the callees `h` and `g` are operands of
the calls. -/
def chainCall : Func :=
  { name := "chaincall"
    blocks :=
      [ { addr := 10, name := "A", insts := [brTo "B" 20], preds := [] },
        { addr := 20, name := "B",
          insts := [ { opcode := .Call, operands := ["h"], name := "", successors := [] },
                     brTo "C" 30 ],
          preds := [10] },
        { addr := 30, name := "C",
          insts := [ { opcode := .Call, operands := ["x", "g"], name := "",
                       successors := [] },
                     { opcode := .Ret, operands := [], name := "", successors := [] } ],
          preds := [20] } ] }

/-- The diamond `A -> {B, C} -> D` in which B is `%t = add i32 %v, 1;
br label %D`: B reads the variable `v` and the unnamed constant `1`; A, C and D
read and define no variable. -/
def diamondConst : Func :=
  { name := "diamondconst"
    blocks :=
      [ diamondA,
        { addr := 2, name := "B",
          insts := [ { opcode := .Add, operands := ["v", ""], name := "t",
                       successors := [] },
                     brTo "D" 4 ],
          preds := [1] },
        diamondC, diamondD ] }

/-! ## Lemmas on `StdMap` -/

theorem StdMap.find_erase_self (m : StdMap) (k : BasicBlockPtr) :
    StdMap.find (StdMap.erase m k) k = none := by
  induction m with
  | nil => rfl
  | cons e m ih =>
    obtain ⟨k1, v⟩ := e
    by_cases h : k1 = k
    · simp [StdMap.erase, h, ih]
    · simp [StdMap.erase, StdMap.find, h, ih]

theorem StdMap.find_erase_ne (m : StdMap) (k a : BasicBlockPtr) (h : a ≠ k) :
    StdMap.find (StdMap.erase m k) a = StdMap.find m a := by
  induction m with
  | nil => rfl
  | cons e m ih =>
    obtain ⟨k1, v⟩ := e
    by_cases h1 : k1 = k
    · have h2 : ¬ k1 = a := fun h3 => h (h3.symm.trans h1)
      simp only [StdMap.erase, StdMap.find, if_pos h1, if_neg h2, ih]
    · by_cases h2 : k1 = a
      · simp only [StdMap.erase, StdMap.find, if_neg h1, if_pos h2]
      · simp only [StdMap.erase, StdMap.find, if_neg h1, if_neg h2, ih]

theorem StdMap.find_place_ne (m : StdMap) (k a : BasicBlockPtr) (v : Finset StringRef)
    (h : a ≠ k) : StdMap.find (StdMap.place m k v) a = StdMap.find m a := by
  have hk : ¬ k = a := fun h3 => h h3.symm
  induction m with
  | nil => simp only [StdMap.place, StdMap.find, if_neg hk]
  | cons e m ih =>
    obtain ⟨k1, v1⟩ := e
    by_cases h2 : k < k1
    · simp only [StdMap.place, if_pos h2, StdMap.find, if_neg hk]
    · simp only [StdMap.place, if_neg h2, StdMap.find, ih]

theorem StdMap.find_place_self (m : StdMap) (k : BasicBlockPtr) (v : Finset StringRef)
    (h : StdMap.find m k = none) : StdMap.find (StdMap.place m k v) k = some v := by
  induction m with
  | nil => simp [StdMap.place, StdMap.find]
  | cons e m ih =>
    obtain ⟨k1, v1⟩ := e
    by_cases h1 : k1 = k
    · simp [StdMap.find, h1] at h
    · simp only [StdMap.find, if_neg h1] at h
      by_cases h2 : k < k1
      · simp [StdMap.place, StdMap.find, h2]
      · simp only [StdMap.place, if_neg h2, StdMap.find, if_neg h1, ih h]

theorem StdMap.find_insert_ne (m : StdMap) (k a : BasicBlockPtr) (v : Finset StringRef)
    (h : a ≠ k) : StdMap.find (StdMap.insert m k v) a = StdMap.find m a := by
  unfold StdMap.insert
  cases hf : StdMap.find m k with
  | some w => rfl
  | none => exact StdMap.find_place_ne m k a v h

theorem StdMap.find_insert_self (m : StdMap) (k : BasicBlockPtr) (v : Finset StringRef) :
    StdMap.find (StdMap.insert m k v) k = some ((StdMap.find m k).getD v) := by
  unfold StdMap.insert
  cases hf : StdMap.find m k with
  | some w => simp [hf]
  | none => simpa using StdMap.find_place_self m k v hf

theorem StdMap.find_update_self (m : StdMap) (k : BasicBlockPtr) (v : Finset StringRef) :
    StdMap.find (StdMap.insert (StdMap.erase m k) k v) k = some v := by
  rw [StdMap.find_insert_self, StdMap.find_erase_self]; rfl

theorem StdMap.find_update_ne (m : StdMap) (k a : BasicBlockPtr) (v : Finset StringRef)
    (h : a ≠ k) :
    StdMap.find (StdMap.insert (StdMap.erase m k) k v) a = StdMap.find m a := by
  rw [StdMap.find_insert_ne _ _ _ _ h, StdMap.find_erase_ne _ _ _ h]

theorem StdMap.get_update (m : StdMap) (k a : BasicBlockPtr) (v : Finset StringRef) :
    StdMap.get (StdMap.insert (StdMap.erase m k) k v) a
      = if a = k then v else StdMap.get m a := by
  unfold StdMap.get
  by_cases h : a = k
  · subst h; simp [StdMap.find_update_self]
  · simp [StdMap.find_update_ne _ _ _ _ h, h]

theorem StdMap.get_of_find {m : StdMap} {k : BasicBlockPtr} {v : Finset StringRef}
    (h : StdMap.find m k = some v) : StdMap.get m k = v := by
  simp [StdMap.get, h]

/-! ## Lemmas on the program representation -/

theorem mem_addrs_iff (F : Func) (a : BasicBlockPtr) :
    a ∈ F.addrs ↔ ∃ B ∈ F.blocks, B.addr = a := by
  simp [Func.addrs]

theorem addr_mem_addrs {F : Func} {B : BasicBlock} (h : B ∈ F.blocks) : B.addr ∈ F.addrs :=
  (mem_addrs_iff F B.addr).2 ⟨B, h, rfl⟩

theorem find_addr_of_mem (B : BasicBlock) :
    ∀ l : List BasicBlock, (l.map (fun X => X.addr)).Nodup → B ∈ l →
      l.find? (fun X => X.addr == B.addr) = some B := by
  intro l
  induction l with
  | nil => intro _ h; simp at h
  | cons X l ih =>
    intro hnd hmem
    rw [List.map_cons, List.nodup_cons] at hnd
    by_cases hX : X = B
    · subst hX; simp
    · have hB : B ∈ l := by
        rcases List.mem_cons.1 hmem with h | h
        · exact absurd h.symm hX
        · exact h
      have hne : ¬ X.addr = B.addr := by
        intro h
        apply hnd.1
        rw [h]
        exact List.mem_map.2 ⟨B, hB, rfl⟩
      have hb : (X.addr == B.addr) = false := by simpa using hne
      rw [List.find?_cons, hb]
      exact ih hnd.2 hB

theorem deref_of_mem {F : Func} (hnd : F.addrs.Nodup) {B : BasicBlock} (h : B ∈ F.blocks) :
    F.deref B.addr = some B :=
  find_addr_of_mem B F.blocks hnd h

theorem eq_of_addr_eq {F : Func} (hnd : F.addrs.Nodup) {A B : BasicBlock}
    (hA : A ∈ F.blocks) (hB : B ∈ F.blocks) (h : A.addr = B.addr) : A = B := by
  have h1 := deref_of_mem hnd hA
  have h2 := deref_of_mem hnd hB
  rw [h] at h1
  exact Option.some.inj (h1.symm.trans h2)

theorem succs_of_getTerminator {B : BasicBlock} {T : Instruction}
    (h : B.getTerminator = some T) : B.succs = T.successors := by
  simp [BasicBlock.succs, h]

/-! ## Lemmas on the dataflow equation -/

theorem mem_liveOutRHS (uk : UseKill) (L : BasicBlockPtr → Finset StringRef)
    (succs : List BasicBlockPtr) (n : StringRef) :
    n ∈ liveOutRHS uk L succs ↔
      ∃ S ∈ succs, n ∈ StdMap.get uk.variable_use S ∨
        (n ∈ L S ∧ n ∉ StdMap.get uk.variable_kill S) := by
  simp [liveOutRHS]

theorem liveOutRHS_mono (uk : UseKill) {L1 L2 : BasicBlockPtr → Finset StringRef}
    (succs : List BasicBlockPtr) (h : ∀ S ∈ succs, L1 S ⊆ L2 S) :
    liveOutRHS uk L1 succs ⊆ liveOutRHS uk L2 succs := by
  intro n hn
  rw [mem_liveOutRHS] at hn ⊢
  obtain ⟨S, hS, hn⟩ := hn
  refine ⟨S, hS, ?_⟩
  rcases hn with hn | ⟨hn, hk⟩
  · exact Or.inl hn
  · exact Or.inr ⟨h S hS hn, hk⟩

theorem liveOutRHS_congr (uk : UseKill) {L1 L2 : BasicBlockPtr → Finset StringRef}
    (succs : List BasicBlockPtr) (h : ∀ S ∈ succs, L1 S = L2 S) :
    liveOutRHS uk L1 succs = liveOutRHS uk L2 succs :=
  Finset.Subset.antisymm (liveOutRHS_mono uk succs (fun S hS => by rw [h S hS]))
    (liveOutRHS_mono uk succs (fun S hS => by rw [h S hS]))

theorem liveOutRHS_nil (uk : UseKill) (L : BasicBlockPtr → Finset StringRef) :
    liveOutRHS uk L [] = ∅ := by
  simp [liveOutRHS]

theorem liveOutRHS_cons (uk : UseKill) (L : BasicBlockPtr → Finset StringRef)
    (S : BasicBlockPtr) (rest : List BasicBlockPtr) :
    liveOutRHS uk L (S :: rest) =
      (StdMap.get uk.variable_use S ∪ (L S \ StdMap.get uk.variable_kill S))
        ∪ liveOutRHS uk L rest := by
  simp [liveOutRHS, Finset.biUnion_insert]

/-- The successor loop computes the right-hand side of the equation, provided
that every successor has an entry in the three maps. -/
theorem forSuccessors_eq (uk : UseKill) (live : StdMap) :
    ∀ (succs : List BasicBlockPtr) (acc : Finset StringRef),
      (∀ S ∈ succs, (∃ l, StdMap.find live S = some l) ∧
        (∃ k, StdMap.find uk.variable_kill S = some k) ∧
        (∃ u, StdMap.find uk.variable_use S = some u)) →
      forSuccessors uk live succs acc
        = some (acc ∪ liveOutRHS uk (StdMap.get live) succs) := by
  intro succs
  induction succs with
  | nil => intro acc _; simp [forSuccessors, liveOutRHS_nil]
  | cons S rest ih =>
    intro acc h
    obtain ⟨⟨l, hl⟩, ⟨k, hk⟩, ⟨u, hu⟩⟩ := h S (List.mem_cons_self _ _)
    have hrest := ih (acc ∪ (u ∪ (l \ k))) (fun S1 hS1 => h S1 (List.mem_cons_of_mem _ hS1))
    simp only [forSuccessors, hl, hk, hu, hrest, liveOutRHS_cons,
      StdMap.get_of_find hl, StdMap.get_of_find hk, StdMap.get_of_find hu,
      Finset.union_assoc]

/-! ## One execution of the loop body -/

/-- The state that the loop body produces for the popped block `B`. -/
theorem loopBody_spec {F : Func} {uk : UseKill} {st : SolverState}
    (hwf : WellFormed F) (huk : HasEntries F uk) (hinv : SolverInv F uk st)
    {tmp : BasicBlockPtr} {rest : List BasicBlockPtr} (hwl : st.workList = tmp :: rest) :
    ∃ B ∈ F.blocks, B.addr = tmp ∧
      loopBody F uk st = some
        { live_variables := StdMap.insert (StdMap.erase st.live_variables tmp) tmp
            (liveOutRHS uk (StdMap.get st.live_variables) B.succs)
          workList :=
            if liveOutRHS uk (StdMap.get st.live_variables) B.succs
                ≠ StdMap.get st.live_variables tmp
            then rest ++ B.preds else rest } := by
  obtain ⟨hnd, hterm, hsucc, _, _⟩ := hwf
  have htmp : tmp ∈ F.addrs := hinv.queued tmp (by rw [hwl]; exact List.mem_cons_self _ _)
  obtain ⟨B, hB, hBaddr⟩ := (mem_addrs_iff F tmp).1 htmp
  refine ⟨B, hB, hBaddr, ?_⟩
  obtain ⟨origin, horigin⟩ := hinv.keys B hB
  rw [hBaddr] at horigin
  have hderef : F.deref tmp = some B := by rw [← hBaddr]; exact deref_of_mem hnd hB
  obtain ⟨T, hT⟩ := Option.isSome_iff_exists.1 (hterm B hB)
  have hsuccs : B.succs = T.successors := succs_of_getTerminator hT
  have hent : ∀ S ∈ T.successors, (∃ l, StdMap.find st.live_variables S = some l) ∧
      (∃ k, StdMap.find uk.variable_kill S = some k) ∧
      (∃ u, StdMap.find uk.variable_use S = some u) := by
    intro S hS
    rw [← hsuccs] at hS
    obtain ⟨B1, hB1, hB1addr⟩ := (mem_addrs_iff F S).1 (hsucc B hB S hS)
    subst hB1addr
    exact ⟨hinv.keys B1 hB1, (huk B1 hB1).2, (huk B1 hB1).1⟩
  have hfor := forSuccessors_eq uk st.live_variables T.successors ∅ hent
  rw [Finset.empty_union] at hfor
  simp only [loopBody, hwl, horigin, hderef, hT, hfor, hsuccs, StdMap.get_of_find horigin]

/-- The loop body never removes a name from a stored set. -/
theorem update_mono {F : Func} {uk : UseKill} {st : SolverState}
    (hinv : SolverInv F uk st) {B : BasicBlock} (hB : B ∈ F.blocks) (a : BasicBlockPtr) :
    StdMap.get st.live_variables a ⊆
      StdMap.get (StdMap.insert (StdMap.erase st.live_variables B.addr) B.addr
        (liveOutRHS uk (StdMap.get st.live_variables) B.succs)) a := by
  rw [StdMap.get_update]
  by_cases h : a = B.addr
  · rw [if_pos h, h]; exact hinv.inflationary B hB
  · rw [if_neg h]

/-- The invariant of the loop is kept by the loop body. -/
theorem loopBody_inv {F : Func} {uk : UseKill} {st : SolverState}
    (hwf : WellFormed F) (hinv : SolverInv F uk st)
    {tmp : BasicBlockPtr} {rest : List BasicBlockPtr} (hwl : st.workList = tmp :: rest)
    {B : BasicBlock} (hB : B ∈ F.blocks) (hBaddr : B.addr = tmp) :
    SolverInv F uk
      { live_variables := StdMap.insert (StdMap.erase st.live_variables tmp) tmp
          (liveOutRHS uk (StdMap.get st.live_variables) B.succs)
        workList :=
          if liveOutRHS uk (StdMap.get st.live_variables) B.succs
              ≠ StdMap.get st.live_variables tmp
          then rest ++ B.preds else rest } := by
  obtain ⟨hnd, _, hsucc, hpred, hinverse⟩ := hwf
  subst hBaddr
  have hmono := fun a => @update_mono F uk st hinv B hB a
  have hrest : ∀ a ∈ rest, a ∈ F.addrs := fun a ha =>
    hinv.queued a (by rw [hwl]; exact List.mem_cons_of_mem _ ha)
  refine ⟨?_, ?_, ?_, ?_, ?_⟩
  · intro B1 hB1
    by_cases h : B1.addr = B.addr
    · exact ⟨_, by rw [h]; exact StdMap.find_update_self _ _ _⟩
    · rw [StdMap.find_update_ne _ _ _ _ h]; exact hinv.keys B1 hB1
  · intro a ha
    simp only at ha
    split at ha
    · rcases List.mem_append.1 ha with h | h
      · exact hrest a h
      · exact hpred B hB a h
    · exact hrest a ha
  · intro B1 hB1
    simp only
    refine Finset.Subset.trans ?_ (liveOutRHS_mono uk B1.succs (fun S _ => hmono S))
    rw [StdMap.get_update]
    by_cases h : B1.addr = B.addr
    · rw [if_pos h, eq_of_addr_eq hnd hB1 hB h]
    · rw [if_neg h]; exact hinv.inflationary B1 hB1
  · intro B1 hB1 hnot
    simp only at hnot ⊢
    have hsame : liveOutRHS uk (StdMap.get (StdMap.insert
          (StdMap.erase st.live_variables B.addr) B.addr
          (liveOutRHS uk (StdMap.get st.live_variables) B.succs))) B1.succs
        = liveOutRHS uk (StdMap.get st.live_variables) B1.succs := by
      apply liveOutRHS_congr
      intro S hS
      rw [StdMap.get_update]
      by_cases hSB : S = B.addr
      · rw [if_pos hSB]
        by_cases hch : liveOutRHS uk (StdMap.get st.live_variables) B.succs
            = StdMap.get st.live_variables B.addr
        · rw [hch, hSB]
        · exfalso
          rw [if_pos hch] at hnot
          apply hnot
          apply List.mem_append_right
          rw [hSB] at hS
          exact (hinverse B1 hB1 B hB).2 hS
      · rw [if_neg hSB]
    rw [hsame, StdMap.get_update]
    by_cases h : B1.addr = B.addr
    · rw [if_pos h, eq_of_addr_eq hnd hB1 hB h]
    · rw [if_neg h]
      apply hinv.settled B1 hB1
      rw [hwl]
      intro hmem
      rcases List.mem_cons.1 hmem with h1 | h1
      · exact h h1
      · apply hnot
        split
        · exact List.mem_append_left _ h1
        · exact h1
  · intro M hM B1 hB1 n hn
    simp only at hn
    rw [StdMap.get_update] at hn
    by_cases h : B1.addr = B.addr
    · rw [if_pos h, mem_liveOutRHS] at hn
      obtain ⟨S, hS, hn⟩ := hn
      have hB1B := eq_of_addr_eq hnd hB1 hB h
      subst hB1B
      apply hM B1 hB1 n S hS
      rcases hn with hn | ⟨hn, hk⟩
      · exact Or.inl hn
      · obtain ⟨B2, hB2, hB2addr⟩ := (mem_addrs_iff F S).1 (hsucc B1 hB1 S hS)
        subst hB2addr
        exact Or.inr ⟨hinv.least M hM B2 hB2 n hn, hk⟩
    · rw [if_neg h] at hn
      exact hinv.least M hM B1 hB1 n hn

/-! ## The initial state -/

theorem initSolver_workList (l : List BasicBlock) :
    ∀ st : SolverState,
      (initSolver l st).workList = st.workList ++ l.map (fun B => B.addr) := by
  induction l with
  | nil => intro st; simp [initSolver]
  | cons B l ih => intro st; simp [initSolver, ih]

theorem initSolver_find (l : List BasicBlock) :
    ∀ (st : SolverState) (a : BasicBlockPtr),
      StdMap.find (initSolver l st).live_variables a =
        if a ∈ l.map (fun B => B.addr)
        then some ((StdMap.find st.live_variables a).getD ∅)
        else StdMap.find st.live_variables a := by
  induction l with
  | nil => intro st a; simp [initSolver]
  | cons B l ih =>
    intro st a
    rw [initSolver, ih]
    by_cases h : a = B.addr
    · subst h
      simp [StdMap.find_insert_self]
    · simp only [StdMap.find_insert_ne _ _ _ _ h, List.map_cons, List.mem_cons, h, false_or]

theorem initialState_workList (F : Func) : (initialState F).workList = F.addrs := by
  simp [initialState, initSolver_workList, Func.addrs]

theorem initialState_find (F : Func) (a : BasicBlockPtr) :
    StdMap.find (initialState F).live_variables a =
      if a ∈ F.addrs then some ∅ else none := by
  simp [initialState, initSolver_find, Func.addrs, StdMap.find]

theorem initialState_get (F : Func) (a : BasicBlockPtr) :
    StdMap.get (initialState F).live_variables a = ∅ := by
  unfold StdMap.get
  rw [initialState_find]
  split <;> rfl

theorem initialState_inv (F : Func) (uk : UseKill) : SolverInv F uk (initialState F) := by
  refine ⟨?_, ?_, ?_, ?_, ?_⟩
  · intro B hB
    exact ⟨∅, by rw [initialState_find, if_pos (addr_mem_addrs hB)]⟩
  · intro a ha
    rwa [initialState_workList] at ha
  · intro B _
    rw [initialState_get]
    exact Finset.empty_subset _
  · intro B hB hnot
    rw [initialState_workList] at hnot
    exact absurd (addr_mem_addrs hB) hnot
  · intro M _ B _ n hn
    rw [initialState_get] at hn
    simp at hn

/-! ## Termination of the loop -/

theorem get_subset_nameUniverse (m : StdMap) (a : BasicBlockPtr) :
    StdMap.get m a ⊆ nameUniverse m := by
  induction m with
  | nil => simp [StdMap.get, StdMap.find]
  | cons e m ih =>
    obtain ⟨k, v⟩ := e
    unfold StdMap.get at ih ⊢
    by_cases h : k = a
    · simp only [StdMap.find, if_pos h, Option.getD_some, nameUniverse]
      exact Finset.subset_union_left
    · simp only [StdMap.find, if_neg h, nameUniverse]
      exact Finset.Subset.trans ih Finset.subset_union_right

/-- Every stored set stays inside the set of names that occur in a USE set. -/
theorem live_subset_nameUniverse {F : Func} {uk : UseKill} {st : SolverState}
    (hinv : SolverInv F uk st) {B : BasicBlock} (hB : B ∈ F.blocks) :
    StdMap.get st.live_variables B.addr ⊆ nameUniverse uk.variable_use := by
  intro n hn
  refine hinv.least (fun _ n => n ∈ nameUniverse uk.variable_use) ?_ B hB n hn
  intro B1 _ n1 S _ h
  rcases h with h | ⟨h, _⟩
  · exact get_subset_nameUniverse _ _ h
  · exact h

theorem preds_length_le_totalPreds {F : Func} {B : BasicBlock} (hB : B ∈ F.blocks) :
    B.preds.length ≤ totalPreds F :=
  List.le_sum_of_mem (List.mem_map.2 ⟨B, hB, rfl⟩)

/-- Every execution of the loop body decreases the potential. -/
theorem potential_decreases {F : Func} {uk : UseKill} {st : SolverState}
    (hinv : SolverInv F uk st)
    {tmp : BasicBlockPtr} {rest : List BasicBlockPtr} (hwl : st.workList = tmp :: rest)
    {B : BasicBlock} (hB : B ∈ F.blocks) (hBaddr : B.addr = tmp)
    (hinv1 : SolverInv F uk
      { live_variables := StdMap.insert (StdMap.erase st.live_variables tmp) tmp
          (liveOutRHS uk (StdMap.get st.live_variables) B.succs)
        workList :=
          if liveOutRHS uk (StdMap.get st.live_variables) B.succs
              ≠ StdMap.get st.live_variables tmp
          then rest ++ B.preds else rest }) :
    potential F uk
      { live_variables := StdMap.insert (StdMap.erase st.live_variables tmp) tmp
          (liveOutRHS uk (StdMap.get st.live_variables) B.succs)
        workList :=
          if liveOutRHS uk (StdMap.get st.live_variables) B.succs
              ≠ StdMap.get st.live_variables tmp
          then rest ++ B.preds else rest } < potential F uk st := by
  subst hBaddr
  unfold potential
  simp only [hwl, List.length_cons]
  by_cases hch : liveOutRHS uk (StdMap.get st.live_variables) B.succs
      = StdMap.get st.live_variables B.addr
  · have hsame : ∀ a, StdMap.get (StdMap.insert (StdMap.erase st.live_variables B.addr)
        B.addr (liveOutRHS uk (StdMap.get st.live_variables) B.succs)) a
        = StdMap.get st.live_variables a := by
      intro a
      rw [StdMap.get_update]
      by_cases h : a = B.addr
      · rw [if_pos h, hch, h]
      · rw [if_neg h]
    simp only [hsame]
    rw [if_neg (not_not.2 hch)]
    omega
  · simp only [ne_eq, hch, not_false_eq_true, if_true, List.length_append]
    have hlt : (F.blocks.map (fun B1 => (nameUniverse uk.variable_use).card
          - (StdMap.get (StdMap.insert (StdMap.erase st.live_variables B.addr) B.addr
              (liveOutRHS uk (StdMap.get st.live_variables) B.succs)) B1.addr).card)).sum
        < (F.blocks.map (fun B1 => (nameUniverse uk.variable_use).card
          - (StdMap.get st.live_variables B1.addr).card)).sum := by
      apply List.sum_lt_sum
      · intro B1 _
        have := Finset.card_le_card (@update_mono F uk st hinv B hB B1.addr)
        omega
      · refine ⟨B, hB, ?_⟩
        have hss : StdMap.get st.live_variables B.addr ⊂
            liveOutRHS uk (StdMap.get st.live_variables) B.succs :=
          Finset.ssubset_iff_subset_ne.2 ⟨hinv.inflationary B hB, fun h => hch h.symm⟩
        have h1 := Finset.card_lt_card hss
        have h2 := Finset.card_le_card (live_subset_nameUniverse hinv1 hB)
        simp only [StdMap.get_update, if_true] at h2 ⊢
        omega
    have hp := preds_length_le_totalPreds hB
    have hmul := Nat.mul_le_mul_left (totalPreds F) (Nat.succ_le_of_lt hlt)
    rw [Nat.mul_succ] at hmul
    omega

/-- With more fuel than the potential, the loop leaves with an empty work list,
in a state that satisfies the invariant and is reached by finitely many
executions of the loop body. -/
theorem whileLoop_finishes {F : Func} {uk : UseKill}
    (hwf : WellFormed F) (huk : HasEntries F uk) :
    ∀ (fuel : Nat) (st : SolverState), SolverInv F uk st → potential F uk st < fuel →
      ∃ live n, whileLoop F uk fuel st = .finished live ∧
        iterations F uk n st = some { live_variables := live, workList := [] } ∧
        n < fuel ∧
        SolverInv F uk { live_variables := live, workList := [] } := by
  intro fuel
  induction fuel with
  | zero => intro st _ h; exact absurd h (Nat.not_lt_zero _)
  | succ fuel ih =>
    intro st hinv hpot
    obtain ⟨live0, wl⟩ := st
    cases wl with
    | nil =>
      exact ⟨live0, 0, by simp [whileLoop], by simp [iterations], Nat.succ_pos _, hinv⟩
    | cons tmp rest =>
      have hwl : ({ live_variables := live0, workList := tmp :: rest } : SolverState).workList
          = tmp :: rest := rfl
      obtain ⟨B, hB, hBaddr, hbody⟩ := loopBody_spec hwf huk hinv hwl
      have hinv1 := loopBody_inv hwf hinv hwl hB hBaddr
      have hdec := potential_decreases hinv hwl hB hBaddr hinv1
      obtain ⟨live, n, hrun, hiter, hn, hfin⟩ := ih _ hinv1 (by omega)
      refine ⟨live, n + 1, ?_, ?_, by omega, hfin⟩
      · simp only [whileLoop, hbody, hrun]
      · simp only [iterations, hbody, hiter]

theorem potential_initialState_lt (F : Func) (uk : UseKill) :
    potential F uk (initialState F) < iterationBound F uk := by
  unfold potential iterationBound
  have h1 : (initialState F).workList.length = F.blocks.length := by
    simp [initialState_workList, Func.addrs]
  have h2 : (F.blocks.map (fun B => (nameUniverse uk.variable_use).card
        - (StdMap.get (initialState F).live_variables B.addr).card)).sum
      = F.blocks.length * (nameUniverse uk.variable_use).card := by
    simp [initialState_get]
  rw [h1, h2]
  omega

/-! ## The extractor reads and writes the entries of the current block only -/

theorem SameElsewhere.refl (bb : BasicBlockPtr) (st : UseKill) : SameElsewhere bb st st :=
  fun _ _ => ⟨rfl, rfl⟩

theorem SameElsewhere.trans {bb : BasicBlockPtr} {st st1 st2 : UseKill}
    (h1 : SameElsewhere bb st st1) (h2 : SameElsewhere bb st1 st2) :
    SameElsewhere bb st st2 :=
  fun a ha => ⟨(h2 a ha).1.trans (h1 a ha).1, (h2 a ha).2.trans (h1 a ha).2⟩

theorem operandStep_spec (bb : BasicBlockPtr) (I : Instruction) (st : UseKill)
    (s : Finset StringRef × Finset StringRef) (varName : StringRef)
    (h : Tracks bb st s) :
    ∃ st1, operandStep bb I st varName = some st1 ∧
      Tracks bb st1 (scanOperand I s varName) ∧ SameElsewhere bb st st1 := by
  obtain ⟨hu, hk⟩ := h
  unfold operandStep scanOperand
  rw [hk]
  simp only
  by_cases hmem : varName ∈ s.2
  · rw [if_pos hmem, if_pos hmem]
    exact ⟨st, rfl, ⟨hu, hk⟩, SameElsewhere.refl bb st⟩
  · rw [if_neg hmem, if_neg hmem, hu]
    simp only
    by_cases hst : I.opcode = Opcode.Store
    · rw [if_pos hst, if_pos hst]
      refine ⟨_, rfl, ⟨StdMap.find_update_self _ _ _, StdMap.find_update_self _ _ _⟩, ?_⟩
      intro a ha
      exact ⟨StdMap.find_update_ne _ _ _ _ ha, StdMap.find_update_ne _ _ _ _ ha⟩
    · rw [if_neg hst, if_neg hst]
      refine ⟨_, rfl, ⟨StdMap.find_update_self _ _ _, hk⟩, ?_⟩
      intro a ha
      exact ⟨StdMap.find_update_ne _ _ _ _ ha, rfl⟩

theorem forOperands_spec (bb : BasicBlockPtr) (I : Instruction) :
    ∀ (ops : List StringRef) (st : UseKill) (s : Finset StringRef × Finset StringRef),
      Tracks bb st s →
      ∃ st1, forOperands bb I ops st = some st1 ∧
        Tracks bb st1 (scanOperands I ops s) ∧ SameElsewhere bb st st1 := by
  intro ops
  induction ops with
  | nil => intro st s h; exact ⟨st, rfl, h, SameElsewhere.refl bb st⟩
  | cons v rest ih =>
    intro st s h
    obtain ⟨st1, h1, ht1, hs1⟩ := operandStep_spec bb I st s v h
    obtain ⟨st2, h2, ht2, hs2⟩ := ih st1 _ ht1
    exact ⟨st2, by simp only [forOperands, h1, h2], ht2, hs1.trans hs2⟩

theorem killResult_spec (bb : BasicBlockPtr) (I : Instruction) (st : UseKill)
    (s : Finset StringRef × Finset StringRef) (h : Tracks bb st s) :
    ∃ st1, killResult bb I st = some st1 ∧
      Tracks bb st1 (s.1, insert I.name s.2) ∧ SameElsewhere bb st st1 := by
  obtain ⟨hu, hk⟩ := h
  unfold killResult
  rw [hk]
  refine ⟨_, rfl, ⟨hu, StdMap.find_update_self _ _ _⟩, ?_⟩
  intro a ha
  exact ⟨rfl, StdMap.find_update_ne _ _ _ _ ha⟩

theorem instructionStep_spec (bb : BasicBlockPtr) (I : Instruction) (st : UseKill)
    (s : Finset StringRef × Finset StringRef) (h : Tracks bb st s) :
    ∃ st1, instructionStep bb st I = some st1 ∧
      Tracks bb st1 (scanInstruction s I) ∧ SameElsewhere bb st st1 := by
  obtain ⟨st1, h1, ht1, hs1⟩ := forOperands_spec bb I I.operands st s h
  obtain ⟨st2, h2, ht2, hs2⟩ := killResult_spec bb I st1 _ ht1
  exact ⟨st2, by simp only [instructionStep, h1, h2], ht2, hs1.trans hs2⟩

theorem forInstructions_spec (bb : BasicBlockPtr) :
    ∀ (insts : List Instruction) (st : UseKill) (s : Finset StringRef × Finset StringRef),
      Tracks bb st s →
      ∃ st1, forInstructions bb insts st = some st1 ∧
        Tracks bb st1 (scanInstructions insts s) ∧ SameElsewhere bb st st1 := by
  intro insts
  induction insts with
  | nil => intro st s h; exact ⟨st, rfl, h, SameElsewhere.refl bb st⟩
  | cons I rest ih =>
    intro st s h
    obtain ⟨st1, h1, ht1, hs1⟩ := instructionStep_spec bb I st s h
    obtain ⟨st2, h2, ht2, hs2⟩ := ih st1 _ ht1
    exact ⟨st2, by simp only [forInstructions, h1, h2], ht2, hs1.trans hs2⟩

theorem blockStep_spec (st : UseKill) (B : BasicBlock) :
    ∃ st1, blockStep st B = some st1 ∧
      Tracks B.addr st1 (scanInstructions B.insts
        ((StdMap.find st.variable_use B.addr).getD ∅,
         (StdMap.find st.variable_kill B.addr).getD ∅)) ∧
      SameElsewhere B.addr st st1 := by
  have h0 : Tracks B.addr
      { variable_use := StdMap.insert st.variable_use B.addr ∅
        variable_kill := StdMap.insert st.variable_kill B.addr ∅ }
      ((StdMap.find st.variable_use B.addr).getD ∅,
       (StdMap.find st.variable_kill B.addr).getD ∅) :=
    ⟨StdMap.find_insert_self _ _ _, StdMap.find_insert_self _ _ _⟩
  obtain ⟨st1, h1, ht1, hs1⟩ := forInstructions_spec B.addr B.insts _ _ h0
  refine ⟨st1, h1, ht1, ?_⟩
  intro a ha
  exact ⟨((hs1 a ha).1).trans (StdMap.find_insert_ne _ _ _ _ ha),
    ((hs1 a ha).2).trans (StdMap.find_insert_ne _ _ _ _ ha)⟩

theorem forBlocks_spec :
    ∀ (l : List BasicBlock) (st : UseKill),
      ∃ st1, forBlocks l st = some st1 ∧
        (∀ a, a ∉ l.map (fun B => B.addr) →
          StdMap.find st1.variable_use a = StdMap.find st.variable_use a ∧
          StdMap.find st1.variable_kill a = StdMap.find st.variable_kill a) ∧
        (∀ B ∈ l, ∃ s, Tracks B.addr st1 s) ∧
        ((l.map (fun B => B.addr)).Nodup → ∀ B ∈ l,
          Tracks B.addr st1 (scanInstructions B.insts
            ((StdMap.find st.variable_use B.addr).getD ∅,
             (StdMap.find st.variable_kill B.addr).getD ∅))) := by
  intro l
  induction l with
  | nil =>
    intro st
    exact ⟨st, rfl, fun _ _ => ⟨rfl, rfl⟩, fun B hB => absurd hB (List.not_mem_nil B),
      fun _ B hB => absurd hB (List.not_mem_nil B)⟩
  | cons B rest ih =>
    intro st
    obtain ⟨st1, h1, ht1, hs1⟩ := blockStep_spec st B
    obtain ⟨st2, h2, hout, hent, hnd⟩ := ih st1
    refine ⟨st2, by simp only [forBlocks, h1, h2], ?_, ?_, ?_⟩
    · intro a ha
      rw [List.map_cons, List.mem_cons, not_or] at ha
      exact ⟨(hout a ha.2).1.trans (hs1 a ha.1).1, (hout a ha.2).2.trans (hs1 a ha.1).2⟩
    · intro B1 hB1
      by_cases hin : B1.addr ∈ rest.map (fun B => B.addr)
      · obtain ⟨B2, hB2, hB2addr⟩ := List.mem_map.1 hin
        have hB2addr1 : B2.addr = B1.addr := hB2addr
        rw [← hB2addr1]
        exact hent B2 hB2
      · rcases List.mem_cons.1 hB1 with h | h
        · subst h
          exact ⟨_, (hout _ hin).1.trans ht1.1, (hout _ hin).2.trans ht1.2⟩
        · exact absurd (List.mem_map.2 ⟨B1, h, rfl⟩) hin
    · intro hnodup B1 hB1
      rw [List.map_cons, List.nodup_cons] at hnodup
      rcases List.mem_cons.1 hB1 with h | h
      · subst h
        exact ⟨(hout _ hnodup.1).1.trans ht1.1, (hout _ hnodup.1).2.trans ht1.2⟩
      · have hne : B1.addr ≠ B.addr := by
          intro heq
          apply hnodup.1
          rw [← heq]
          exact List.mem_map.2 ⟨B1, h, rfl⟩
        have := hnd hnodup.2 B1 h
        rw [(hs1 _ hne).1, (hs1 _ hne).2] at this
        exact this

/-- The extractor never fails; both maps get an entry for every block, and when
block addresses are distinct the entries of a block are the result of scanning
its instructions from two empty sets. -/
theorem extractUseKill_spec (F : Func) :
    ∃ uk, extractUseKill F = some uk ∧ HasEntries F uk ∧
      (F.addrs.Nodup → ∀ B ∈ F.blocks,
        Tracks B.addr uk (scanInstructions B.insts (∅, ∅))) ∧
      (∀ a, a ∉ F.addrs → StdMap.find uk.variable_use a = none ∧
        StdMap.find uk.variable_kill a = none) := by
  obtain ⟨uk, h, hout, hent, hnd⟩ :=
    forBlocks_spec F.blocks { variable_use := [], variable_kill := [] }
  refine ⟨uk, h, ?_, ?_, ?_⟩
  · intro B hB
    obtain ⟨s, hs⟩ := hent B hB
    exact ⟨⟨_, hs.1⟩, ⟨_, hs.2⟩⟩
  · intro hnodup B hB
    exact hnd hnodup B hB
  · intro a ha
    exact hout a ha

/-! ## Runs of the loop -/

theorem deref_some {F : Func} {a : BasicBlockPtr} {B : BasicBlock}
    (h : F.deref a = some B) : B ∈ F.blocks ∧ B.addr = a := by
  unfold Func.deref at h
  exact ⟨List.mem_of_find?_eq_some h, by simpa using List.find?_some h⟩

/-- What a successful execution of the loop body has done. -/
theorem loopBody_some {F : Func} {uk : UseKill} {st st1 : SolverState}
    (h : loopBody F uk st = some st1) :
    ∃ tmp rest origin B T resultSet,
      st.workList = tmp :: rest ∧
      StdMap.find st.live_variables tmp = some origin ∧
      F.deref tmp = some B ∧ B.getTerminator = some T ∧
      forSuccessors uk st.live_variables T.successors ∅ = some resultSet ∧
      st1 = { live_variables :=
                StdMap.insert (StdMap.erase st.live_variables tmp) tmp resultSet
              workList := if resultSet ≠ origin then rest ++ B.preds else rest } := by
  unfold loopBody at h
  split at h
  · exact absurd h (by simp)
  · rename_i tmp rest hwl
    split at h
    · exact absurd h (by simp)
    · rename_i origin horigin
      split at h
      · exact absurd h (by simp)
      · rename_i B hB
        split at h
        · exact absurd h (by simp)
        · rename_i T hT
          split at h
          · exact absurd h (by simp)
          · rename_i resultSet hres
            exact ⟨tmp, rest, origin, B, T, resultSet, hwl, horigin, hB, hT, hres,
              (Option.some.inj h).symm⟩

/-- What the successor loop returns when all its lookups succeed. -/
theorem forSuccessors_some (uk : UseKill) (live : StdMap) :
    ∀ (succs : List BasicBlockPtr) (acc resultSet : Finset StringRef),
      forSuccessors uk live succs acc = some resultSet →
      resultSet = acc ∪ liveOutRHS uk (StdMap.get live) succs := by
  intro succs
  induction succs with
  | nil =>
    intro acc resultSet h
    simp only [forSuccessors, Option.some.injEq] at h
    simp [liveOutRHS_nil, h]
  | cons S rest ih =>
    intro acc resultSet h
    unfold forSuccessors at h
    split at h
    · exact absurd h (by simp)
    · rename_i l hl
      split at h
      · exact absurd h (by simp)
      · rename_i k hk
        split at h
        · exact absurd h (by simp)
        · rename_i u hu
          rw [ih _ _ h, liveOutRHS_cons, StdMap.get_of_find hl, StdMap.get_of_find hk,
            StdMap.get_of_find hu, Finset.union_assoc]

theorem whileLoop_mono (F : Func) (uk : UseKill) :
    ∀ (fuel : Nat) (st : SolverState) (live : StdMap) (k : Nat),
      whileLoop F uk fuel st = .finished live →
      whileLoop F uk (fuel + k) st = .finished live := by
  intro fuel
  induction fuel with
  | zero => intro st live k h; simp [whileLoop] at h
  | succ fuel ih =>
    intro st live k h
    rw [Nat.add_right_comm]
    unfold whileLoop at h ⊢
    split
    · rename_i hwl
      rw [hwl] at h
      exact h
    · rename_i hd tl hwl
      rw [hwl] at h
      simp only at h ⊢
      cases hb : loopBody F uk st with
      | none => rw [hb] at h; simp at h
      | some st1 =>
        rw [hb] at h
        simp only at h ⊢
        exact ih st1 live k h

/-- A finished run of the loop is a finite sequence of executions of its body
that ends with an empty work list. -/
theorem whileLoop_iterations (F : Func) (uk : UseKill) :
    ∀ (fuel : Nat) (st : SolverState) (live : StdMap),
      whileLoop F uk fuel st = .finished live →
      ∃ n, iterations F uk n st = some { live_variables := live, workList := [] } := by
  intro fuel
  induction fuel with
  | zero => intro st live h; simp [whileLoop] at h
  | succ fuel ih =>
    intro st live h
    unfold whileLoop at h
    split at h
    · rename_i hwl
      obtain ⟨l0, wl⟩ := st
      simp only at hwl h
      subst hwl
      simp only [Outcome.finished.injEq] at h
      subst h
      exact ⟨0, rfl⟩
    · cases hb : loopBody F uk st with
      | none => rw [hb] at h; simp at h
      | some st1 =>
        rw [hb] at h
        obtain ⟨n, hn⟩ := ih st1 live h
        exact ⟨n + 1, by simp only [iterations, hb, hn]⟩

/-- Every state reached by executions of the loop body satisfies the invariant. -/
theorem iterations_inv {F : Func} {uk : UseKill}
    (hwf : WellFormed F) (huk : HasEntries F uk) :
    ∀ (n : Nat) (st0 st : SolverState), SolverInv F uk st0 →
      iterations F uk n st0 = some st → SolverInv F uk st := by
  intro n
  induction n with
  | zero =>
    intro st0 st hinv h
    simp only [iterations, Option.some.injEq] at h
    rw [← h]; exact hinv
  | succ n ih =>
    intro st0 st hinv h
    unfold iterations at h
    cases hb : loopBody F uk st0 with
    | none => rw [hb] at h; simp at h
    | some st1 =>
      rw [hb] at h
      simp only at h
      obtain ⟨tmp, rest, _, _, _, _, hwl, _, _, _, _, _⟩ := loopBody_some hb
      obtain ⟨B, hB, hBaddr, hbody⟩ := loopBody_spec hwf huk hinv hwl
      have hinv1 := loopBody_inv hwf hinv hwl hB hBaddr
      rw [hb] at hbody
      rw [← Option.some.inj hbody] at hinv1
      exact ih st1 st hinv1 h

/-- On a well-formed unit the pass finishes with any fuel from `fuelBound F` on,
in a state reached by executions of the loop body that satisfies the invariant. -/
theorem runOnFunction_finishes {F : Func} (hwf : WellFormed F) :
    ∃ uk live n, extractUseKill F = some uk ∧ HasEntries F uk ∧
      iterations F uk n (initialState F) = some { live_variables := live, workList := [] } ∧
      n < fuelBound F ∧
      SolverInv F uk { live_variables := live, workList := [] } ∧
      ∀ fuel, fuelBound F ≤ fuel →
        whileLoop F uk fuel (initialState F) = .finished live ∧
        runOnFunction F fuel = .finished
          { variable_use := uk.variable_use
            variable_kill := uk.variable_kill
            live_variables := live } := by
  obtain ⟨uk, hex, huk, _, _⟩ := extractUseKill_spec F
  have hbound : fuelBound F = iterationBound F uk := by simp [fuelBound, hex]
  obtain ⟨live, n, hrun, hiter, hn, hfin⟩ :=
    whileLoop_finishes hwf huk (iterationBound F uk) (initialState F)
      (initialState_inv F uk) (potential_initialState_lt F uk)
  refine ⟨uk, live, n, hex, huk, hiter, by rw [hbound]; exact hn, hfin, ?_⟩
  intro fuel hfuel
  obtain ⟨k, hk⟩ := Nat.exists_eq_add_of_le hfuel
  have hrun1 : whileLoop F uk fuel (initialState F) = .finished live := by
    rw [hk, hbound]
    exact whileLoop_mono F uk _ _ _ k hrun
  exact ⟨hrun1, by simp only [runOnFunction, hex, hrun1]⟩

/-- In a state with an empty work list that satisfies the invariant, every block
satisfies the dataflow equation. -/
theorem fixed_point_of_inv {F : Func} {uk : UseKill} {live : StdMap}
    (hinv : SolverInv F uk { live_variables := live, workList := [] })
    {B : BasicBlock} (hB : B ∈ F.blocks) :
    StdMap.get live B.addr = liveOutRHS uk (StdMap.get live) B.succs :=
  Finset.Subset.antisymm (hinv.inflationary B hB)
    (hinv.settled B hB (List.not_mem_nil _))

/-- The recomputation of the formula for a block of a well-formed unit succeeds
and returns the right-hand side of the equation. -/
theorem recompute_eq {F : Func} {uk : UseKill} {st : SolverState}
    (hwf : WellFormed F) (huk : HasEntries F uk) (hinv : SolverInv F uk st)
    {B : BasicBlock} (hB : B ∈ F.blocks) :
    ∃ T, B.getTerminator = some T ∧
      forSuccessors uk st.live_variables T.successors ∅
        = some (liveOutRHS uk (StdMap.get st.live_variables) B.succs) := by
  obtain ⟨_, hterm, hsucc, _, _⟩ := hwf
  obtain ⟨T, hT⟩ := Option.isSome_iff_exists.1 (hterm B hB)
  have hsuccs : B.succs = T.successors := succs_of_getTerminator hT
  refine ⟨T, hT, ?_⟩
  have hent : ∀ S ∈ T.successors, (∃ l, StdMap.find st.live_variables S = some l) ∧
      (∃ k, StdMap.find uk.variable_kill S = some k) ∧
      (∃ u, StdMap.find uk.variable_use S = some u) := by
    intro S hS
    rw [← hsuccs] at hS
    obtain ⟨B1, hB1, hB1addr⟩ := (mem_addrs_iff F S).1 (hsucc B hB S hS)
    subst hB1addr
    exact ⟨hinv.keys B1 hB1, (huk B1 hB1).2, (huk B1 hB1).1⟩
  rw [forSuccessors_eq uk st.live_variables T.successors ∅ hent, Finset.empty_union, hsuccs]

theorem succsOf_of_mem {F : Func} (hnd : F.addrs.Nodup) {B : BasicBlock}
    (hB : B ∈ F.blocks) : F.succsOf B.addr = B.succs := by
  simp [Func.succsOf, deref_of_mem hnd hB]

/-- A name that reaches a use along a path is in every solution of the equation. -/
theorem livePath_mem {F : Func} {uk : UseKill} {live : StdMap} (hwf : WellFormed F)
    (hfix : ∀ B ∈ F.blocks,
      StdMap.get live B.addr = liveOutRHS uk (StdMap.get live) B.succs)
    (n : StringRef) :
    ∀ (path : List BasicBlockPtr) (B : BasicBlock), B ∈ F.blocks →
      LivePath F uk n B.addr path → n ∈ StdMap.get live B.addr := by
  intro path
  induction path with
  | nil => intro B _ h; exact absurd h (by simp [LivePath])
  | cons S rest ih =>
    intro B hB h
    rw [hfix B hB, mem_liveOutRHS]
    cases rest with
    | nil =>
      simp only [LivePath, succsOf_of_mem hwf.1 hB] at h
      exact ⟨S, h.1, Or.inl h.2⟩
    | cons T rest =>
      simp only [LivePath, succsOf_of_mem hwf.1 hB] at h
      obtain ⟨B1, hB1, hB1addr⟩ := (mem_addrs_iff F S).1 (hwf.2.2.1 B hB S h.1)
      subst hB1addr
      exact ⟨B1.addr, h.1, Or.inr ⟨ih B1 hB1 h.2.2, h.2.1⟩⟩

/-- Every name of a stored set reaches a use along a path. -/
theorem mem_livePath {F : Func} {uk : UseKill} {st : SolverState} (hwf : WellFormed F)
    (hinv : SolverInv F uk st) {B : BasicBlock} (hB : B ∈ F.blocks) {n : StringRef}
    (hn : n ∈ StdMap.get st.live_variables B.addr) :
    ∃ path, LivePath F uk n B.addr path := by
  refine hinv.least (fun a n => ∃ path, LivePath F uk n a path) ?_ B hB n hn
  intro B1 hB1 n1 S hS h
  rcases h with h | ⟨⟨path, hpath⟩, hk⟩
  · exact ⟨[S], by simp only [LivePath, succsOf_of_mem hwf.1 hB1]; exact ⟨hS, h⟩⟩
  · cases path with
    | nil => exact absurd hpath (by simp [LivePath])
    | cons T rest =>
      exact ⟨S :: T :: rest, by
        simp only [LivePath, succsOf_of_mem hwf.1 hB1]; exact ⟨hS, hk, hpath⟩⟩

/-! ## The solver: liveness, fixed point, termination, monotonicity -/

/-- C1: on a well-formed CFG the pass finishes, and a name `n` is in the final
LIVE_OUT of a block `B` exactly when some path `B -> S1 -> ... -> Sk` (`k ≥ 1`)
along successor edges has `n` in `USE[Sk]` and `n` outside `KILL[Si]` for all
`i < k`, for the USE and KILL sets that the extractor produced. -/
theorem liveOut_iff_livePath (F : Func) (hwf : WellFormed F) (fuel : Nat)
    (hfuel : fuelBound F ≤ fuel) :
    ∃ uk live, extractUseKill F = some uk ∧
      runOnFunction F fuel = .finished
        { variable_use := uk.variable_use
          variable_kill := uk.variable_kill
          live_variables := live } ∧
      ∀ B ∈ F.blocks, ∃ s, StdMap.find live B.addr = some s ∧
        ∀ n : StringRef, n ∈ s ↔ ∃ path, LivePath F uk n B.addr path := by
  obtain ⟨uk, live, _, hex, _, _, _, hinv, hrun⟩ := runOnFunction_finishes hwf
  refine ⟨uk, live, hex, (hrun fuel hfuel).2, ?_⟩
  intro B hB
  obtain ⟨s, hs⟩ := hinv.keys B hB
  refine ⟨s, hs, ?_⟩
  intro n
  have hget : StdMap.get live B.addr = s := StdMap.get_of_find hs
  constructor
  · intro hn
    exact mem_livePath hwf hinv hB (by rw [hget]; exact hn)
  · rintro ⟨path, hpath⟩
    rw [← hget]
    exact livePath_mem hwf (fun B1 hB1 => fixed_point_of_inv hinv hB1) n path B hB hpath

/-- Witness for C1: the unit `loopUnit`, which has a self-loop and a cycle. -/
theorem liveOut_iff_livePath_witness :
    WellFormed loopUnit ∧ fuelBound loopUnit ≤ 100 ∧
    ∃ uk live, extractUseKill loopUnit = some uk ∧
      runOnFunction loopUnit 100 = .finished
        { variable_use := uk.variable_use
          variable_kill := uk.variable_kill
          live_variables := live } ∧
      ∀ B ∈ loopUnit.blocks, ∃ s, StdMap.find live B.addr = some s ∧
        ∀ n : StringRef, n ∈ s ↔ ∃ path, LivePath loopUnit uk n B.addr path :=
  ⟨by decide, by decide, liveOut_iff_livePath loopUnit (by decide) 100 (by decide)⟩

/-- C2: on a well-formed CFG the mapping left in `live_variables` when the loop
ends is the least fixed point of
`LIVE_OUT[B] = union over successors S of (USE[S] ∪ (LIVE_OUT[S] minus KILL[S]))`:
it satisfies the equation at every block, and it is contained block-wise in
every mapping that satisfies the equation at every block. -/
theorem liveOut_least_fixed_point (F : Func) (hwf : WellFormed F) (fuel : Nat)
    (hfuel : fuelBound F ≤ fuel) :
    ∃ uk live, extractUseKill F = some uk ∧
      whileLoop F uk fuel (initialState F) = .finished live ∧
      (∀ B ∈ F.blocks, ∃ s, StdMap.find live B.addr = some s ∧
        s = liveOutRHS uk (StdMap.get live) B.succs) ∧
      ∀ M : BasicBlockPtr → Finset StringRef,
        (∀ B ∈ F.blocks, M B.addr = liveOutRHS uk M B.succs) →
        ∀ B ∈ F.blocks, StdMap.get live B.addr ⊆ M B.addr := by
  obtain ⟨uk, live, _, hex, _, _, _, hinv, hrun⟩ := runOnFunction_finishes hwf
  refine ⟨uk, live, hex, (hrun fuel hfuel).1, ?_, ?_⟩
  · intro B hB
    obtain ⟨s, hs⟩ := hinv.keys B hB
    refine ⟨s, hs, ?_⟩
    rw [← StdMap.get_of_find hs]
    exact fixed_point_of_inv hinv hB
  · intro M hM B hB n hn
    refine hinv.least (fun a n => n ∈ M a) ?_ B hB n hn
    intro B1 hB1 n1 S hS h
    rw [hM B1 hB1, mem_liveOutRHS]
    exact ⟨S, hS, h⟩

/-- Witness for C2: the unit `loopUnit`. -/
theorem liveOut_least_fixed_point_witness :
    WellFormed loopUnit ∧ fuelBound loopUnit ≤ 100 ∧
    ∃ uk live, extractUseKill loopUnit = some uk ∧
      whileLoop loopUnit uk 100 (initialState loopUnit) = .finished live ∧
      (∀ B ∈ loopUnit.blocks, ∃ s, StdMap.find live B.addr = some s ∧
        s = liveOutRHS uk (StdMap.get live) B.succs) ∧
      ∀ M : BasicBlockPtr → Finset StringRef,
        (∀ B ∈ loopUnit.blocks, M B.addr = liveOutRHS uk M B.succs) →
        ∀ B ∈ loopUnit.blocks, StdMap.get live B.addr ⊆ M B.addr :=
  ⟨by decide, by decide, liveOut_least_fixed_point loopUnit (by decide) 100 (by decide)⟩

/-- C3: fixed-point stability. On a well-formed CFG, once the work list is empty,
running the successor loop of the solver again for any block `B` against the
final mapping succeeds and returns exactly the set stored for `B`. -/
theorem fixed_point_stability (F : Func) (hwf : WellFormed F) (fuel : Nat)
    (hfuel : fuelBound F ≤ fuel) :
    ∃ uk live, extractUseKill F = some uk ∧
      whileLoop F uk fuel (initialState F) = .finished live ∧
      ∀ B ∈ F.blocks, ∃ T s, B.getTerminator = some T ∧
        StdMap.find live B.addr = some s ∧
        forSuccessors uk live T.successors ∅ = some s := by
  obtain ⟨uk, live, _, hex, huk, _, _, hinv, hrun⟩ := runOnFunction_finishes hwf
  refine ⟨uk, live, hex, (hrun fuel hfuel).1, ?_⟩
  intro B hB
  obtain ⟨s, hs⟩ := hinv.keys B hB
  obtain ⟨T, hT, hre⟩ := recompute_eq hwf huk hinv hB
  refine ⟨T, s, hT, hs, ?_⟩
  have hfix := fixed_point_of_inv hinv hB
  rw [StdMap.get_of_find hs] at hfix
  rw [hre, ← hfix]

/-- Witness for C3: the unit `loopUnit`. -/
theorem fixed_point_stability_witness :
    WellFormed loopUnit ∧ fuelBound loopUnit ≤ 100 ∧
    ∃ uk live, extractUseKill loopUnit = some uk ∧
      whileLoop loopUnit uk 100 (initialState loopUnit) = .finished live ∧
      ∀ B ∈ loopUnit.blocks, ∃ T s, B.getTerminator = some T ∧
        StdMap.find live B.addr = some s ∧
        forSuccessors uk live T.successors ∅ = some s :=
  ⟨by decide, by decide, fixed_point_stability loopUnit (by decide) 100 (by decide)⟩

/-- C4: termination. On a well-formed CFG (cycles and self-loops included) the
work list is empty after finitely many executions of the loop body, fewer than
`fuelBound F`, and the loop run with any larger bound leaves with that mapping. -/
theorem worklist_terminates (F : Func) (hwf : WellFormed F) :
    ∃ uk live n, extractUseKill F = some uk ∧ n < fuelBound F ∧
      iterations F uk n (initialState F)
        = some { live_variables := live, workList := [] } ∧
      ∀ fuel, fuelBound F ≤ fuel →
        whileLoop F uk fuel (initialState F) = .finished live := by
  obtain ⟨uk, live, n, hex, _, hiter, hn, _, hrun⟩ := runOnFunction_finishes hwf
  exact ⟨uk, live, n, hex, hn, hiter, fun fuel hfuel => (hrun fuel hfuel).1⟩

/-- Witness for C4: the unit `loopUnit`, which has a self-loop and a cycle. -/
theorem worklist_terminates_witness :
    WellFormed loopUnit ∧
    ∃ uk live n, extractUseKill loopUnit = some uk ∧ n < fuelBound loopUnit ∧
      iterations loopUnit uk n (initialState loopUnit)
        = some { live_variables := live, workList := [] } ∧
      ∀ fuel, fuelBound loopUnit ≤ fuel →
        whileLoop loopUnit uk fuel (initialState loopUnit) = .finished live :=
  ⟨by decide, worklist_terminates loopUnit (by decide)⟩

/-- C5: monotonicity. In a run of the solver on a well-formed CFG, an execution
of the loop body from any state reached after `n` executions stores, for every
block address, a superset of the set stored before. -/
theorem liveOut_monotone (F : Func) (hwf : WellFormed F) (uk : UseKill)
    (hex : extractUseKill F = some uk) (n : Nat) (st st1 : SolverState)
    (hreach : iterations F uk n (initialState F) = some st)
    (hstep : loopBody F uk st = some st1) (a : BasicBlockPtr) :
    StdMap.get st.live_variables a ⊆ StdMap.get st1.live_variables a := by
  obtain ⟨uk1, hex1, huk, _, _⟩ := extractUseKill_spec F
  rw [hex] at hex1
  cases Option.some.inj hex1
  have hinv := iterations_inv hwf huk n _ _ (initialState_inv F uk) hreach
  obtain ⟨tmp, rest, _, _, _, _, hwl, _, _, _, _, _⟩ := loopBody_some hstep
  obtain ⟨B, hB, hBaddr, hbody⟩ := loopBody_spec hwf huk hinv hwl
  rw [hstep] at hbody
  rw [Option.some.inj hbody]
  subst hBaddr
  exact update_mono hinv hB a

/-- Witness for C5: the third execution of the loop body on `loopUnit`, which
grows the set of block 3 from the empty set. -/
theorem liveOut_monotone_witness :
    WellFormed loopUnit ∧ extractUseKill loopUnit = some loopUnitUseKill ∧
    iterations loopUnit loopUnitUseKill 2 (initialState loopUnit)
      = some (loopUnitState 2) ∧
    loopBody loopUnit loopUnitUseKill (loopUnitState 2) = some (loopUnitState 3) ∧
    StdMap.get (loopUnitState 2).live_variables 3
      ⊆ StdMap.get (loopUnitState 3).live_variables 3 :=
  ⟨by decide, by decide, by decide, by decide,
    liveOut_monotone loopUnit (by decide) loopUnitUseKill (by decide) 2
      (loopUnitState 2) (loopUnitState 3) (by decide) (by decide) 3⟩

/-! ## Blocks without successors -/

theorem noSuccessor_step {F : Func} {uk : UseKill} {st st1 : SolverState}
    (hnd : F.addrs.Nodup) {B : BasicBlock} {T : Instruction} (hB : B ∈ F.blocks)
    (hT : B.getTerminator = some T) (hzero : T.successors = [])
    (h : StdMap.find st.live_variables B.addr = some ∅)
    (hstep : loopBody F uk st = some st1) :
    StdMap.find st1.live_variables B.addr = some ∅ := by
  obtain ⟨tmp, rest, origin, B1, T1, resultSet, _, _, hderef, hT1, hres, hst1⟩ :=
    loopBody_some hstep
  rw [hst1]
  simp only
  by_cases htmp : B.addr = tmp
  · obtain ⟨hB1, hB1addr⟩ := deref_some hderef
    have hBB1 : B1 = B := eq_of_addr_eq hnd hB1 hB (hB1addr.trans htmp.symm)
    subst hBB1
    rw [hT] at hT1
    cases Option.some.inj hT1
    rw [hzero] at hres
    simp only [forSuccessors, Option.some.injEq] at hres
    rw [← htmp, StdMap.find_update_self, ← hres]
  · rw [StdMap.find_update_ne _ _ _ _ htmp]
    exact h

theorem noSuccessor_iterations {F : Func} {uk : UseKill}
    (hnd : F.addrs.Nodup) {B : BasicBlock} {T : Instruction} (hB : B ∈ F.blocks)
    (hT : B.getTerminator = some T) (hzero : T.successors = []) :
    ∀ (n : Nat) (st0 st : SolverState),
      StdMap.find st0.live_variables B.addr = some ∅ →
      iterations F uk n st0 = some st →
      StdMap.find st.live_variables B.addr = some ∅ := by
  intro n
  induction n with
  | zero =>
    intro st0 st h0 h
    simp only [iterations, Option.some.injEq] at h
    rw [← h]; exact h0
  | succ n ih =>
    intro st0 st h0 h
    unfold iterations at h
    cases hb : loopBody F uk st0 with
    | none => rw [hb] at h; simp at h
    | some st1 =>
      rw [hb] at h
      exact ih st1 st (noSuccessor_step hnd hB hT hzero h0 hb) h

/-- C6: a block `B` whose terminator has zero successors has LIVE_OUT = ∅ after
the initialisation, after every execution of the loop body, and in the mapping
with which the loop ends (which exists on a well-formed CFG). Block addresses
are distinct; the USE/KILL maps are arbitrary. -/
theorem noSuccessor_liveOut_empty (F : Func) (hnd : F.addrs.Nodup) (uk : UseKill)
    (B : BasicBlock) (hB : B ∈ F.blocks) (T : Instruction)
    (hT : B.getTerminator = some T) (hzero : T.successors = []) :
    StdMap.find (initialState F).live_variables B.addr = some ∅ ∧
    (∀ n st, iterations F uk n (initialState F) = some st →
      StdMap.find st.live_variables B.addr = some ∅) ∧
    (∀ fuel live, whileLoop F uk fuel (initialState F) = .finished live →
      StdMap.find live B.addr = some ∅) ∧
    (WellFormed F → extractUseKill F = some uk → ∀ fuel, fuelBound F ≤ fuel →
      ∃ live, whileLoop F uk fuel (initialState F) = .finished live ∧
        StdMap.find live B.addr = some ∅) := by
  have hinit : StdMap.find (initialState F).live_variables B.addr = some ∅ := by
    rw [initialState_find, if_pos (addr_mem_addrs hB)]
  have hfin : ∀ fuel live, whileLoop F uk fuel (initialState F) = .finished live →
      StdMap.find live B.addr = some ∅ := by
    intro fuel live h
    obtain ⟨n, hn⟩ := whileLoop_iterations F uk fuel _ live h
    exact noSuccessor_iterations hnd hB hT hzero n _ _ hinit hn
  refine ⟨hinit, ?_, hfin, ?_⟩
  · intro n st h
    exact noSuccessor_iterations hnd hB hT hzero n _ _ hinit h
  · intro hwf hex fuel hfuel
    obtain ⟨uk1, live, _, hex1, _, _, _, _, hrun⟩ := runOnFunction_finishes hwf
    rw [hex] at hex1
    cases Option.some.inj hex1
    exact ⟨live, (hrun fuel hfuel).1, hfin fuel live (hrun fuel hfuel).1⟩

/-- Witness for C6: the exit block of `loopUnit`. -/
theorem noSuccessor_liveOut_empty_witness :
    loopUnit.addrs.Nodup ∧ exitBlock ∈ loopUnit.blocks ∧
    exitBlock.getTerminator = some (retVar "t") ∧ (retVar "t").successors = [] ∧
    StdMap.find (initialState loopUnit).live_variables exitBlock.addr = some ∅ ∧
    (∀ n st, iterations loopUnit loopUnitUseKill n (initialState loopUnit) = some st →
      StdMap.find st.live_variables exitBlock.addr = some ∅) ∧
    (∀ fuel live,
      whileLoop loopUnit loopUnitUseKill fuel (initialState loopUnit) = .finished live →
      StdMap.find live exitBlock.addr = some ∅) ∧
    (WellFormed loopUnit → extractUseKill loopUnit = some loopUnitUseKill →
      ∀ fuel, fuelBound loopUnit ≤ fuel →
      ∃ live, whileLoop loopUnit loopUnitUseKill fuel (initialState loopUnit)
          = .finished live ∧
        StdMap.find live exitBlock.addr = some ∅) :=
  ⟨by decide, by decide, by decide, by decide,
    noSuccessor_liveOut_empty loopUnit (by decide) loopUnitUseKill exitBlock (by decide)
      (retVar "t") (by decide) (by decide)⟩

/-! ## The extractor on the sets of one block -/

theorem scanOperand_kill_mono (I : Instruction) (s : Finset StringRef × Finset StringRef)
    (v : StringRef) : s.2 ⊆ (scanOperand I s v).2 := by
  unfold scanOperand
  split
  · exact Finset.Subset.refl _
  · simp only
    split
    · exact Finset.subset_insert _ _
    · exact Finset.Subset.refl _

theorem scanOperand_use_frozen (I : Instruction) (s : Finset StringRef × Finset StringRef)
    (v n : StringRef) (hn : n ∈ s.2) : n ∈ (scanOperand I s v).1 ↔ n ∈ s.1 := by
  unfold scanOperand
  split
  · exact Iff.rfl
  · rename_i hv
    have hne : n ≠ v := fun h => hv (h ▸ hn)
    simp only
    split
    · exact Iff.rfl
    · simp [Finset.mem_insert, hne]

theorem scanOperand_use_origin (I : Instruction) (s : Finset StringRef × Finset StringRef)
    (v n : StringRef) (hn : n ∈ (scanOperand I s v).1) :
    n ∈ s.1 ∨ (isExcluded I.opcode = false ∧ n = v ∧ v ∉ s.2) := by
  unfold scanOperand at hn
  split at hn
  · exact Or.inl hn
  · rename_i hv
    simp only at hn
    split at hn
    · exact Or.inl hn
    · rename_i hex
      rcases Finset.mem_insert.1 hn with h | h
      · exact Or.inr ⟨by simpa using hex, h, hv⟩
      · exact Or.inl h

theorem scanOperand_kill_iff (I : Instruction) (s : Finset StringRef × Finset StringRef)
    (v n : StringRef) :
    n ∈ (scanOperand I s v).2 ↔ n ∈ s.2 ∨ (I.opcode = Opcode.Store ∧ n = v) := by
  unfold scanOperand
  split
  · rename_i hv
    constructor
    · exact fun h => Or.inl h
    · rintro (h | ⟨_, h⟩)
      · exact h
      · rw [h]; exact hv
  · simp only
    split
    · rename_i hst
      simp [Finset.mem_insert, hst, or_comm]
    · rename_i hst
      simp [hst]

theorem scanOperands_kill_mono (I : Instruction) :
    ∀ (ops : List StringRef) (s : Finset StringRef × Finset StringRef),
      s.2 ⊆ (scanOperands I ops s).2 := by
  intro ops
  induction ops with
  | nil => intro s; exact Finset.Subset.refl _
  | cons v rest ih =>
    intro s
    exact Finset.Subset.trans (scanOperand_kill_mono I s v) (ih _)

theorem scanOperands_use_frozen (I : Instruction) (n : StringRef) :
    ∀ (ops : List StringRef) (s : Finset StringRef × Finset StringRef), n ∈ s.2 →
      (n ∈ (scanOperands I ops s).1 ↔ n ∈ s.1) := by
  intro ops
  induction ops with
  | nil => intro s _; exact Iff.rfl
  | cons v rest ih =>
    intro s hn
    exact (ih _ (scanOperand_kill_mono I s v hn)).trans (scanOperand_use_frozen I s v n hn)

theorem scanOperands_use_origin (I : Instruction) (n : StringRef) :
    ∀ (ops : List StringRef) (s : Finset StringRef × Finset StringRef),
      n ∈ (scanOperands I ops s).1 →
      n ∈ s.1 ∨ (isExcluded I.opcode = false ∧ n ∈ ops ∧ n ∉ s.2) := by
  intro ops
  induction ops with
  | nil => intro s h; exact Or.inl h
  | cons v rest ih =>
    intro s h
    rcases ih _ h with h1 | ⟨hex, hmem, hk⟩
    · rcases scanOperand_use_origin I s v n h1 with h2 | ⟨hex, hnv, hv⟩
      · exact Or.inl h2
      · exact Or.inr ⟨hex, by rw [hnv]; exact List.mem_cons_self _ _, by rw [hnv]; exact hv⟩
    · exact Or.inr ⟨hex, List.mem_cons_of_mem _ hmem,
        fun h2 => hk (scanOperand_kill_mono I s v h2)⟩

theorem scanOperands_kill_iff (I : Instruction) (n : StringRef) :
    ∀ (ops : List StringRef) (s : Finset StringRef × Finset StringRef),
      n ∈ (scanOperands I ops s).2 ↔ n ∈ s.2 ∨ (I.opcode = Opcode.Store ∧ n ∈ ops) := by
  intro ops
  induction ops with
  | nil => intro s; simp [scanOperands]
  | cons v rest ih =>
    intro s
    rw [scanOperands, ih, scanOperand_kill_iff, List.mem_cons]
    tauto

theorem scanInstruction_kill_mono (s : Finset StringRef × Finset StringRef)
    (I : Instruction) : s.2 ⊆ (scanInstruction s I).2 :=
  Finset.Subset.trans (scanOperands_kill_mono I I.operands s) (Finset.subset_insert _ _)

theorem scanInstructions_kill_mono :
    ∀ (l : List Instruction) (s : Finset StringRef × Finset StringRef),
      s.2 ⊆ (scanInstructions l s).2 := by
  intro l
  induction l with
  | nil => intro s; exact Finset.Subset.refl _
  | cons I rest ih =>
    intro s
    exact Finset.Subset.trans (scanInstruction_kill_mono s I) (ih _)

theorem scanInstructions_use_frozen (n : StringRef) :
    ∀ (l : List Instruction) (s : Finset StringRef × Finset StringRef), n ∈ s.2 →
      (n ∈ (scanInstructions l s).1 ↔ n ∈ s.1) := by
  intro l
  induction l with
  | nil => intro s _; exact Iff.rfl
  | cons I rest ih =>
    intro s hn
    exact (ih _ (scanInstruction_kill_mono s I hn)).trans
      (scanOperands_use_frozen I n I.operands s hn)

theorem scanInstructions_use_origin (n : StringRef) :
    ∀ (l : List Instruction) (s : Finset StringRef × Finset StringRef),
      n ∈ (scanInstructions l s).1 →
      n ∈ s.1 ∨ ∃ I ∈ l, isExcluded I.opcode = false ∧ n ∈ I.operands := by
  intro l
  induction l with
  | nil => intro s h; exact Or.inl h
  | cons I rest ih =>
    intro s h
    rcases ih _ h with h1 | ⟨J, hJ, hex, hmem⟩
    · rcases scanOperands_use_origin I n I.operands s h1 with h2 | ⟨hex, hmem, _⟩
      · exact Or.inl h2
      · exact Or.inr ⟨I, List.mem_cons_self _ _, hex, hmem⟩
    · exact Or.inr ⟨J, List.mem_cons_of_mem _ hJ, hex, hmem⟩

theorem scanInstructions_kill_iff (n : StringRef) :
    ∀ (l : List Instruction) (s : Finset StringRef × Finset StringRef),
      n ∈ (scanInstructions l s).2 ↔
        n ∈ s.2 ∨ ∃ I ∈ l, I.name = n ∨ (I.opcode = Opcode.Store ∧ n ∈ I.operands) := by
  intro l
  induction l with
  | nil => intro s; simp [scanInstructions]
  | cons I rest ih =>
    intro s
    rw [scanInstructions, ih]
    simp only [scanInstruction, Finset.mem_insert, scanOperands_kill_iff, List.mem_cons,
      exists_eq_or_imp]
    constructor
    · rintro ((h | h | h) | h)
      · exact Or.inr (Or.inl (Or.inl h.symm))
      · exact Or.inl h
      · exact Or.inr (Or.inl (Or.inr h))
      · exact Or.inr (Or.inr h)
    · rintro (h | (h | h) | h)
      · exact Or.inl (Or.inr (Or.inl h))
      · exact Or.inl (Or.inl h.symm)
      · exact Or.inl (Or.inr (Or.inr h))
      · exact Or.inr h

theorem scanInstructions_append (l1 l2 : List Instruction) :
    ∀ s : Finset StringRef × Finset StringRef,
      scanInstructions (l1 ++ l2) s = scanInstructions l2 (scanInstructions l1 s) := by
  induction l1 with
  | nil => intro s; rfl
  | cons I rest ih => intro s; exact ih (scanInstruction s I)

/-! ## The empty name -/

/-- Every name of a stored set is in the USE set of some block of the unit. -/
theorem live_from_use {F : Func} {uk : UseKill}
    (hout : ∀ a, a ∉ F.addrs → StdMap.find uk.variable_use a = none) (n : StringRef) :
    ∀ (k : Nat) (st0 st : SolverState),
      (∀ a, n ∈ StdMap.get st0.live_variables a →
        ∃ S ∈ F.blocks, n ∈ StdMap.get uk.variable_use S.addr) →
      iterations F uk k st0 = some st →
      ∀ a, n ∈ StdMap.get st.live_variables a →
        ∃ S ∈ F.blocks, n ∈ StdMap.get uk.variable_use S.addr := by
  intro k
  induction k with
  | zero =>
    intro st0 st h0 h
    simp only [iterations, Option.some.injEq] at h
    rw [← h]; exact h0
  | succ k ih =>
    intro st0 st h0 h
    unfold iterations at h
    cases hb : loopBody F uk st0 with
    | none => rw [hb] at h; simp at h
    | some st1 =>
      rw [hb] at h
      refine ih st1 st ?_ h
      obtain ⟨tmp, rest, origin, B, T, resultSet, _, _, _, _, hres, hst1⟩ := loopBody_some hb
      intro a ha
      rw [hst1] at ha
      simp only at ha
      rw [StdMap.get_update] at ha
      split at ha
      · rw [forSuccessors_some uk _ _ _ _ hres, Finset.empty_union, mem_liveOutRHS] at ha
        obtain ⟨S, _, hS⟩ := ha
        rcases hS with hS | ⟨hS, _⟩
        · by_cases hmem : S ∈ F.addrs
          · obtain ⟨B1, hB1, hB1addr⟩ := (mem_addrs_iff F S).1 hmem
            exact ⟨B1, hB1, by rw [hB1addr]; exact hS⟩
          · simp [StdMap.get, hout S hmem] at hS
        · exact h0 S hS
      · exact h0 a ha

/-- The USE and KILL sets that the extractor stores for a block are the result
of scanning its instructions. -/
theorem extract_get {F : Func} (hnd : F.addrs.Nodup) {uk : UseKill}
    (hex : extractUseKill F = some uk) {B : BasicBlock} (hB : B ∈ F.blocks) :
    StdMap.get uk.variable_use B.addr = (scanInstructions B.insts (∅, ∅)).1 ∧
    StdMap.get uk.variable_kill B.addr = (scanInstructions B.insts (∅, ∅)).2 := by
  obtain ⟨uk1, hex1, _, htr, _⟩ := extractUseKill_spec F
  rw [hex] at hex1
  cases Option.some.inj hex1
  exact ⟨StdMap.get_of_find (htr hnd B hB).1, StdMap.get_of_find (htr hnd B hB).2⟩

/-- C7 (as the code behaves): the empty name is handled like every other name.
For a unit with distinct block addresses, `""` is in `KILL[B]` exactly when `B`
has an instruction without a result name or a `store` with an unnamed operand;
`""` is in `USE[B]` only when an instruction of `B` outside the four excluded
categories has an unnamed operand; and `""` is in a LIVE_OUT set, after any
number of executions of the loop body, only when it is in the USE set of a
block of the unit. -/
theorem emptyName_membership (F : Func) (hnd : F.addrs.Nodup) (uk : UseKill)
    (hex : extractUseKill F = some uk) :
    (∀ B ∈ F.blocks, "" ∈ StdMap.get uk.variable_kill B.addr ↔
      ∃ I ∈ B.insts, I.name = "" ∨ (I.opcode = Opcode.Store ∧ "" ∈ I.operands)) ∧
    (∀ B ∈ F.blocks, "" ∈ StdMap.get uk.variable_use B.addr →
      ∃ I ∈ B.insts, isExcluded I.opcode = false ∧ "" ∈ I.operands) ∧
    (∀ k st a, iterations F uk k (initialState F) = some st →
      "" ∈ StdMap.get st.live_variables a →
      ∃ S ∈ F.blocks, "" ∈ StdMap.get uk.variable_use S.addr) := by
  refine ⟨?_, ?_, ?_⟩
  · intro B hB
    rw [(extract_get hnd hex hB).2, scanInstructions_kill_iff]
    simp
  · intro B hB h
    rw [(extract_get hnd hex hB).1] at h
    rcases scanInstructions_use_origin "" B.insts (∅, ∅) h with h1 | h1
    · simp at h1
    · exact h1
  · intro k st a hiter ha
    obtain ⟨uk1, hex1, _, _, hout⟩ := extractUseKill_spec F
    rw [hex] at hex1
    cases Option.some.inj hex1
    refine live_from_use (fun a ha => (hout a ha).1) "" k _ st ?_ hiter a ha
    intro a1 ha1
    rw [initialState_get] at ha1
    simp at ha1

/-- Witness for C7 (as the code behaves): the unit `constUnit`. -/
theorem emptyName_membership_witness :
    constUnit.addrs.Nodup ∧ extractUseKill constUnit = some constUseKill ∧
    (∀ B ∈ constUnit.blocks, "" ∈ StdMap.get constUseKill.variable_kill B.addr ↔
      ∃ I ∈ B.insts, I.name = "" ∨ (I.opcode = Opcode.Store ∧ "" ∈ I.operands)) ∧
    (∀ B ∈ constUnit.blocks, "" ∈ StdMap.get constUseKill.variable_use B.addr →
      ∃ I ∈ B.insts, isExcluded I.opcode = false ∧ "" ∈ I.operands) ∧
    (∀ k st a, iterations constUnit constUseKill k (initialState constUnit) = some st →
      "" ∈ StdMap.get st.live_variables a →
      ∃ S ∈ constUnit.blocks, "" ∈ StdMap.get constUseKill.variable_use S.addr) :=
  ⟨by decide, by decide, emptyName_membership constUnit (by decide) constUseKill (by decide)⟩

/-- C7 fails as stated: in the well-formed unit `constUnit` (P -> Q, where Q is
`%0 = add i32 %a, 1; ret i32 %0`) the empty name is in `USE[Q]`, in `KILL[Q]`
and in the final `LIVE_OUT[P]`. -/
theorem emptyName_counterexample :
    WellFormed constUnit ∧
    runOnFunction constUnit 100 = .finished
      { variable_use := [(1, ∅), (2, {"", "a"})]
        variable_kill := [(1, {""}), (2, {""})]
        live_variables := [(1, {"", "a"}), (2, ∅)] } ∧
    "" ∈ StdMap.get [(1, ∅), (2, {"", "a"})] 2 ∧
    "" ∈ StdMap.get [(1, {""}), (2, {""})] 2 ∧
    "" ∈ StdMap.get [(1, {"", "a"}), (2, ∅)] 1 := by
  decide

/-! ## Kill shadowing and the excluded categories -/

/-- C8: use/kill locality. (1) From any point of the scan of block `bb` at which
`n` is in the KILL set so far (the sets so far being `u` and `k`), the rest of
the scan (the remaining operands `ops` of the current instruction `I`, the
insertion of its result name, and the remaining instructions `insts`) succeeds,
leaves the membership of `n` in `USE[bb]` as it was, and keeps `n` in
`KILL[bb]`. (2) If an instruction `D` of block `B` has result name `y`, and `y`
is an operand neither of `D` nor of an instruction before `D`, then `y` is not
in `USE[B]` and is in `KILL[B]`, whatever reads `y` after `D`. -/
theorem kill_shadows_later_reads :
    (∀ (bb : BasicBlockPtr) (I : Instruction) (ops : List StringRef)
        (insts : List Instruction) (st : UseKill) (u k : Finset StringRef) (n : StringRef),
      Tracks bb st (u, k) → n ∈ k →
      ∃ st1 st2 st3, forOperands bb I ops st = some st1 ∧
        killResult bb I st1 = some st2 ∧ forInstructions bb insts st2 = some st3 ∧
        (n ∈ StdMap.get st3.variable_use bb ↔ n ∈ u) ∧
        n ∈ StdMap.get st3.variable_kill bb) ∧
    (∀ (F : Func) (uk : UseKill) (B : BasicBlock) (pre post : List Instruction)
        (D : Instruction) (y : StringRef),
      F.addrs.Nodup → extractUseKill F = some uk → B ∈ F.blocks →
      B.insts = pre ++ D :: post → D.name = y →
      (∀ I ∈ pre, y ∉ I.operands) → y ∉ D.operands →
      y ∉ StdMap.get uk.variable_use B.addr ∧ y ∈ StdMap.get uk.variable_kill B.addr) := by
  constructor
  · intro bb I ops insts st u k n htr hn
    obtain ⟨st1, h1, ht1, _⟩ := forOperands_spec bb I ops st (u, k) htr
    obtain ⟨st2, h2, ht2, _⟩ := killResult_spec bb I st1 _ ht1
    obtain ⟨st3, h3, ht3, _⟩ := forInstructions_spec bb insts st2 _ ht2
    refine ⟨st1, st2, st3, h1, h2, h3, ?_, ?_⟩
    · rw [StdMap.get_of_find ht3.1]
      have hk1 : n ∈ (scanOperands I ops (u, k)).2 := scanOperands_kill_mono I ops (u, k) hn
      have hk2 : n ∈ ((scanOperands I ops (u, k)).1,
          insert I.name (scanOperands I ops (u, k)).2).2 := Finset.mem_insert_of_mem hk1
      rw [scanInstructions_use_frozen n insts _ hk2]
      exact scanOperands_use_frozen I n ops (u, k) hn
    · rw [StdMap.get_of_find ht3.2]
      apply scanInstructions_kill_mono insts
      exact Finset.mem_insert_of_mem (scanOperands_kill_mono I ops (u, k) hn)
  · intro F uk B pre post D y hnd hex hB hinsts hD hpre hDops
    rw [(extract_get hnd hex hB).1, (extract_get hnd hex hB).2, hinsts]
    constructor
    · intro h
      rcases scanInstructions_use_origin y _ _ h with h1 | ⟨I, hI, _, hmem⟩
      · simp at h1
      · rw [scanInstructions_append, scanInstructions] at h
        have hkD : y ∈ (scanInstruction (scanInstructions pre (∅, ∅)) D).2 := by
          rw [← hD]; exact Finset.mem_insert_self _ _
        rw [scanInstructions_use_frozen y post _ hkD] at h
        rcases scanOperands_use_origin D y D.operands _ h with h2 | ⟨_, h2, _⟩
        · rcases scanInstructions_use_origin y pre _ h2 with h3 | ⟨J, hJ, _, hJmem⟩
          · simp at h3
          · exact hpre J hJ hJmem
        · exact hDops h2
    · rw [scanInstructions_kill_iff]
      exact Or.inr ⟨D, by simp, Or.inl hD⟩

/-- Witness for C8: (1) with `y` already killed, the operand `y` of an addition
and of a later return leave USE empty; (2) `shadowBlock` defines `y` by a load
and reads it in the following addition. -/
theorem kill_shadows_later_reads_witness :
    (Tracks 1 { variable_use := [(1, ∅)], variable_kill := [(1, {"y"})] } (∅, {"y"}) ∧
      "y" ∈ ({"y"} : Finset StringRef) ∧
      ∃ st1 st2 st3,
        forOperands 1 addYY ["y"]
          { variable_use := [(1, ∅)], variable_kill := [(1, {"y"})] } = some st1 ∧
        killResult 1 addYY st1 = some st2 ∧
        forInstructions 1 [retVar "y"] st2 = some st3 ∧
        ("y" ∈ StdMap.get st3.variable_use 1 ↔ "y" ∈ (∅ : Finset StringRef)) ∧
        "y" ∈ StdMap.get st3.variable_kill 1) ∧
    (shadowUnit.addrs.Nodup ∧ extractUseKill shadowUnit = some shadowUseKill ∧
      shadowBlock ∈ shadowUnit.blocks ∧
      shadowBlock.insts = [] ++ loadY :: [addYY, retVar "z"] ∧ loadY.name = "y" ∧
      (∀ I ∈ ([] : List Instruction), "y" ∉ I.operands) ∧ "y" ∉ loadY.operands ∧
      "y" ∉ StdMap.get shadowUseKill.variable_use shadowBlock.addr ∧
      "y" ∈ StdMap.get shadowUseKill.variable_kill shadowBlock.addr) :=
  ⟨⟨by decide, by decide,
      kill_shadows_later_reads.1 1 addYY ["y"] [retVar "y"]
        { variable_use := [(1, ∅)], variable_kill := [(1, {"y"})] } ∅ {"y"} "y"
        (by decide) (by decide)⟩,
    ⟨by decide, by decide, by decide, by decide, by decide, by decide, by decide,
      kill_shadows_later_reads.2 shadowUnit shadowUseKill shadowBlock [] [addYY, retVar "z"]
        loadY "y" (by decide) (by decide) (by decide) (by decide) (by decide) (by decide)
        (by decide)⟩⟩

theorem isExcluded_iff (op : Opcode) :
    isExcluded op = true ↔
      op = Opcode.Alloca ∨ op = Opcode.Store ∨ op = Opcode.Br ∨ op = Opcode.ICmp := by
  simp [isExcluded, or_assoc]

/-- C9: category-based use exclusion. For a block `B` of a unit with distinct
block addresses and a name `n`: if every instruction of `B` that has `n` as an
operand is an `alloca`, a `store`, a `br` or an `icmp`, then `n` is not in
`USE[B]`. -/
theorem excluded_categories_never_use (F : Func) (hnd : F.addrs.Nodup) (uk : UseKill)
    (hex : extractUseKill F = some uk) (B : BasicBlock) (hB : B ∈ F.blocks)
    (n : StringRef)
    (h : ∀ I ∈ B.insts, n ∈ I.operands →
      I.opcode = Opcode.Alloca ∨ I.opcode = Opcode.Store ∨ I.opcode = Opcode.Br ∨
        I.opcode = Opcode.ICmp) :
    n ∉ StdMap.get uk.variable_use B.addr := by
  rw [(extract_get hnd hex hB).1]
  intro hn
  rcases scanInstructions_use_origin n B.insts (∅, ∅) hn with h1 | ⟨I, hI, hex1, hmem⟩
  · simp at h1
  · have := (isExcluded_iff I.opcode).2 (h I hI hmem)
    rw [hex1] at this
    exact absurd this (by simp)

/-- Witness for C9: `v` is only an operand of the `store` of `excludedBlock`. -/
theorem excluded_categories_never_use_witness :
    excludedUnit.addrs.Nodup ∧ extractUseKill excludedUnit = some excludedUseKill ∧
    excludedBlock ∈ excludedUnit.blocks ∧
    (∀ I ∈ excludedBlock.insts, "v" ∈ I.operands →
      I.opcode = Opcode.Alloca ∨ I.opcode = Opcode.Store ∨ I.opcode = Opcode.Br ∨
        I.opcode = Opcode.ICmp) ∧
    "v" ∉ StdMap.get excludedUseKill.variable_use excludedBlock.addr :=
  ⟨by decide, by decide, by decide, by decide,
    excluded_categories_never_use excludedUnit (by decide) excludedUseKill (by decide)
      excludedBlock (by decide) "v" (by decide)⟩

/-! ## The linear chain -/

/-- Along a chain, what the head block passes to its predecessor is `{x}`, every
block but the last has LIVE_OUT = `{x}`, and the last has LIVE_OUT = ∅. -/
theorem linearChain_solution {F : Func} {uk : UseKill} {live : StdMap} {x : StringRef}
    (hfix : ∀ B ∈ F.blocks,
      StdMap.get live B.addr = liveOutRHS uk (StdMap.get live) B.succs) :
    ∀ chain : List BasicBlock, (∀ B ∈ chain, B ∈ F.blocks) → LinearChain uk x chain →
      (∀ B, chain.head? = some B →
        StdMap.get uk.variable_use B.addr
          ∪ (StdMap.get live B.addr \ StdMap.get uk.variable_kill B.addr) = {x}) ∧
      (∀ Bn, chain.getLast? = some Bn → StdMap.get live Bn.addr = ∅) ∧
      (∀ B ∈ chain.dropLast, StdMap.get live B.addr = {x}) := by
  intro chain
  induction chain with
  | nil => intro _ h; exact absurd h (by simp [LinearChain])
  | cons B rest ih =>
    intro hmem hchain
    cases rest with
    | nil =>
      simp only [LinearChain] at hchain
      have hB : StdMap.get live B.addr = ∅ := by
        rw [hfix B (hmem B (List.mem_cons_self _ _)), hchain.1, liveOutRHS_nil]
      refine ⟨?_, ?_, ?_⟩
      · intro B1 h1
        simp only [List.head?_cons, Option.some.injEq] at h1
        subst h1
        rw [hB, hchain.2]
        simp
      · intro Bn hn
        simp only [List.getLast?_singleton, Option.some.injEq] at hn
        subst hn
        exact hB
      · intro B1 h1
        simp at h1
    | cons B1 rest =>
      simp only [LinearChain] at hchain
      obtain ⟨hsucc, huse, hkill, hrest⟩ := hchain
      obtain ⟨hhead, hlast, hmid⟩ :=
        ih (fun X hX => hmem X (List.mem_cons_of_mem _ hX)) hrest
      have hB : StdMap.get live B.addr = {x} := by
        rw [hfix B (hmem B (List.mem_cons_self _ _)), hsucc, liveOutRHS_cons, liveOutRHS_nil,
          Finset.union_empty]
        exact hhead B1 rfl
      refine ⟨?_, ?_, ?_⟩
      · intro B2 h2
        simp only [List.head?_cons, Option.some.injEq] at h2
        subst h2
        rw [hB, huse, Finset.empty_union]
        ext n
        simp only [Finset.mem_sdiff, Finset.mem_singleton]
        constructor
        · exact fun h => h.1
        · intro h
          exact ⟨h, by rw [h]; exact hkill⟩
      · intro Bn hn
        rw [List.getLast?_cons_cons] at hn
        exact hlast Bn hn
      · intro B2 h2
        rw [List.dropLast_cons_of_ne_nil (List.cons_ne_nil _ _), List.mem_cons] at h2
        rcases h2 with h2 | h2
        · rw [h2]; exact hB
        · exact hmid B2 h2

/-- The run on a chain described by the sets of the extractor: when each `Bi` with
`i < n` has `B(i+1)` as its only successor, an empty USE set and a KILL set
without `x`, and `Bn` has no successor and USE = `{x}`, the pass finishes, the
final `LIVE_OUT[Bn]` is ∅ and the final `LIVE_OUT[Bi]` is `{x}` for `i < n`. -/
theorem linearChain_run (F : Func) (hwf : WellFormed F) (uk : UseKill)
    (hex : extractUseKill F = some uk) (fuel : Nat) (hfuel : fuelBound F ≤ fuel)
    (chain : List BasicBlock) (x : StringRef) (hmem : ∀ B ∈ chain, B ∈ F.blocks)
    (hchain : LinearChain uk x chain) :
    ∃ live, runOnFunction F fuel = .finished
        { variable_use := uk.variable_use
          variable_kill := uk.variable_kill
          live_variables := live } ∧
      (∀ Bn, chain.getLast? = some Bn → StdMap.find live Bn.addr = some ∅) ∧
      (∀ B ∈ chain.dropLast, StdMap.find live B.addr = some {x}) := by
  obtain ⟨uk1, live, _, hex1, _, _, _, hinv, hrun⟩ := runOnFunction_finishes hwf
  rw [hex] at hex1
  cases Option.some.inj hex1
  have hfind : ∀ B ∈ F.blocks,
      StdMap.find live B.addr = some (StdMap.get live B.addr) := by
    intro B hB
    obtain ⟨s, hs⟩ := hinv.keys B hB
    rw [StdMap.get_of_find hs, hs]
  obtain ⟨_, hlast, hmid⟩ :=
    linearChain_solution (fun B hB => fixed_point_of_inv hinv hB) chain hmem hchain
  refine ⟨live, (hrun fuel hfuel).2, ?_, ?_⟩
  · intro Bn hn
    rw [hfind Bn (hmem Bn (List.mem_of_getLast?_eq_some hn)), hlast Bn hn]
  · intro B hB
    rw [hfind B (hmem B (List.mem_of_mem_dropLast hB)), hmid B hB]

/-! ## The diamond and the self-loop -/

/-- The sets stored in the final state of a run on a well-formed unit satisfy the
dataflow equation, and every block has its entry. -/
theorem final_find_eq {F : Func} {uk : UseKill} {live : StdMap}
    (hinv : SolverInv F uk { live_variables := live, workList := [] })
    {B : BasicBlock} (hB : B ∈ F.blocks) :
    StdMap.find live B.addr = some (liveOutRHS uk (StdMap.get live) B.succs) := by
  obtain ⟨s, hs⟩ := hinv.keys B hB
  have h := fixed_point_of_inv hinv hB
  rw [StdMap.get_of_find hs] at h
  rw [hs, h]

/-- The run on a diamond described by the sets of the extractor: when the
successors of `A` are `B` and `C`, the only successor of `B` and of `C` is `D`,
`D` has no successor, `USE[B] = {v}` and `USE[C] = USE[D] = ∅`, the pass
finishes with `LIVE_OUT[A] = {v}` and `LIVE_OUT[B] = LIVE_OUT[C] = LIVE_OUT[D] = ∅`. -/
theorem diamond_run (F : Func) (hwf : WellFormed F) (uk : UseKill)
    (hex : extractUseKill F = some uk) (fuel : Nat) (hfuel : fuelBound F ≤ fuel)
    (A B C D : BasicBlock) (v : StringRef)
    (hA : A ∈ F.blocks) (hB : B ∈ F.blocks) (hC : C ∈ F.blocks) (hD : D ∈ F.blocks)
    (hAs : ∀ s, s ∈ A.succs ↔ s = B.addr ∨ s = C.addr)
    (hBs : ∀ s, s ∈ B.succs ↔ s = D.addr) (hCs : ∀ s, s ∈ C.succs ↔ s = D.addr)
    (hDs : D.succs = [])
    (huB : StdMap.get uk.variable_use B.addr = {v})
    (huC : StdMap.get uk.variable_use C.addr = ∅)
    (huD : StdMap.get uk.variable_use D.addr = ∅) :
    ∃ live, runOnFunction F fuel = .finished
        { variable_use := uk.variable_use
          variable_kill := uk.variable_kill
          live_variables := live } ∧
      StdMap.find live A.addr = some {v} ∧ StdMap.find live B.addr = some ∅ ∧
      StdMap.find live C.addr = some ∅ ∧ StdMap.find live D.addr = some ∅ := by
  obtain ⟨uk1, live, _, hex1, _, _, _, hinv, hrun⟩ := runOnFunction_finishes hwf
  rw [hex] at hex1
  cases Option.some.inj hex1
  have hfD : StdMap.find live D.addr = some ∅ := by
    rw [final_find_eq hinv hD, hDs, liveOutRHS_nil]
  have hgD : StdMap.get live D.addr = ∅ := StdMap.get_of_find hfD
  have hfB : StdMap.find live B.addr = some ∅ := by
    rw [final_find_eq hinv hB]
    congr 1
    ext n
    simp only [mem_liveOutRHS, hBs, exists_eq_left, huD, hgD, Finset.not_mem_empty,
      false_and, or_self]
  have hfC : StdMap.find live C.addr = some ∅ := by
    rw [final_find_eq hinv hC]
    congr 1
    ext n
    simp only [mem_liveOutRHS, hCs, exists_eq_left, huD, hgD, Finset.not_mem_empty,
      false_and, or_self]
  refine ⟨live, (hrun fuel hfuel).2, ?_, hfB, hfC, hfD⟩
  rw [final_find_eq hinv hA]
  congr 1
  ext n
  simp only [mem_liveOutRHS, hAs, Finset.mem_singleton]
  constructor
  · rintro ⟨S, hS | hS, h⟩
    · subst hS
      rw [huB, StdMap.get_of_find hfB] at h
      simpa using h
    · subst hS
      rw [huC, StdMap.get_of_find hfC] at h
      simp at h
  · intro hn
    exact ⟨B.addr, Or.inl rfl, Or.inl (by rw [huB, hn]; exact Finset.mem_singleton_self _)⟩

/-- C12: the self-loop. In a well-formed unit let `B` be one of its own
successors, every other successor of `B` being a block without successors. Then
the pass finishes, and the final `LIVE_OUT[B]` is `USE[B]` united with `USE[E]`
for the other successors `E` of `B`; it is `USE[B]` when `B` is its only
successor; and it is contained in every set `Y` that solves the recurrence of
the cycle, `Y = USE[B] ∪ (Y minus KILL[B]) ∪ union of USE[E]`. -/
theorem self_loop (F : Func) (hwf : WellFormed F) (uk : UseKill)
    (hex : extractUseKill F = some uk) (fuel : Nat) (hfuel : fuelBound F ≤ fuel)
    (B : BasicBlock) (hB : B ∈ F.blocks) (hself : B.addr ∈ B.succs)
    (hexit : ∀ E ∈ F.blocks, E.addr ∈ B.succs → E.addr ≠ B.addr → E.succs = []) :
    ∃ live, runOnFunction F fuel = .finished
        { variable_use := uk.variable_use
          variable_kill := uk.variable_kill
          live_variables := live } ∧
      StdMap.find live B.addr = some
        (StdMap.get uk.variable_use B.addr ∪
          (B.succs.filter (fun s => s ≠ B.addr)).toFinset.biUnion
            (fun E => StdMap.get uk.variable_use E)) ∧
      ((∀ s ∈ B.succs, s = B.addr) →
        StdMap.find live B.addr = some (StdMap.get uk.variable_use B.addr)) ∧
      (∀ Y : Finset StringRef,
        Y = StdMap.get uk.variable_use B.addr ∪ (Y \ StdMap.get uk.variable_kill B.addr) ∪
          (B.succs.filter (fun s => s ≠ B.addr)).toFinset.biUnion
            (fun E => StdMap.get uk.variable_use E) →
        StdMap.get live B.addr ⊆ Y) := by
  obtain ⟨uk1, live, _, hex1, _, _, _, hinv, hrun⟩ := runOnFunction_finishes hwf
  rw [hex] at hex1
  cases Option.some.inj hex1
  obtain ⟨hnd, _, hsucc, _, _⟩ := hwf
  have hmem : ∀ n, n ∈ StdMap.get uk.variable_use B.addr ∪
        (B.succs.filter (fun s => s ≠ B.addr)).toFinset.biUnion
          (fun E => StdMap.get uk.variable_use E) ↔
      ∃ S ∈ B.succs, n ∈ StdMap.get uk.variable_use S := by
    intro n
    simp only [Finset.mem_union, Finset.mem_biUnion, List.mem_toFinset, List.mem_filter,
      decide_eq_true_eq]
    constructor
    · rintro (h | ⟨S, ⟨hS, _⟩, h⟩)
      · exact ⟨B.addr, hself, h⟩
      · exact ⟨S, hS, h⟩
    · rintro ⟨S, hS, h⟩
      by_cases hSB : S = B.addr
      · exact Or.inl (hSB ▸ h)
      · exact Or.inr ⟨S, ⟨hS, hSB⟩, h⟩
  have hget : StdMap.get live B.addr = StdMap.get uk.variable_use B.addr ∪
        (B.succs.filter (fun s => s ≠ B.addr)).toFinset.biUnion
          (fun E => StdMap.get uk.variable_use E) := by
    apply Finset.Subset.antisymm
    · intro n hn
      rw [hmem]
      have hM := hinv.least
        (fun a n => (a = B.addr → ∃ S ∈ B.succs, n ∈ StdMap.get uk.variable_use S) ∧
          (a ∈ B.succs → a ≠ B.addr → False)) ?_ B hB n hn
      · exact hM.1 rfl
      · intro B1 hB1 n1 S hS h
        constructor
        · intro hB1B
          have hBB : B1 = B := eq_of_addr_eq hnd hB1 hB hB1B
          subst hBB
          rcases h with h | ⟨hMS, _⟩
          · exact ⟨S, hS, h⟩
          · by_cases hSB : S = B1.addr
            · exact hMS.1 hSB
            · exact absurd (hMS.2 hS hSB) id
        · intro hin hne
          rw [hexit B1 hB1 hin hne] at hS
          exact absurd hS (List.not_mem_nil _)
    · intro n hn
      rw [hmem] at hn
      obtain ⟨S, hS, h⟩ := hn
      rw [fixed_point_of_inv hinv hB, mem_liveOutRHS]
      exact ⟨S, hS, Or.inl h⟩
  have hfind : StdMap.find live B.addr = some (StdMap.get live B.addr) := by
    obtain ⟨s, hs⟩ := hinv.keys B hB
    rw [StdMap.get_of_find hs, hs]
  refine ⟨live, (hrun fuel hfuel).2, by rw [hfind, hget], ?_, ?_⟩
  · intro honly
    rw [hfind, hget]
    congr 1
    ext n
    rw [hmem]
    constructor
    · rintro ⟨S, hS, h⟩
      rw [honly S hS] at h
      exact h
    · intro h
      exact ⟨B.addr, hself, h⟩
  · intro Y hY
    rw [hget, hY]
    intro n hn
    rcases Finset.mem_union.1 hn with h | h
    · exact Finset.mem_union_left _ (Finset.mem_union_left _ h)
    · exact Finset.mem_union_right _ h

/-- Witness for C12: block `L` of `selfLoopUnit` branches to itself and to the
exit block `X`; `USE[L] = {i, n}` and `USE[X] = {r}`. -/
theorem self_loop_witness :
    WellFormed selfLoopUnit ∧ extractUseKill selfLoopUnit = some selfLoopUseKill ∧
    fuelBound selfLoopUnit ≤ 100 ∧ selfLoopL ∈ selfLoopUnit.blocks ∧
    selfLoopL.addr ∈ selfLoopL.succs ∧
    (∀ E ∈ selfLoopUnit.blocks, E.addr ∈ selfLoopL.succs → E.addr ≠ selfLoopL.addr →
      E.succs = []) ∧
    ∃ live, runOnFunction selfLoopUnit 100 = .finished
        { variable_use := selfLoopUseKill.variable_use
          variable_kill := selfLoopUseKill.variable_kill
          live_variables := live } ∧
      StdMap.find live selfLoopL.addr = some
        (StdMap.get selfLoopUseKill.variable_use selfLoopL.addr ∪
          (selfLoopL.succs.filter (fun s => s ≠ selfLoopL.addr)).toFinset.biUnion
            (fun E => StdMap.get selfLoopUseKill.variable_use E)) ∧
      ((∀ s ∈ selfLoopL.succs, s = selfLoopL.addr) →
        StdMap.find live selfLoopL.addr
          = some (StdMap.get selfLoopUseKill.variable_use selfLoopL.addr)) ∧
      (∀ Y : Finset StringRef,
        Y = StdMap.get selfLoopUseKill.variable_use selfLoopL.addr ∪
            (Y \ StdMap.get selfLoopUseKill.variable_kill selfLoopL.addr) ∪
          (selfLoopL.succs.filter (fun s => s ≠ selfLoopL.addr)).toFinset.biUnion
            (fun E => StdMap.get selfLoopUseKill.variable_use E) →
        StdMap.get live selfLoopL.addr ⊆ Y) :=
  ⟨by decide, by decide, by decide, by decide, by decide, by decide,
    self_loop selfLoopUnit (by decide) selfLoopUseKill (by decide) 100 (by decide)
      selfLoopL (by decide) (by decide) (by decide)⟩

/-! ## The exact content of USE and KILL -/

theorem isExcluded_false_iff (op : Opcode) :
    isExcluded op = false ↔
      op ≠ Opcode.Alloca ∧ op ≠ Opcode.Store ∧ op ≠ Opcode.Br ∧ op ≠ Opcode.ICmp := by
  rw [← Bool.not_eq_true, isExcluded_iff]
  tauto

theorem scanOperand_use_mono (I : Instruction) (s : Finset StringRef × Finset StringRef)
    (v : StringRef) : s.1 ⊆ (scanOperand I s v).1 := by
  unfold scanOperand
  split
  · exact Finset.Subset.refl _
  · simp only
    split
    · exact Finset.Subset.refl _
    · exact Finset.subset_insert _ _

theorem scanOperands_use_mono (I : Instruction) :
    ∀ (ops : List StringRef) (s : Finset StringRef × Finset StringRef),
      s.1 ⊆ (scanOperands I ops s).1 := by
  intro ops
  induction ops with
  | nil => intro s; exact Finset.Subset.refl _
  | cons v rest ih =>
    intro s
    exact Finset.Subset.trans (scanOperand_use_mono I s v) (ih _)

theorem scanOperand_kill_of_not_store (I : Instruction)
    (s : Finset StringRef × Finset StringRef) (v : StringRef)
    (h : I.opcode ≠ Opcode.Store) : (scanOperand I s v).2 = s.2 := by
  unfold scanOperand
  split
  · rfl
  · simp only [if_neg h]

theorem scanOperands_use_iff (I : Instruction) (n : StringRef) :
    ∀ (ops : List StringRef) (s : Finset StringRef × Finset StringRef),
      n ∈ (scanOperands I ops s).1 ↔
        n ∈ s.1 ∨ (isExcluded I.opcode = false ∧ n ∈ ops ∧ n ∉ s.2) := by
  intro ops s
  constructor
  · exact scanOperands_use_origin I n ops s
  · rintro (h | ⟨hex, hmem, hk⟩)
    · exact scanOperands_use_mono I ops s h
    · have hns : I.opcode ≠ Opcode.Store := ((isExcluded_false_iff _).1 hex).2.1
      induction ops generalizing s with
      | nil => exact absurd hmem (List.not_mem_nil _)
      | cons v rest ih =>
        rcases List.mem_cons.1 hmem with hv | hv
        · apply scanOperands_use_mono I rest
          subst hv
          unfold scanOperand
          rw [if_neg hk]
          simp only [hex]
          exact Finset.mem_insert_self _ _
        · exact ih _ hv (by rw [scanOperand_kill_of_not_store I s v hns]; exact hk)

/-- The names of USE after a scan: those that were there, and the operands of
trackable instructions met while the name was not in the KILL set so far. -/
theorem scanInstructions_use_iff (n : StringRef) :
    ∀ (l : List Instruction) (s : Finset StringRef × Finset StringRef),
      n ∈ (scanInstructions l s).1 ↔
        n ∈ s.1 ∨ ∃ pre I post, l = pre ++ I :: post ∧ isExcluded I.opcode = false ∧
          n ∈ I.operands ∧ n ∉ (scanInstructions pre s).2 := by
  intro l
  induction l with
  | nil =>
    intro s
    constructor
    · exact fun h => Or.inl h
    · rintro (h | ⟨pre, I, post, hl, _⟩)
      · exact h
      · exact absurd hl (by simp)
  | cons I rest ih =>
    intro s
    rw [scanInstructions, ih]
    have huse : n ∈ (scanInstruction s I).1 ↔
        n ∈ s.1 ∨ (isExcluded I.opcode = false ∧ n ∈ I.operands ∧ n ∉ s.2) :=
      scanOperands_use_iff I n I.operands s
    rw [huse]
    constructor
    · rintro ((h | ⟨hex, hmem, hk⟩) | ⟨pre, J, post, hl, hex, hmem, hk⟩)
      · exact Or.inl h
      · exact Or.inr ⟨[], I, rest, rfl, hex, hmem, hk⟩
      · exact Or.inr ⟨I :: pre, J, post, by rw [hl]; rfl, hex, hmem, hk⟩
    · rintro (h | ⟨pre, J, post, hl, hex, hmem, hk⟩)
      · exact Or.inl (Or.inl h)
      · cases pre with
        | nil =>
          simp only [List.nil_append, List.cons.injEq] at hl
          obtain ⟨hIJ, _⟩ := hl
          subst hIJ
          exact Or.inl (Or.inr ⟨hex, hmem, hk⟩)
        | cons p pre1 =>
          simp only [List.cons_append, List.cons.injEq] at hl
          obtain ⟨hIp, hrest⟩ := hl
          subst hIp
          exact Or.inr ⟨pre1, J, post, hrest, hex, hmem, hk⟩

/-- C16: the exact content of USE. For a block `B` of a unit with distinct block
addresses, `n` is in `USE[B]` exactly when some instruction `I` of `B` that is
not an `alloca`, `store`, `br` or `icmp` has `n` as an operand, no instruction
before `I` has the result name `n`, and no `store` before `I` has an operand
named `n`. -/
theorem use_exact (F : Func) (hnd : F.addrs.Nodup) (uk : UseKill)
    (hex : extractUseKill F = some uk) (B : BasicBlock) (hB : B ∈ F.blocks)
    (n : StringRef) :
    n ∈ StdMap.get uk.variable_use B.addr ↔
      ∃ pre I post, B.insts = pre ++ I :: post ∧
        (I.opcode ≠ Opcode.Alloca ∧ I.opcode ≠ Opcode.Store ∧ I.opcode ≠ Opcode.Br ∧
          I.opcode ≠ Opcode.ICmp) ∧
        n ∈ I.operands ∧ (∀ J ∈ pre, J.name ≠ n) ∧
        (∀ J ∈ pre, J.opcode = Opcode.Store → n ∉ J.operands) := by
  rw [(extract_get hnd hex hB).1, scanInstructions_use_iff]
  simp only [Finset.not_mem_empty, false_or, scanInstructions_kill_iff, isExcluded_false_iff]
  constructor
  · rintro ⟨pre, I, post, hl, hop, hmem, hk⟩
    refine ⟨pre, I, post, hl, hop, hmem, ?_, ?_⟩
    · intro J hJ hname
      exact hk ⟨J, hJ, Or.inl hname⟩
    · intro J hJ hst hops
      exact hk ⟨J, hJ, Or.inr ⟨hst, hops⟩⟩
  · rintro ⟨pre, I, post, hl, hop, hmem, hname, hstore⟩
    refine ⟨pre, I, post, hl, hop, hmem, ?_⟩
    rintro ⟨J, hJ, h | ⟨hst, hops⟩⟩
    · exact hname J hJ h
    · exact hstore J hJ hst hops

/-- Witness for C16: `shadowBlock` is `%y = load %p; %z = add %y, %y; ret %z`. -/
theorem use_exact_witness :
    shadowUnit.addrs.Nodup ∧ extractUseKill shadowUnit = some shadowUseKill ∧
    shadowBlock ∈ shadowUnit.blocks ∧
    ("p" ∈ StdMap.get shadowUseKill.variable_use shadowBlock.addr ↔
      ∃ pre I post, shadowBlock.insts = pre ++ I :: post ∧
        (I.opcode ≠ Opcode.Alloca ∧ I.opcode ≠ Opcode.Store ∧ I.opcode ≠ Opcode.Br ∧
          I.opcode ≠ Opcode.ICmp) ∧
        "p" ∈ I.operands ∧ (∀ J ∈ pre, J.name ≠ "p") ∧
        (∀ J ∈ pre, J.opcode = Opcode.Store → "p" ∉ J.operands)) ∧
    "p" ∈ StdMap.get shadowUseKill.variable_use shadowBlock.addr ∧
    "y" ∉ StdMap.get shadowUseKill.variable_use shadowBlock.addr :=
  ⟨by decide, by decide, by decide,
    use_exact shadowUnit (by decide) shadowUseKill (by decide) shadowBlock (by decide) "p",
    by decide, by decide⟩

/-- C17 fails on the code: the operand loop inserts every operand of a `store`
that is not yet killed into KILL, the stored value as well as the target. In
`storeUnit`, whose block is `store i32 %v, i32* %q; ret void`, the name `v`
occurs only as the 1st operand of the store and is in `KILL`. -/
theorem store_kills_stored_value :
    runOnFunction storeUnit 10 = .finished
      { variable_use := [(1, ∅)]
        variable_kill := [(1, {"", "q", "v"})]
        live_variables := [(1, ∅)] } ∧
    (∀ I ∈ storeBlock.insts, "v" ∈ I.operands →
      I.opcode = Opcode.Store ∧ I.operands.head? = some "v" ∧ "v" ∉ I.operands.tail) ∧
    (∀ I ∈ storeBlock.insts, I.name ≠ "v") ∧
    "v" ∈ StdMap.get [(1, {"", "q", "v"})] storeBlock.addr := by
  decide

/-- C18 (as the code behaves): the exact content of KILL. For a block `B` of a
unit with distinct block addresses, `n` is in `KILL[B]` exactly when `n` is the
result name of an instruction of `B` (the empty name when the instruction has
no result name) or an operand name of a `store` of `B`. So `KILL[B]` contains
the result name of every instruction of `B`, and a name that is neither is not
in `KILL[B]`, whatever the other blocks define. -/
theorem kill_exact (F : Func) (hnd : F.addrs.Nodup) (uk : UseKill)
    (hex : extractUseKill F = some uk) (B : BasicBlock) (hB : B ∈ F.blocks) :
    (∀ n, n ∈ StdMap.get uk.variable_kill B.addr ↔
      (∃ I ∈ B.insts, I.name = n) ∨
        (∃ I ∈ B.insts, I.opcode = Opcode.Store ∧ n ∈ I.operands)) ∧
    (∀ I ∈ B.insts, I.name ∈ StdMap.get uk.variable_kill B.addr) ∧
    (∀ n, (∀ I ∈ B.insts, I.name ≠ n) →
      (∀ I ∈ B.insts, I.opcode = Opcode.Store → n ∉ I.operands) →
      n ∉ StdMap.get uk.variable_kill B.addr) := by
  have hiff : ∀ n, n ∈ StdMap.get uk.variable_kill B.addr ↔
      (∃ I ∈ B.insts, I.name = n) ∨
        (∃ I ∈ B.insts, I.opcode = Opcode.Store ∧ n ∈ I.operands) := by
    intro n
    rw [(extract_get hnd hex hB).2, scanInstructions_kill_iff]
    simp only [Finset.not_mem_empty, false_or]
    constructor
    · rintro ⟨I, hI, h | h⟩
      · exact Or.inl ⟨I, hI, h⟩
      · exact Or.inr ⟨I, hI, h⟩
    · rintro (⟨I, hI, h⟩ | ⟨I, hI, h⟩)
      · exact ⟨I, hI, Or.inl h⟩
      · exact ⟨I, hI, Or.inr h⟩
  refine ⟨hiff, ?_, ?_⟩
  · intro I hI
    exact (hiff I.name).2 (Or.inl ⟨I, hI, rfl⟩)
  · intro n hname hstore hn
    rcases (hiff n).1 hn with ⟨I, hI, h⟩ | ⟨I, hI, hst, hops⟩
    · exact hname I hI h
    · exact hstore I hI hst hops

/-- Witness for C18 (as the code behaves): `storeBlock`. -/
theorem kill_exact_witness :
    storeUnit.addrs.Nodup ∧
    extractUseKill storeUnit
      = some { variable_use := [(1, ∅)], variable_kill := [(1, {"", "q", "v"})] } ∧
    storeBlock ∈ storeUnit.blocks ∧
    (∀ n, n ∈ StdMap.get [(1, {"", "q", "v"})] storeBlock.addr ↔
      (∃ I ∈ storeBlock.insts, I.name = n) ∨
        (∃ I ∈ storeBlock.insts, I.opcode = Opcode.Store ∧ n ∈ I.operands)) ∧
    (∀ I ∈ storeBlock.insts, I.name ∈ StdMap.get [(1, {"", "q", "v"})] storeBlock.addr) ∧
    (∀ n, (∀ I ∈ storeBlock.insts, I.name ≠ n) →
      (∀ I ∈ storeBlock.insts, I.opcode = Opcode.Store → n ∉ I.operands) →
      n ∉ StdMap.get [(1, {"", "q", "v"})] storeBlock.addr) :=
  ⟨by decide, by decide, by decide,
    kill_exact storeUnit (by decide)
      { variable_use := [(1, ∅)], variable_kill := [(1, {"", "q", "v"})] } (by decide)
      storeBlock (by decide)⟩

/-- C18 fails as stated: in `chainABC` the block A is `br label %B`; its KILL set
holds the empty name, although no instruction of A defines a named result and A
has no `store`. -/
theorem kill_exact_counterexample :
    extractUseKill chainABC = some chainUseKill ∧ blockA ∈ chainABC.blocks ∧
    "" ∈ StdMap.get chainUseKill.variable_kill blockA.addr ∧
    ¬ ((∃ I ∈ blockA.insts, I.name ≠ "" ∧ I.name = "") ∨
        (∃ I ∈ blockA.insts, I.opcode = Opcode.Store ∧ "" ∈ I.operands)) := by
  decide

/-! ## Seeding of the work list -/

/-- A final state is contained in every other final state for the same equations. -/
theorem final_le {F : Func} {uk : UseKill} {live1 live2 : StdMap}
    (h1 : SolverInv F uk { live_variables := live1, workList := [] })
    (h2 : SolverInv F uk { live_variables := live2, workList := [] })
    {B : BasicBlock} (hB : B ∈ F.blocks) :
    StdMap.get live1 B.addr ⊆ StdMap.get live2 B.addr := by
  intro n hn
  refine h1.least (fun a n => n ∈ StdMap.get live2 a) ?_ B hB n hn
  intro B1 hB1 n1 S hS h
  have hfix := fixed_point_of_inv h2 hB1
  simp only at hfix ⊢
  rw [hfix, mem_liveOutRHS]
  exact ⟨S, hS, h⟩

theorem final_unique {F : Func} {uk : UseKill} {live1 live2 : StdMap}
    (h1 : SolverInv F uk { live_variables := live1, workList := [] })
    (h2 : SolverInv F uk { live_variables := live2, workList := [] })
    {B : BasicBlock} (hB : B ∈ F.blocks) :
    StdMap.find live1 B.addr = StdMap.find live2 B.addr := by
  obtain ⟨s1, hs1⟩ := h1.keys B hB
  obtain ⟨s2, hs2⟩ := h2.keys B hB
  have h12 := final_le h1 h2 hB
  have h21 := final_le h2 h1 hB
  rw [StdMap.get_of_find hs1, StdMap.get_of_find hs2] at h12 h21
  rw [hs1, hs2, Finset.Subset.antisymm h12 h21]

/-- The invariant of the loop holds in a seeded state when the seed consists of
blocks and contains every block that has a successor. -/
theorem seededState_inv (F : Func) (uk : UseKill) (seed : List BasicBlockPtr)
    (hseed : ∀ a ∈ seed, a ∈ F.addrs)
    (hinner : ∀ B ∈ F.blocks, B.succs ≠ [] → B.addr ∈ seed) :
    SolverInv F uk (seededState F seed) := by
  refine ⟨?_, ?_, ?_, ?_, ?_⟩
  · intro B hB
    exact ⟨∅, by
      simp only [seededState]
      rw [initialState_find, if_pos (addr_mem_addrs hB)]⟩
  · intro a ha
    exact hseed a ha
  · intro B _
    simp only [seededState]
    rw [initialState_get]
    exact Finset.empty_subset _
  · intro B hB hnot
    have hs : B.succs = [] := by
      by_contra hne
      exact hnot (hinner B hB hne)
    rw [hs, liveOutRHS_nil]
    exact Finset.empty_subset _
  · intro M _ B _ n hn
    simp only [seededState] at hn
    rw [initialState_get] at hn
    simp at hn

theorem potential_seededState_lt (F : Func) (uk : UseKill) (seed : List BasicBlockPtr) :
    potential F uk (seededState F seed) < seed.length + iterationBound F uk := by
  unfold potential iterationBound
  have h2 : (F.blocks.map (fun B => (nameUniverse uk.variable_use).card
        - (StdMap.get (seededState F seed).live_variables B.addr).card)).sum
      = F.blocks.length * (nameUniverse uk.variable_use).card := by
    simp [seededState, initialState_get]
  rw [h2]
  simp only [seededState]
  omega

/-- C19 (as the loop behaves): on a well-formed CFG, the loop started with
`LIVE_OUT = ∅` everywhere and the work list seeded with any list of blocks that
contains every block with a successor (the exit blocks may be left out, the
order is free) finishes with the same `LIVE_OUT` set for every block as the
loop seeded with every block. -/
theorem seeding_equivalence (F : Func) (hwf : WellFormed F) (uk : UseKill)
    (hex : extractUseKill F = some uk) (seed : List BasicBlockPtr)
    (hseed : ∀ a ∈ seed, a ∈ F.addrs)
    (hinner : ∀ B ∈ F.blocks, B.succs ≠ [] → B.addr ∈ seed)
    (fuel fuel1 : Nat) (hfuel : fuelBound F ≤ fuel)
    (hfuel1 : seed.length + fuelBound F ≤ fuel1) :
    ∃ live live1, whileLoop F uk fuel (initialState F) = .finished live ∧
      whileLoop F uk fuel1 (seededState F seed) = .finished live1 ∧
      ∀ B ∈ F.blocks, StdMap.find live1 B.addr = StdMap.find live B.addr := by
  obtain ⟨uk1, live, _, hex1, huk, _, _, hinv, hrun⟩ := runOnFunction_finishes hwf
  rw [hex] at hex1
  cases Option.some.inj hex1
  have hbound : fuelBound F = iterationBound F uk := by simp [fuelBound, hex]
  obtain ⟨live1, _, hrun1, _, _, hinv1⟩ :=
    whileLoop_finishes hwf huk (seed.length + iterationBound F uk) (seededState F seed)
      (seededState_inv F uk seed hseed hinner) (potential_seededState_lt F uk seed)
  obtain ⟨k, hk⟩ := Nat.exists_eq_add_of_le hfuel1
  refine ⟨live, live1, (hrun fuel hfuel).1, ?_, fun B hB => final_unique hinv1 hinv hB⟩
  rw [hk, hbound]
  exact whileLoop_mono F uk _ _ _ k hrun1

/-- Witness for C19 (as the loop behaves): `chainABC` seeded with B and A only. -/
theorem seeding_equivalence_witness :
    WellFormed chainABC ∧ extractUseKill chainABC = some chainUseKill ∧
    (∀ a ∈ [20, 10], a ∈ chainABC.addrs) ∧
    (∀ B ∈ chainABC.blocks, B.succs ≠ [] → B.addr ∈ [20, 10]) ∧
    ∃ live live1,
      whileLoop chainABC chainUseKill 100 (initialState chainABC) = .finished live ∧
      whileLoop chainABC chainUseKill 100 (seededState chainABC [20, 10])
        = .finished live1 ∧
      ∀ B ∈ chainABC.blocks, StdMap.find live1 B.addr = StdMap.find live B.addr :=
  ⟨by decide, by decide, by decide, by decide,
    seeding_equivalence chainABC (by decide) chainUseKill (by decide) [20, 10] (by decide)
      (by decide) 100 100 (by decide) (by decide)⟩

/-- C19 fails as stated: in `chainABC` (A -> B -> C with `x` used in C) the loop
seeded with the exit block C only stops after one iteration with `LIVE_OUT = ∅`
for every block, while the loop seeded with every block ends with
`LIVE_OUT[A] = LIVE_OUT[B] = {x}`. -/
theorem seeding_counterexample :
    WellFormed chainABC ∧ extractUseKill chainABC = some chainUseKill ∧
    exitBlocks chainABC = [30] ∧
    whileLoop chainABC chainUseKill 100 (seededState chainABC (exitBlocks chainABC))
      = .finished [(10, ∅), (20, ∅), (30, ∅)] ∧
    whileLoop chainABC chainUseKill 100 (initialState chainABC)
      = .finished [(10, {"x"}), (20, {"x"}), (30, ∅)] := by
  decide

/-! ## Independence of the order of the lists -/

theorem scanOperand_congr {I I1 : Instruction} (h : I1.opcode = I.opcode)
    (s : Finset StringRef × Finset StringRef) (v : StringRef) :
    scanOperand I1 s v = scanOperand I s v := by
  unfold scanOperand
  rw [h]

theorem scanOperands_congr {I I1 : Instruction} (h : I1.opcode = I.opcode) :
    ∀ (ops : List StringRef) (s : Finset StringRef × Finset StringRef),
      scanOperands I1 ops s = scanOperands I ops s := by
  intro ops
  induction ops with
  | nil => intro s; rfl
  | cons v rest ih =>
    intro s
    simp only [scanOperands, scanOperand_congr h, ih]

theorem scanInstruction_congr {I I1 : Instruction} (h : I1.core = I.core)
    (s : Finset StringRef × Finset StringRef) :
    scanInstruction s I1 = scanInstruction s I := by
  simp only [Instruction.core, Prod.mk.injEq] at h
  obtain ⟨hop, hops, hname⟩ := h
  unfold scanInstruction
  rw [hops, hname, scanOperands_congr hop]

theorem scanInstructions_congr :
    ∀ (l l1 : List Instruction), l1.map Instruction.core = l.map Instruction.core →
      ∀ s : Finset StringRef × Finset StringRef,
        scanInstructions l1 s = scanInstructions l s := by
  intro l
  induction l with
  | nil =>
    intro l1 h s
    simp only [List.map_nil, List.map_eq_nil_iff] at h
    rw [h]
  | cons I rest ih =>
    intro l1 h s
    cases l1 with
    | nil => simp at h
    | cons I1 rest1 =>
      simp only [List.map_cons, List.cons.injEq] at h
      simp only [scanInstructions, scanInstruction_congr h.1, ih rest1 h.2]

theorem getTerminator_isSome_congr {B B1 : BasicBlock}
    (h : B1.insts.map Instruction.core = B.insts.map Instruction.core) :
    B1.getTerminator.isSome = B.getTerminator.isSome := by
  have hlast := congrArg List.getLast? h
  rw [List.getLast?_map, List.getLast?_map] at hlast
  unfold BasicBlock.getTerminator
  cases h1 : B1.insts.getLast? with
  | none =>
    cases h2 : B.insts.getLast? with
    | none => rfl
    | some I => rw [h1, h2] at hlast; simp at hlast
  | some I1 =>
    cases h2 : B.insts.getLast? with
    | none => rw [h1, h2] at hlast; simp at hlast
    | some I =>
      rw [h1, h2] at hlast
      simp only [Option.map_some', Option.some.injEq, Instruction.core, Prod.mk.injEq] at hlast
      simp only [hlast.1]
      split <;> rfl

theorem reordered_corr {F F1 : Func} (hre : F.Reordered F1) {B : BasicBlock}
    (hB : B ∈ F.blocks) : ∃ B1 ∈ F1.blocks, B.Reordered B1 := by
  obtain ⟨hperm, hblk⟩ := hre
  obtain ⟨B1, hB1, hB1addr⟩ :=
    (mem_addrs_iff F1 B.addr).1 (hperm.mem_iff.2 (addr_mem_addrs hB))
  exact ⟨B1, hB1, hblk B hB B1 hB1 hB1addr⟩

theorem reordered_corr_symm {F F1 : Func} (hre : F.Reordered F1) {B1 : BasicBlock}
    (hB1 : B1 ∈ F1.blocks) : ∃ B ∈ F.blocks, B.Reordered B1 := by
  obtain ⟨hperm, hblk⟩ := hre
  obtain ⟨B, hB, hBaddr⟩ :=
    (mem_addrs_iff F B1.addr).1 (hperm.mem_iff.1 (addr_mem_addrs hB1))
  exact ⟨B, hB, hblk B hB B1 hB1 hBaddr.symm⟩

/-- A reordering of a well-formed unit is well-formed. -/
theorem wellFormed_reordered {F F1 : Func} (hwf : WellFormed F) (hre : F.Reordered F1) :
    WellFormed F1 := by
  obtain ⟨hnd, hterm, hsucc, hpred, hinverse⟩ := hwf
  have hperm := hre.1
  refine ⟨hperm.nodup_iff.2 hnd, ?_, ?_, ?_, ?_⟩
  · intro B1 hB1
    obtain ⟨B, hB, _, _, hinsts, _, _⟩ := reordered_corr_symm hre hB1
    rw [getTerminator_isSome_congr hinsts]
    exact hterm B hB
  · intro B1 hB1 s hs
    obtain ⟨B, hB, _, _, _, hsuccs, _⟩ := reordered_corr_symm hre hB1
    exact hperm.mem_iff.2 (hsucc B hB s (hsuccs.mem_iff.1 hs))
  · intro B1 hB1 p hp
    obtain ⟨B, hB, _, _, _, _, hpreds⟩ := reordered_corr_symm hre hB1
    exact hperm.mem_iff.2 (hpred B hB p (hpreds.mem_iff.1 hp))
  · intro A1 hA1 B1 hB1
    obtain ⟨A, hA, hAaddr, _, _, hAsuccs, _⟩ := reordered_corr_symm hre hA1
    obtain ⟨B, hB, hBaddr, _, _, _, hBpreds⟩ := reordered_corr_symm hre hB1
    rw [hAaddr, hBaddr, hBpreds.mem_iff, hAsuccs.mem_iff]
    exact hinverse A hA B hB

/-- The final state of one unit is contained in the final state of another unit
that has the same successor sets and the same USE and KILL sets. -/
theorem final_le_of_corr {F F1 : Func} {uk uk1 : UseKill} {live live1 : StdMap}
    (hinv : SolverInv F uk { live_variables := live, workList := [] })
    (hinv1 : SolverInv F1 uk1 { live_variables := live1, workList := [] })
    (hsucc : ∀ B ∈ F.blocks, ∀ s ∈ B.succs, s ∈ F.addrs)
    (hcorr : ∀ B ∈ F.blocks, ∃ B1 ∈ F1.blocks, B1.addr = B.addr ∧
      ∀ s ∈ B.succs, s ∈ B1.succs)
    (huk : ∀ B ∈ F.blocks,
      StdMap.get uk.variable_use B.addr = StdMap.get uk1.variable_use B.addr ∧
      StdMap.get uk.variable_kill B.addr = StdMap.get uk1.variable_kill B.addr)
    {B : BasicBlock} (hB : B ∈ F.blocks) :
    StdMap.get live B.addr ⊆ StdMap.get live1 B.addr := by
  intro n hn
  refine hinv.least (fun a n => n ∈ StdMap.get live1 a) ?_ B hB n hn
  intro B0 hB0 n0 S hS h
  obtain ⟨B1, hB1, hB1addr, hsub⟩ := hcorr B0 hB0
  obtain ⟨Bs, hBs, hBsaddr⟩ := (mem_addrs_iff F S).1 (hsucc B0 hB0 S hS)
  have hukS := huk Bs hBs
  rw [hBsaddr] at hukS
  have hfix := fixed_point_of_inv hinv1 hB1
  simp only at hfix ⊢
  rw [← hB1addr, hfix, mem_liveOutRHS]
  refine ⟨S, hsub S hS, ?_⟩
  rw [← hukS.1, ← hukS.2]
  exact h

/-- The extractor stores the same USE and KILL sets for a block and for the block
with its lists in another order. -/
theorem extract_reordered {F F1 : Func} {uk uk1 : UseKill}
    (hnd : F.addrs.Nodup) (hnd1 : F1.addrs.Nodup)
    (hex : extractUseKill F = some uk) (hex1 : extractUseKill F1 = some uk1)
    {B B1 : BasicBlock} (hB : B ∈ F.blocks) (hB1 : B1 ∈ F1.blocks)
    (hBB1 : B.Reordered B1) :
    StdMap.get uk.variable_use B.addr = StdMap.get uk1.variable_use B.addr ∧
    StdMap.get uk.variable_kill B.addr = StdMap.get uk1.variable_kill B.addr := by
  obtain ⟨haddr, _, hinsts, _, _⟩ := hBB1
  have h := extract_get hnd hex hB
  have h1 := extract_get hnd1 hex1 hB1
  rw [haddr, scanInstructions_congr B.insts B1.insts hinsts] at h1
  exact ⟨h.1.trans h1.1.symm, h.2.trans h1.2.symm⟩

theorem StdMap.keys_erase (m : StdMap) (k : BasicBlockPtr) :
    StdMap.keys (StdMap.erase m k) = (StdMap.keys m).filter (fun a => a != k) := by
  induction m with
  | nil => rfl
  | cons e m ih =>
    obtain ⟨k1, v⟩ := e
    unfold StdMap.keys at ih ⊢
    by_cases h : k1 = k
    · simp [StdMap.erase, h, ih]
    · simp [StdMap.erase, h, ih]

theorem StdMap.keys_place (m : StdMap) (k : BasicBlockPtr) (v : Finset StringRef) :
    (StdMap.keys (StdMap.place m k v)).Perm (k :: StdMap.keys m) := by
  induction m with
  | nil => exact List.Perm.refl _
  | cons e m ih =>
    obtain ⟨k1, v1⟩ := e
    unfold StdMap.keys at ih ⊢
    by_cases h : k < k1
    · simp only [StdMap.place, if_pos h, List.map_cons]
      exact List.Perm.refl _
    · simp only [StdMap.place, if_neg h, List.map_cons]
      exact (List.Perm.cons k1 ih).trans (List.Perm.swap k k1 _)

theorem StdMap.find_eq_none_iff (m : StdMap) (k : BasicBlockPtr) :
    StdMap.find m k = none ↔ k ∉ StdMap.keys m := by
  induction m with
  | nil => simp [StdMap.find, StdMap.keys]
  | cons e m ih =>
    obtain ⟨k1, v⟩ := e
    unfold StdMap.keys at ih ⊢
    by_cases h : k1 = k
    · simp [StdMap.find, h]
    · have h1 : ¬ k = k1 := fun h2 => h h2.symm
      simp [StdMap.find, h, h1, ih]

theorem StdMap.mem_keys_iff (m : StdMap) (k : BasicBlockPtr) :
    k ∈ StdMap.keys m ↔ ∃ s, StdMap.find m k = some s := by
  have h := StdMap.find_eq_none_iff m k
  cases hf : StdMap.find m k with
  | none =>
    rw [hf] at h
    simp only [true_iff] at h
    simp [h]
  | some s =>
    rw [hf] at h
    have h1 : k ∈ StdMap.keys m := by
      by_contra hc
      exact absurd (h.2 hc) (by simp)
    exact ⟨fun _ => ⟨s, rfl⟩, fun _ => h1⟩

theorem StdMap.keys_insert_of_not_mem (m : StdMap) (k : BasicBlockPtr)
    (v : Finset StringRef) (h : k ∉ StdMap.keys m) :
    (StdMap.keys (StdMap.insert m k v)).Perm (k :: StdMap.keys m) := by
  unfold StdMap.insert
  rw [(StdMap.find_eq_none_iff m k).2 h]
  exact StdMap.keys_place m k v

theorem StdMap.insert_of_mem (m : StdMap) (k : BasicBlockPtr)
    (v : Finset StringRef) (h : k ∈ StdMap.keys m) : StdMap.insert m k v = m := by
  obtain ⟨s, hs⟩ := (StdMap.mem_keys_iff m k).1 h
  unfold StdMap.insert
  rw [hs]

/-- Erasing the entry of a key and inserting one for the same key neither loses
nor adds a key. -/
theorem StdMap.keys_update (m : StdMap) (k : BasicBlockPtr) (v : Finset StringRef)
    (hnd : (StdMap.keys m).Nodup) (hk : k ∈ StdMap.keys m) :
    (StdMap.keys (StdMap.insert (StdMap.erase m k) k v)).Perm (StdMap.keys m) := by
  have hnot : k ∉ StdMap.keys (StdMap.erase m k) := by
    rw [StdMap.keys_erase]
    simp
  refine (StdMap.keys_insert_of_not_mem _ k v hnot).trans ?_
  rw [StdMap.keys_erase, ← hnd.erase_eq_filter k]
  exact (List.perm_cons_erase hk).symm

theorem KeysAre.find {l : List BasicBlockPtr} {m : StdMap} (h : KeysAre l m)
    {k : BasicBlockPtr} (hk : k ∈ l) : ∃ s, StdMap.find m k = some s :=
  (StdMap.mem_keys_iff m k).1 (List.Perm.mem_iff h |>.2 hk)

theorem KeysAre.update {l : List BasicBlockPtr} {m : StdMap} (hl : l.Nodup)
    (h : KeysAre l m) {k : BasicBlockPtr} (hk : k ∈ l) (v : Finset StringRef) :
    KeysAre l (StdMap.insert (StdMap.erase m k) k v) :=
  (StdMap.keys_update m k v (List.Perm.nodup h.symm hl) (List.Perm.mem_iff h |>.2 hk)).trans h

theorem KeysAre.insert_new {l : List BasicBlockPtr} {m : StdMap}
    (h : KeysAre l m) {k : BasicBlockPtr} (hk : k ∉ l) (v : Finset StringRef) :
    KeysAre (l ++ [k]) (StdMap.insert m k v) := by
  have hnot : k ∉ StdMap.keys m := fun hc => hk (List.Perm.mem_iff h |>.1 hc)
  exact ((StdMap.keys_insert_of_not_mem m k v hnot).trans (List.Perm.cons k h)).trans
    (List.perm_append_singleton k l).symm

/-! ### The extractor keeps one entry per scanned block -/

theorem operandStep_keys {l : List BasicBlockPtr} (hl : l.Nodup) {bb : BasicBlockPtr}
    (hbb : bb ∈ l) (I : Instruction) (st : UseKill) (v : StringRef)
    (hu : KeysAre l st.variable_use) (hk : KeysAre l st.variable_kill) :
    ∃ st1, operandStep bb I st v = some st1 ∧
      KeysAre l st1.variable_use ∧ KeysAre l st1.variable_kill := by
  obtain ⟨u, hfu⟩ := hu.find hbb
  obtain ⟨k, hfk⟩ := hk.find hbb
  unfold operandStep
  rw [hfk]
  simp only
  by_cases hmem : v ∈ k
  · rw [if_pos hmem]
    exact ⟨st, rfl, hu, hk⟩
  · rw [if_neg hmem, hfu]
    simp only
    by_cases hst : I.opcode = Opcode.Store
    · rw [if_pos hst]
      exact ⟨_, rfl, hu.update hl hbb _, hk.update hl hbb _⟩
    · rw [if_neg hst]
      exact ⟨_, rfl, hu.update hl hbb _, hk⟩

theorem forOperands_keys {l : List BasicBlockPtr} (hl : l.Nodup) {bb : BasicBlockPtr}
    (hbb : bb ∈ l) (I : Instruction) :
    ∀ (ops : List StringRef) (st : UseKill),
      KeysAre l st.variable_use → KeysAre l st.variable_kill →
      ∃ st1, forOperands bb I ops st = some st1 ∧
        KeysAre l st1.variable_use ∧ KeysAre l st1.variable_kill := by
  intro ops
  induction ops with
  | nil => intro st hu hk; exact ⟨st, rfl, hu, hk⟩
  | cons v rest ih =>
    intro st hu hk
    obtain ⟨st1, h1, hu1, hk1⟩ := operandStep_keys hl hbb I st v hu hk
    obtain ⟨st2, h2, hu2, hk2⟩ := ih st1 hu1 hk1
    exact ⟨st2, by simp only [forOperands, h1, h2], hu2, hk2⟩

theorem killResult_keys {l : List BasicBlockPtr} (hl : l.Nodup) {bb : BasicBlockPtr}
    (hbb : bb ∈ l) (I : Instruction) (st : UseKill)
    (hu : KeysAre l st.variable_use) (hk : KeysAre l st.variable_kill) :
    ∃ st1, killResult bb I st = some st1 ∧
      KeysAre l st1.variable_use ∧ KeysAre l st1.variable_kill := by
  obtain ⟨k, hfk⟩ := hk.find hbb
  unfold killResult
  rw [hfk]
  exact ⟨_, rfl, hu, hk.update hl hbb _⟩

theorem instructionStep_keys {l : List BasicBlockPtr} (hl : l.Nodup) {bb : BasicBlockPtr}
    (hbb : bb ∈ l) (I : Instruction) (st : UseKill)
    (hu : KeysAre l st.variable_use) (hk : KeysAre l st.variable_kill) :
    ∃ st1, instructionStep bb st I = some st1 ∧
      KeysAre l st1.variable_use ∧ KeysAre l st1.variable_kill := by
  obtain ⟨st1, h1, hu1, hk1⟩ := forOperands_keys hl hbb I I.operands st hu hk
  obtain ⟨st2, h2, hu2, hk2⟩ := killResult_keys hl hbb I st1 hu1 hk1
  exact ⟨st2, by simp only [instructionStep, h1, h2], hu2, hk2⟩

theorem forInstructions_keys {l : List BasicBlockPtr} (hl : l.Nodup) {bb : BasicBlockPtr}
    (hbb : bb ∈ l) :
    ∀ (insts : List Instruction) (st : UseKill),
      KeysAre l st.variable_use → KeysAre l st.variable_kill →
      ∃ st1, forInstructions bb insts st = some st1 ∧
        KeysAre l st1.variable_use ∧ KeysAre l st1.variable_kill := by
  intro insts
  induction insts with
  | nil => intro st hu hk; exact ⟨st, rfl, hu, hk⟩
  | cons I rest ih =>
    intro st hu hk
    obtain ⟨st1, h1, hu1, hk1⟩ := instructionStep_keys hl hbb I st hu hk
    obtain ⟨st2, h2, hu2, hk2⟩ := ih st1 hu1 hk1
    exact ⟨st2, by simp only [forInstructions, h1, h2], hu2, hk2⟩

theorem blockStep_keys {l : List BasicBlockPtr} (B : BasicBlock)
    (hl : (l ++ [B.addr]).Nodup) (st : UseKill)
    (hu : KeysAre l st.variable_use) (hk : KeysAre l st.variable_kill) :
    ∃ st1, blockStep st B = some st1 ∧
      KeysAre (l ++ [B.addr]) st1.variable_use ∧
      KeysAre (l ++ [B.addr]) st1.variable_kill := by
  have hnot : B.addr ∉ l := by
    intro hc
    have := List.nodup_append.1 hl
    exact this.2.2 hc (List.mem_singleton_self _)
  unfold blockStep
  exact forInstructions_keys hl (List.mem_append_right _ (List.mem_singleton_self _))
    B.insts _ (hu.insert_new hnot ∅) (hk.insert_new hnot ∅)

theorem forBlocks_keys :
    ∀ (bs : List BasicBlock) (l : List BasicBlockPtr) (st : UseKill),
      (l ++ bs.map (fun B => B.addr)).Nodup →
      KeysAre l st.variable_use → KeysAre l st.variable_kill →
      ∃ st1, forBlocks bs st = some st1 ∧
        KeysAre (l ++ bs.map (fun B => B.addr)) st1.variable_use ∧
        KeysAre (l ++ bs.map (fun B => B.addr)) st1.variable_kill := by
  intro bs
  induction bs with
  | nil =>
    intro l st _ hu hk
    exact ⟨st, rfl, by simpa using hu, by simpa using hk⟩
  | cons B rest ih =>
    intro l st hnd hu hk
    have hassoc : l ++ (B :: rest).map (fun B => B.addr)
        = (l ++ [B.addr]) ++ rest.map (fun B => B.addr) := by simp
    rw [hassoc] at hnd ⊢
    have hnd1 : (l ++ [B.addr]).Nodup := (List.nodup_append.1 hnd).1
    obtain ⟨st1, h1, hu1, hk1⟩ := blockStep_keys B hnd1 st hu hk
    obtain ⟨st2, h2, hu2, hk2⟩ := ih (l ++ [B.addr]) st1 hnd hu1 hk1
    exact ⟨st2, by simp only [forBlocks, h1, h2], hu2, hk2⟩

/-- After the scan of any initial part of the block list, both maps hold exactly
one entry for every block scanned so far. -/
theorem forBlocks_prefix_keys (F : Func) (hnd : F.addrs.Nodup)
    (pre post : List BasicBlock) (hsplit : F.blocks = pre ++ post) :
    ∃ st, forBlocks pre { variable_use := [], variable_kill := [] } = some st ∧
      KeysAre (pre.map (fun B => B.addr)) st.variable_use ∧
      KeysAre (pre.map (fun B => B.addr)) st.variable_kill := by
  have hpre : ([] ++ pre.map (fun B : BasicBlock => B.addr)).Nodup := by
    unfold Func.addrs at hnd
    rw [hsplit, List.map_append] at hnd
    simpa using (List.nodup_append.1 hnd).1
  have h0 : KeysAre [] ([] : StdMap) := List.Perm.refl _
  obtain ⟨st, h, hu, hk⟩ :=
    forBlocks_keys pre [] { variable_use := [], variable_kill := [] } hpre h0 h0
  exact ⟨st, h, by simpa using hu, by simpa using hk⟩

/-! ### The solver keeps one entry per block and never fails -/

theorem initSolver_keys :
    ∀ (bs : List BasicBlock) (l : List BasicBlockPtr) (st : SolverState),
      (l ++ bs.map (fun B => B.addr)).Nodup → KeysAre l st.live_variables →
      KeysAre (l ++ bs.map (fun B => B.addr)) (initSolver bs st).live_variables := by
  intro bs
  induction bs with
  | nil => intro l st _ h; simpa [initSolver] using h
  | cons B rest ih =>
    intro l st hnd h
    have hassoc : l ++ (B :: rest).map (fun B => B.addr)
        = (l ++ [B.addr]) ++ rest.map (fun B => B.addr) := by simp
    rw [hassoc] at hnd ⊢
    have hnot : B.addr ∉ l := by
      intro hc
      exact (List.nodup_append.1 (List.nodup_append.1 hnd).1).2.2 hc
        (List.mem_singleton_self _)
    rw [initSolver]
    exact ih (l ++ [B.addr]) _ hnd (h.insert_new hnot ∅)

theorem initialState_keys (F : Func) (hnd : F.addrs.Nodup) :
    KeysAre F.addrs (initialState F).live_variables := by
  have h0 : KeysAre [] ([] : StdMap) := List.Perm.refl _
  have h := initSolver_keys F.blocks [] { live_variables := [], workList := [] }
    (by simpa [Func.addrs] using hnd) h0
  simpa [Func.addrs, initialState] using h

theorem initialState_safe (F : Func) (hnd : F.addrs.Nodup) (uk : UseKill) :
    SolverSafe F uk (initialState F) := by
  refine ⟨initialState_keys F hnd, ?_, ?_, ?_⟩
  · intro a ha
    rwa [initialState_workList] at ha
  · intro B _
    rw [initialState_get]
    exact Finset.empty_subset _
  · intro B _
    rw [initialState_get]
    exact Finset.empty_subset _

theorem potential_decreases_of {F : Func} {uk : UseKill} {st : SolverState}
    {tmp : BasicBlockPtr} {rest : List BasicBlockPtr} (hwl : st.workList = tmp :: rest)
    {B : BasicBlock} (hB : B ∈ F.blocks) (hBaddr : B.addr = tmp)
    (R : Finset StringRef) (hinfl : StdMap.get st.live_variables tmp ⊆ R)
    (hR : R ⊆ nameUniverse uk.variable_use) :
    potential F uk
      { live_variables := StdMap.insert (StdMap.erase st.live_variables tmp) tmp R
        workList := if R ≠ StdMap.get st.live_variables tmp then rest ++ B.preds else rest }
      < potential F uk st := by
  subst hBaddr
  unfold potential
  simp only [hwl, List.length_cons]
  by_cases hch : R = StdMap.get st.live_variables B.addr
  · have hsame : ∀ a, StdMap.get (StdMap.insert (StdMap.erase st.live_variables B.addr)
        B.addr R) a = StdMap.get st.live_variables a := by
      intro a
      rw [StdMap.get_update]
      by_cases h : a = B.addr
      · rw [if_pos h, hch, h]
      · rw [if_neg h]
    simp only [hsame]
    rw [if_neg (not_not.2 hch)]
    omega
  · simp only [ne_eq, hch, not_false_eq_true, if_true, List.length_append]
    have hlt : (F.blocks.map (fun B1 => (nameUniverse uk.variable_use).card
          - (StdMap.get (StdMap.insert (StdMap.erase st.live_variables B.addr) B.addr R)
              B1.addr).card)).sum
        < (F.blocks.map (fun B1 => (nameUniverse uk.variable_use).card
          - (StdMap.get st.live_variables B1.addr).card)).sum := by
      apply List.sum_lt_sum
      · intro B1 _
        have hsub : StdMap.get st.live_variables B1.addr ⊆
            StdMap.get (StdMap.insert (StdMap.erase st.live_variables B.addr) B.addr R)
              B1.addr := by
          rw [StdMap.get_update]
          by_cases h : B1.addr = B.addr
          · rw [if_pos h, h]; exact hinfl
          · rw [if_neg h]
        have := Finset.card_le_card hsub
        omega
      · refine ⟨B, hB, ?_⟩
        have hss : StdMap.get st.live_variables B.addr ⊂ R :=
          Finset.ssubset_iff_subset_ne.2 ⟨hinfl, fun h => hch h.symm⟩
        have h1 := Finset.card_lt_card hss
        have h2 := Finset.card_le_card hR
        simp only [StdMap.get_update, if_true]
        omega
    have hp := preds_length_le_totalPreds hB
    have hmul := Nat.mul_le_mul_left (totalPreds F) (Nat.succ_le_of_lt hlt)
    rw [Nat.mul_succ] at hmul
    omega

/-- On a closed unit an execution of the loop body from a safe state with a
non-empty work list succeeds, ends in a safe state and decreases the potential. -/
theorem loopBody_safe {F : Func} {uk : UseKill} {st : SolverState}
    (hcl : Closed F) (huk : HasEntries F uk) (hs : SolverSafe F uk st)
    {tmp : BasicBlockPtr} {rest : List BasicBlockPtr} (hwl : st.workList = tmp :: rest) :
    ∃ st1, loopBody F uk st = some st1 ∧ SolverSafe F uk st1 ∧
      potential F uk st1 < potential F uk st ∧
      ∀ a, StdMap.get st.live_variables a ⊆ StdMap.get st1.live_variables a := by
  obtain ⟨hnd, hterm, hsucc, hpred⟩ := hcl
  have htmp : tmp ∈ F.addrs := hs.queued tmp (by rw [hwl]; exact List.mem_cons_self _ _)
  obtain ⟨B, hB, hBaddr⟩ := (mem_addrs_iff F tmp).1 htmp
  obtain ⟨origin, horigin⟩ := hs.keys.find htmp
  have hderef : F.deref tmp = some B := by rw [← hBaddr]; exact deref_of_mem hnd hB
  obtain ⟨T, hT⟩ := Option.isSome_iff_exists.1 (hterm B hB)
  have hsuccs : B.succs = T.successors := succs_of_getTerminator hT
  have hent : ∀ S ∈ T.successors, (∃ l, StdMap.find st.live_variables S = some l) ∧
      (∃ k, StdMap.find uk.variable_kill S = some k) ∧
      (∃ u, StdMap.find uk.variable_use S = some u) := by
    intro S hS
    rw [← hsuccs] at hS
    have hSaddr := hsucc B hB S hS
    obtain ⟨B1, hB1, hB1addr⟩ := (mem_addrs_iff F S).1 hSaddr
    subst hB1addr
    exact ⟨hs.keys.find hSaddr, (huk B1 hB1).2, (huk B1 hB1).1⟩
  have hfor := forSuccessors_eq uk st.live_variables T.successors ∅ hent
  rw [Finset.empty_union] at hfor
  have hget : StdMap.get st.live_variables tmp = origin := StdMap.get_of_find horigin
  have hinfl : StdMap.get st.live_variables tmp ⊆
      liveOutRHS uk (StdMap.get st.live_variables) B.succs := by
    rw [← hBaddr]; exact hs.inflationary B hB
  have hR : liveOutRHS uk (StdMap.get st.live_variables) B.succs
      ⊆ nameUniverse uk.variable_use := by
    intro n hn
    rw [mem_liveOutRHS] at hn
    obtain ⟨S, hS, h⟩ := hn
    rcases h with h | ⟨h, _⟩
    · exact get_subset_nameUniverse _ _ h
    · obtain ⟨B1, hB1, hB1addr⟩ := (mem_addrs_iff F S).1 (hsucc B hB S hS)
      subst hB1addr
      exact hs.bounded B1 hB1 h
  have hmono : ∀ a, StdMap.get st.live_variables a ⊆
      StdMap.get (StdMap.insert (StdMap.erase st.live_variables tmp) tmp
        (liveOutRHS uk (StdMap.get st.live_variables) B.succs)) a := by
    intro a
    rw [StdMap.get_update]
    by_cases h : a = tmp
    · rw [if_pos h, h]; exact hinfl
    · rw [if_neg h]
  refine ⟨{ live_variables := StdMap.insert (StdMap.erase st.live_variables tmp) tmp
              (liveOutRHS uk (StdMap.get st.live_variables) B.succs)
            workList :=
              if liveOutRHS uk (StdMap.get st.live_variables) B.succs
                  ≠ StdMap.get st.live_variables tmp
              then rest ++ B.preds else rest }, ?_, ?_, ?_, hmono⟩
  · simp only [loopBody, hwl, horigin, hderef, hT, hfor, hsuccs, hget]
  · refine ⟨hs.keys.update hnd htmp _, ?_, ?_, ?_⟩
    · intro a ha
      simp only at ha
      have hrest : ∀ a ∈ rest, a ∈ F.addrs := fun a ha =>
        hs.queued a (by rw [hwl]; exact List.mem_cons_of_mem _ ha)
      split at ha
      · rcases List.mem_append.1 ha with h | h
        · exact hrest a h
        · exact hpred B hB a h
      · exact hrest a ha
    · intro B1 hB1
      simp only
      refine Finset.Subset.trans ?_ (liveOutRHS_mono uk B1.succs (fun S _ => hmono S))
      rw [StdMap.get_update]
      by_cases h : B1.addr = tmp
      · rw [if_pos h, eq_of_addr_eq hnd hB1 hB (h.trans hBaddr.symm)]
      · rw [if_neg h]; exact hs.inflationary B1 hB1
    · intro B1 hB1
      simp only
      rw [StdMap.get_update]
      by_cases h : B1.addr = tmp
      · rw [if_pos h]; exact hR
      · rw [if_neg h]; exact hs.bounded B1 hB1
  · exact potential_decreases_of hwl hB hBaddr _ hinfl hR

/-- On a closed unit the loop started in a safe state with more fuel than the
potential finishes. -/
theorem whileLoop_finishes_safe {F : Func} {uk : UseKill}
    (hcl : Closed F) (huk : HasEntries F uk) :
    ∀ (fuel : Nat) (st : SolverState), SolverSafe F uk st → potential F uk st < fuel →
      ∃ live, whileLoop F uk fuel st = .finished live ∧ KeysAre F.addrs live := by
  intro fuel
  induction fuel with
  | zero => intro st _ h; exact absurd h (Nat.not_lt_zero _)
  | succ fuel ih =>
    intro st hs hpot
    cases hwl : st.workList with
    | nil => exact ⟨st.live_variables, by simp [whileLoop, hwl], hs.keys⟩
    | cons tmp rest =>
      obtain ⟨st1, hbody, hs1, hdec, _⟩ := loopBody_safe hcl huk hs hwl
      obtain ⟨live, hrun, hkeys⟩ := ih st1 hs1 (by omega)
      exact ⟨live, by simp only [whileLoop, hwl, hbody, hrun], hkeys⟩

/-- On a closed unit the loop started in a safe state never makes a failing lookup. -/
theorem whileLoop_safe {F : Func} {uk : UseKill}
    (hcl : Closed F) (huk : HasEntries F uk) :
    ∀ (fuel : Nat) (st : SolverState), SolverSafe F uk st →
      whileLoop F uk fuel st ≠ .undefinedBehaviour := by
  intro fuel
  induction fuel with
  | zero => intro st _; simp [whileLoop]
  | succ fuel ih =>
    intro st hs
    cases hwl : st.workList with
    | nil => simp [whileLoop, hwl]
    | cons tmp rest =>
      obtain ⟨st1, hbody, hs1, _, _⟩ := loopBody_safe hcl huk hs hwl
      simp only [whileLoop, hwl, hbody]
      exact ih st1 hs1

theorem iterations_safe {F : Func} {uk : UseKill}
    (hcl : Closed F) (huk : HasEntries F uk) :
    ∀ (n : Nat) (st0 st : SolverState), SolverSafe F uk st0 →
      iterations F uk n st0 = some st → SolverSafe F uk st := by
  intro n
  induction n with
  | zero =>
    intro st0 st hs h
    simp only [iterations, Option.some.injEq] at h
    rw [← h]; exact hs
  | succ n ih =>
    intro st0 st hs h
    unfold iterations at h
    cases hb : loopBody F uk st0 with
    | none => rw [hb] at h; simp at h
    | some st1 =>
      rw [hb] at h
      obtain ⟨tmp, rest, _, _, _, _, hwl, _, _, _, _, _⟩ := loopBody_some hb
      obtain ⟨st2, hbody, hs2, _, _⟩ := loopBody_safe hcl huk hs hwl
      rw [hb] at hbody
      cases Option.some.inj hbody
      exact ih st1 st hs2 h

/-- C13: totality. On a unit in which blocks have distinct addresses, every
block has a terminator and every successor and predecessor of a block is a
block of the unit:
(1) after the scan of any initial part of the block list the USE and KILL maps
hold exactly one entry for every block scanned so far;
(2) an operand step and the insertion of a result name, run for a block that has
its entries, succeed and neither lose nor add a key;
(3) the extractor succeeds with exactly one entry per block in both maps;
(4) `live_variables` holds exactly one entry per block after its initialisation
and after any number of executions of the loop body, and from every such state
with a non-empty work list the loop body succeeds;
(5) the loop never makes a failing lookup, and the pass finishes for every fuel
from `fuelBound F` on. -/
theorem totality (F : Func) (hcl : Closed F) :
    (∀ pre post, F.blocks = pre ++ post →
      ∃ st, forBlocks pre { variable_use := [], variable_kill := [] } = some st ∧
        KeysAre (pre.map (fun B => B.addr)) st.variable_use ∧
        KeysAre (pre.map (fun B => B.addr)) st.variable_kill) ∧
    (∀ (l : List BasicBlockPtr) (bb : BasicBlockPtr) (I : Instruction) (v : StringRef)
        (st : UseKill), l.Nodup → bb ∈ l →
      KeysAre l st.variable_use → KeysAre l st.variable_kill →
      (∃ st1, operandStep bb I st v = some st1 ∧
        KeysAre l st1.variable_use ∧ KeysAre l st1.variable_kill) ∧
      (∃ st1, killResult bb I st = some st1 ∧
        KeysAre l st1.variable_use ∧ KeysAre l st1.variable_kill)) ∧
    ∃ uk, extractUseKill F = some uk ∧
      KeysAre F.addrs uk.variable_use ∧ KeysAre F.addrs uk.variable_kill ∧
      KeysAre F.addrs (initialState F).live_variables ∧
      (∀ n st, iterations F uk n (initialState F) = some st →
        KeysAre F.addrs st.live_variables ∧
        (st.workList ≠ [] → ∃ st1, loopBody F uk st = some st1)) ∧
      (∀ fuel, whileLoop F uk fuel (initialState F) ≠ .undefinedBehaviour) ∧
      (∀ fuel, fuelBound F ≤ fuel →
        ∃ a, runOnFunction F fuel = .finished a ∧ KeysAre F.addrs a.live_variables) := by
  have hnd := hcl.1
  refine ⟨fun pre post h => forBlocks_prefix_keys F hnd pre post h, ?_, ?_⟩
  · intro l bb I v st hl hbb hu hk
    exact ⟨operandStep_keys hl hbb I st v hu hk, killResult_keys hl hbb I st hu hk⟩
  · obtain ⟨uk, hex, hu, hk⟩ := forBlocks_prefix_keys F hnd F.blocks [] (by simp)
    have hex1 : extractUseKill F = some uk := hex
    obtain ⟨uk1, hex2, huk, _, _⟩ := extractUseKill_spec F
    rw [hex1] at hex2
    cases Option.some.inj hex2
    have hsafe := initialState_safe F hnd uk
    refine ⟨uk, hex1, hu, hk, initialState_keys F hnd, ?_, ?_, ?_⟩
    · intro n st hiter
      have hs := iterations_safe hcl huk n _ st hsafe hiter
      refine ⟨hs.keys, ?_⟩
      intro hne
      cases hwl : st.workList with
      | nil => exact absurd hwl hne
      | cons tmp rest =>
        obtain ⟨st1, hbody, _, _, _⟩ := loopBody_safe hcl huk hs hwl
        exact ⟨st1, hbody⟩
    · intro fuel
      exact whileLoop_safe hcl huk fuel _ hsafe
    · intro fuel hfuel
      have hbound : fuelBound F = iterationBound F uk := by simp [fuelBound, hex1]
      obtain ⟨live, hrun, hkeys⟩ :=
        whileLoop_finishes_safe hcl huk (iterationBound F uk) _ hsafe
          (potential_initialState_lt F uk)
      obtain ⟨k, hk1⟩ := Nat.exists_eq_add_of_le hfuel
      have hrun1 : whileLoop F uk fuel (initialState F) = .finished live := by
        rw [hk1, hbound]
        exact whileLoop_mono F uk _ _ _ k hrun
      exact ⟨{ variable_use := uk.variable_use
               variable_kill := uk.variable_kill
               live_variables := live },
        by simp only [runOnFunction, hex1, hrun1], hkeys⟩

/-- Witness for C13: the unit `loopUnit`. -/
theorem totality_witness :
    Closed loopUnit ∧
    ∃ uk, extractUseKill loopUnit = some uk ∧
      KeysAre loopUnit.addrs uk.variable_use ∧ KeysAre loopUnit.addrs uk.variable_kill ∧
      KeysAre loopUnit.addrs (initialState loopUnit).live_variables ∧
      (∀ n st, iterations loopUnit uk n (initialState loopUnit) = some st →
        KeysAre loopUnit.addrs st.live_variables ∧
        (st.workList ≠ [] → ∃ st1, loopBody loopUnit uk st = some st1)) ∧
      (∀ fuel, whileLoop loopUnit uk fuel (initialState loopUnit) ≠ .undefinedBehaviour) ∧
      (∀ fuel, fuelBound loopUnit ≤ fuel →
        ∃ a, runOnFunction loopUnit fuel = .finished a ∧
          KeysAre loopUnit.addrs a.live_variables) :=
  ⟨by decide, (totality loopUnit (by decide)).2.2⟩

/-! ## Malformed units -/

theorem forSuccessors_some_find (uk : UseKill) (live : StdMap) :
    ∀ (succs : List BasicBlockPtr) (acc resultSet : Finset StringRef),
      forSuccessors uk live succs acc = some resultSet →
      ∀ s ∈ succs, StdMap.find live s ≠ none := by
  intro succs
  induction succs with
  | nil => intro acc resultSet _ s hs; exact absurd hs (List.not_mem_nil _)
  | cons S rest ih =>
    intro acc resultSet h s hs
    unfold forSuccessors at h
    split at h
    · exact absurd h (by simp)
    · rename_i l hl
      split at h
      · exact absurd h (by simp)
      · split at h
        · exact absurd h (by simp)
        · rcases List.mem_cons.1 hs with hsS | hsrest
          · rw [hsS, hl]; simp
          · exact ih _ _ h s hsrest

theorem initialState_noExtra (F : Func) : NoExtra F (initialState F).live_variables := by
  intro a ha
  rw [initialState_find, if_neg ha]

theorem loopBody_noExtra {F : Func} {uk : UseKill} {st st1 : SolverState}
    (h : loopBody F uk st = some st1) (hno : NoExtra F st.live_variables) :
    NoExtra F st1.live_variables := by
  obtain ⟨tmp, rest, origin, B, T, resultSet, _, horigin, _, _, _, hst1⟩ := loopBody_some h
  intro a ha
  rw [hst1]
  simp only
  have hne : a ≠ tmp := by
    intro hc
    rw [hc] at ha
    rw [hno tmp ha] at horigin
    simp at horigin
  rw [StdMap.find_update_ne _ _ _ _ hne]
  exact hno a ha

/-- The loop body fails when the popped block has no terminator or a successor
that is no block of the unit. -/
theorem loopBody_malformed {F : Func} {uk : UseKill} {st : SolverState}
    (hnd : F.addrs.Nodup) {B : BasicBlock} (hB : B ∈ F.blocks)
    (hbad : B.getTerminator = none ∨ ∃ s ∈ B.succs, s ∉ F.addrs)
    (hno : NoExtra F st.live_variables) {rest : List BasicBlockPtr}
    (hwl : st.workList = B.addr :: rest) :
    loopBody F uk st = none := by
  cases hb : loopBody F uk st with
  | none => rfl
  | some st1 =>
    exfalso
    obtain ⟨tmp, rest1, origin, B1, T, resultSet, hwl1, _, hderef, hT, hres, _⟩ :=
      loopBody_some hb
    rw [hwl] at hwl1
    simp only [List.cons.injEq] at hwl1
    obtain ⟨hB1, hB1addr⟩ := deref_some hderef
    have hBB1 : B1 = B := eq_of_addr_eq hnd hB1 hB (hB1addr.trans hwl1.1.symm)
    subst hBB1
    rcases hbad with hnone | ⟨s, hs, hsnot⟩
    · rw [hnone] at hT
      simp at hT
    · rw [succs_of_getTerminator hT] at hs
      exact forSuccessors_some_find uk _ _ _ _ hres s hs (hno s hsnot)

/-- In the embedding, where the loop stops at an access that finds nothing: while
a malformed block is in the work list the embedded loop does not return a map,
and it stops at such an access once the fuel exceeds the position of that block. -/
theorem whileLoop_malformed {F : Func} {uk : UseKill}
    (hnd : F.addrs.Nodup) {B : BasicBlock} (hB : B ∈ F.blocks)
    (hbad : B.getTerminator = none ∨ ∃ s ∈ B.succs, s ∉ F.addrs) :
    ∀ (fuel : Nat) (pre post : List BasicBlockPtr) (st : SolverState),
      st.workList = pre ++ B.addr :: post → NoExtra F st.live_variables →
      (∀ live, whileLoop F uk fuel st ≠ .finished live) ∧
      (pre.length < fuel → whileLoop F uk fuel st = .undefinedBehaviour) := by
  intro fuel
  induction fuel with
  | zero =>
    intro pre post st _ _
    exact ⟨fun live => by simp [whileLoop], fun h => absurd h (Nat.not_lt_zero _)⟩
  | succ fuel ih =>
    intro pre post st hwl hno
    cases pre with
    | nil =>
      have hfail := @loopBody_malformed F uk st hnd B hB hbad hno post hwl
      simp only [whileLoop, hwl, List.nil_append, hfail]
      exact ⟨fun live => by simp, by simp⟩
    | cons x pre1 =>
      cases hb : loopBody F uk st with
      | none =>
        simp only [whileLoop, hwl, List.cons_append, hb]
        exact ⟨fun live => by simp, by simp⟩
      | some st1 =>
        obtain ⟨tmp, rest, origin, B1, T, resultSet, hwl1, _, _, _, _, hst1⟩ :=
          loopBody_some hb
        rw [hwl] at hwl1
        simp only [List.cons_append, List.cons.injEq] at hwl1
        have hwl2 : ∃ post1, st1.workList = pre1 ++ B.addr :: post1 := by
          rw [hst1]
          simp only
          split
          · exact ⟨post ++ B1.preds, by rw [← hwl1.2]; simp⟩
          · exact ⟨post, hwl1.2.symm⟩
        obtain ⟨post1, hpost1⟩ := hwl2
        obtain ⟨h1, h2⟩ := ih pre1 post1 st1 hpost1 (loopBody_noExtra hb hno)
        simp only [whileLoop, hwl, List.cons_append, hb, List.length_cons]
        exact ⟨h1, fun h => h2 (Nat.lt_of_succ_lt_succ h)⟩

/-- Before the block of a malformed unit is popped, the executions of the loop
body reach a state with a non-empty work list in which the body makes an access
that finds nothing: a null terminator or a failed lookup. -/
theorem reaches_failing_access {F : Func} {uk : UseKill}
    (hnd : F.addrs.Nodup) {B : BasicBlock} (hB : B ∈ F.blocks)
    (hbad : B.getTerminator = none ∨ ∃ s ∈ B.succs, s ∉ F.addrs) :
    ∀ (pre post : List BasicBlockPtr) (st : SolverState),
      st.workList = pre ++ B.addr :: post → NoExtra F st.live_variables →
      ∃ k st1, k ≤ pre.length ∧ iterations F uk k st = some st1 ∧
        st1.workList ≠ [] ∧ loopBody F uk st1 = none := by
  intro pre
  induction pre with
  | nil =>
    intro post st hwl hno
    have hfail := @loopBody_malformed F uk st hnd B hB hbad hno post hwl
    exact ⟨0, st, Nat.le_refl _, rfl, by rw [hwl]; simp, hfail⟩
  | cons x pre1 ih =>
    intro post st hwl hno
    cases hb : loopBody F uk st with
    | none => exact ⟨0, st, Nat.zero_le _, rfl, by rw [hwl]; simp, hb⟩
    | some st2 =>
      obtain ⟨tmp, rest, origin, B1, T, resultSet, hwl1, _, _, _, _, hst2⟩ :=
        loopBody_some hb
      rw [hwl] at hwl1
      simp only [List.cons_append, List.cons.injEq] at hwl1
      have hwl2 : ∃ post1, st2.workList = pre1 ++ B.addr :: post1 := by
        rw [hst2]
        simp only
        split
        · exact ⟨post ++ B1.preds, by rw [← hwl1.2]; simp⟩
        · exact ⟨post, hwl1.2.symm⟩
      obtain ⟨post1, hpost1⟩ := hwl2
      obtain ⟨k, st1, hk, hiter, hne, hfail⟩ :=
        ih post1 st2 hpost1 (loopBody_noExtra hb hno)
      exact ⟨k + 1, st1, by simp only [List.length_cons]; omega,
        by simp only [iterations, hb, hiter], hne, hfail⟩

/-- C15 (as the code behaves): no structural validation is made. On a unit with
distinct block addresses that has a block without terminator or a block with a
successor outside the unit, the extractor runs and stores one entry per block
in both maps, and the loop is entered with every block in the work list; after
fewer than `blocks` executions of the loop body it is in a state with a
non-empty work list in which the body makes an access that finds nothing (a
null terminator or a failed lookup). The source does not test for either, and
what it does after that access is left open here. -/
theorem malformed_not_rejected (F : Func) (hnd : F.addrs.Nodup) (hmal : Malformed F) :
    ∃ uk, extractUseKill F = some uk ∧
      KeysAre F.addrs uk.variable_use ∧ KeysAre F.addrs uk.variable_kill ∧
      (initialState F).workList = F.addrs ∧
      ∃ k st, k < F.blocks.length ∧
        iterations F uk k (initialState F) = some st ∧
        st.workList ≠ [] ∧ loopBody F uk st = none := by
  obtain ⟨uk, hex, hu, hk⟩ := forBlocks_prefix_keys F hnd F.blocks [] (by simp)
  have hex1 : extractUseKill F = some uk := hex
  obtain ⟨B, hB, hbad⟩ := hmal
  obtain ⟨pre, post, hsplit⟩ := List.append_of_mem (addr_mem_addrs hB)
  have hwl : (initialState F).workList = pre ++ B.addr :: post := by
    rw [initialState_workList, hsplit]
  have hlen : pre.length < F.blocks.length := by
    have h := congrArg List.length hsplit
    simp only [Func.addrs, List.length_map, List.length_append, List.length_cons] at h
    omega
  obtain ⟨k, st, hkle, hiter, hne, hfail⟩ :=
    @reaches_failing_access F uk hnd B hB hbad pre post _ hwl (initialState_noExtra F)
  exact ⟨uk, hex1, hu, hk, initialState_workList F, k, st, by omega, hiter, hne, hfail⟩

/-- Witness for C15 (as the code behaves): `danglingUnit`, whose second block
branches to an address that is no block of the unit. -/
theorem malformed_not_rejected_witness :
    danglingUnit.addrs.Nodup ∧ Malformed danglingUnit ∧
    ∃ uk, extractUseKill danglingUnit = some uk ∧
      KeysAre danglingUnit.addrs uk.variable_use ∧
      KeysAre danglingUnit.addrs uk.variable_kill ∧
      (initialState danglingUnit).workList = danglingUnit.addrs ∧
      ∃ k st, k < danglingUnit.blocks.length ∧
        iterations danglingUnit uk k (initialState danglingUnit) = some st ∧
        st.workList ≠ [] ∧ loopBody danglingUnit uk st = none :=
  ⟨by decide, by decide, malformed_not_rejected danglingUnit (by decide) (by decide)⟩

/-- C15 fails as stated: `unterminatedUnit` has a block without terminator, and
the pass does not reject it. The extractor runs and fills USE and KILL for both
blocks, the first iteration of the loop stores `LIVE_OUT[entry] = {x}`, and in
the second iteration the body asks the null terminator for its successors. -/
theorem validation_counterexample :
    Malformed unterminatedUnit ∧
    extractUseKill unterminatedUnit = some
      { variable_use := [(1, ∅), (2, {"x"})]
        variable_kill := [(1, {""}), (2, {"y"})] } ∧
    iterations unterminatedUnit
        { variable_use := [(1, ∅), (2, {"x"})], variable_kill := [(1, {""}), (2, {"y"})] }
        1 (initialState unterminatedUnit)
      = some { live_variables := [(1, {"x"}), (2, ∅)], workList := [2] } ∧
    unterminatedUnit.deref 2 ≠ none ∧
    (unterminatedUnit.deref 2).bind BasicBlock.getTerminator = none ∧
    loopBody unterminatedUnit
        { variable_use := [(1, ∅), (2, {"x"})], variable_kill := [(1, {""}), (2, {"y"})] }
        { live_variables := [(1, {"x"}), (2, ∅)], workList := [2] } = none := by
  decide

/-! ## The report -/

theorem mem_setOrder (s : Finset StringRef) (n : StringRef) : n ∈ setOrder s ↔ n ∈ s := by
  obtain ⟨⟨l⟩, hl⟩ := s
  show n ∈ List.insertionSort nameLE l ↔ n ∈ l
  exact (List.perm_insertionSort _ l).mem_iff

theorem nodup_setOrder (s : Finset StringRef) : (setOrder s).Nodup := by
  obtain ⟨⟨l⟩, hl⟩ := s
  show (List.insertionSort nameLE l).Nodup
  exact (List.perm_insertionSort _ l).nodup_iff.2 hl

theorem printNames_data (l : List StringRef) :
    (printNames l).data = (l.map (fun n => n.data ++ " ".data)).flatten := by
  induction l with
  | nil => rfl
  | cons v rest ih =>
    simp only [printNames, String.data_append, ih, List.map_cons, List.flatten_cons,
      List.append_assoc]

theorem printLine_data (blockName : StringRef) (s : Finset StringRef) :
    (printLine blockName s).data =
      blockName.data ++ ": ".data
        ++ ((setOrder s).map (fun n => n.data ++ " ".data)).flatten ++ "\n".data := by
  simp only [printLine, String.data_append, printNames_data]

theorem filterMap_deref_addr {F : Func} (hnd : F.addrs.Nodup) :
    ∀ l : List BasicBlock, (∀ B ∈ l, B ∈ F.blocks) →
      (l.map (fun B => B.addr)).filterMap F.deref = l := by
  intro l
  induction l with
  | nil => intro _; rfl
  | cons B rest ih =>
    intro h
    rw [List.map_cons, List.filterMap_cons,
      deref_of_mem hnd (h B (List.mem_cons_self _ _)),
      ih (fun X hX => h X (List.mem_cons_of_mem _ hX))]

/-- The printing loop prints one line per entry, for the block of that entry. -/
theorem printLiveVariables_eq {F : Func} (hnd : F.addrs.Nodup) :
    ∀ m : StdMap, (∀ k ∈ StdMap.keys m, k ∈ F.addrs) → (StdMap.keys m).Nodup →
      ∃ order : List BasicBlock,
        printLiveVariables F m = some (concatLines
          (order.map (fun B => printLine B.name (StdMap.get m B.addr)))) ∧
        order.map (fun B => B.addr) = StdMap.keys m ∧ ∀ B ∈ order, B ∈ F.blocks := by
  intro m
  induction m with
  | nil => intro _ _; exact ⟨[], rfl, rfl, fun B hB => absurd hB (List.not_mem_nil _)⟩
  | cons e rest ih =>
    obtain ⟨k, s⟩ := e
    intro hkeys hnodup
    have hkeys1 : StdMap.keys ((k, s) :: rest) = k :: StdMap.keys rest := rfl
    rw [hkeys1] at hkeys hnodup
    rw [List.nodup_cons] at hnodup
    obtain ⟨order, hprint, hmap, hmem⟩ :=
      ih (fun a ha => hkeys a (List.mem_cons_of_mem _ ha)) hnodup.2
    obtain ⟨B, hB, hBaddr⟩ := (mem_addrs_iff F k).1 (hkeys k (List.mem_cons_self _ _))
    have hderef : F.deref k = some B := by rw [← hBaddr]; exact deref_of_mem hnd hB
    refine ⟨B :: order, ?_, ?_, ?_⟩
    · have hhead : StdMap.get ((k, s) :: rest) B.addr = s := by
        simp [StdMap.get, StdMap.find, hBaddr]
      have htail : order.map (fun X => printLine X.name (StdMap.get ((k, s) :: rest) X.addr))
          = order.map (fun X => printLine X.name (StdMap.get rest X.addr)) := by
        apply List.map_congr_left
        intro X hX
        have hXk : ¬ k = X.addr := by
          intro hc
          apply hnodup.1
          rw [hc, ← hmap]
          exact List.mem_map.2 ⟨X, hX, rfl⟩
        simp only [StdMap.get, StdMap.find, if_neg hXk]
      simp only [printLiveVariables, hderef, hprint, List.map_cons, concatLines, hhead, htail]
    · rw [List.map_cons, hmap, hBaddr, hkeys1]
    · intro X hX
      rcases List.mem_cons.1 hX with h | h
      · rw [h]; exact hB
      · exact hmem X h

/-- C14 (as the code prints): on a well-formed unit, for every fuel from
`fuelBound F` on, the text written is the header line
`LivenessAnalysis: <name of the function>` followed by one line per block of
the unit, in the order of the keys of `live_variables`. The line of block `B` is the name of
`B`, a colon and a space, then the names of the final `LIVE_OUT[B]`, each
followed by one space, then the newline; the names listed are exactly the
members of `LIVE_OUT[B]`, each once. -/
theorem report_format (F : Func) (hwf : WellFormed F) (fuel : Nat)
    (hfuel : fuelBound F ≤ fuel) :
    ∃ a order, runOnFunction F fuel = .finished a ∧ List.Perm order F.blocks ∧
      order.map (fun B => B.addr) = StdMap.keys a.live_variables ∧
      errsText F fuel = .finished
        ("LivenessAnalysis: " ++ F.name ++ "\n" ++ concatLines
          (order.map (fun B => printLine B.name (StdMap.get a.live_variables B.addr)))) ∧
      ∀ B ∈ F.blocks,
        (printLine B.name (StdMap.get a.live_variables B.addr)).data =
          B.name.data ++ ": ".data
            ++ ((setOrder (StdMap.get a.live_variables B.addr)).map
                  (fun n => n.data ++ " ".data)).flatten
            ++ "\n".data ∧
        (setOrder (StdMap.get a.live_variables B.addr)).Nodup ∧
        ∀ n, n ∈ setOrder (StdMap.get a.live_variables B.addr) ↔
          n ∈ StdMap.get a.live_variables B.addr := by
  obtain ⟨uk, live, _, hex, huk, _, _, _, hrun⟩ := runOnFunction_finishes hwf
  have hcl : Closed F := ⟨hwf.1, hwf.2.1, hwf.2.2.1, hwf.2.2.2.1⟩
  have hbound : fuelBound F = iterationBound F uk := by simp [fuelBound, hex]
  obtain ⟨live1, hrun1, hkeys⟩ :=
    whileLoop_finishes_safe hcl huk (iterationBound F uk) _ (initialState_safe F hwf.1 uk)
      (potential_initialState_lt F uk)
  have hsame : live1 = live := by
    have h := (hrun (fuelBound F) (Nat.le_refl _)).1
    rw [hbound, hrun1] at h
    exact Outcome.finished.inj h
  subst hsame
  obtain ⟨order, hprint, hmap, hmem⟩ := printLiveVariables_eq hwf.1 live1
    (fun k hk => (List.Perm.mem_iff hkeys).1 hk) (List.Perm.nodup hkeys.symm hwf.1)
  have hperm : List.Perm order F.blocks := by
    have h1 := filterMap_deref_addr hwf.1 order hmem
    have h2 := filterMap_deref_addr hwf.1 F.blocks (fun B hB => hB)
    rw [← h1, ← h2, hmap]
    exact List.Perm.filterMap _ hkeys
  refine ⟨_, order, (hrun fuel hfuel).2, hperm, hmap, ?_, ?_⟩
  · simp only [errsText, (hrun fuel hfuel).2, hprint]
  · intro B _
    exact ⟨printLine_data _ _, nodup_setOrder _, mem_setOrder _⟩

/-- Witness for C14 (as the code prints): the unit `chainABC`. -/
theorem report_format_witness :
    WellFormed chainABC ∧ fuelBound chainABC ≤ 100 ∧
    ∃ a order, runOnFunction chainABC 100 = .finished a ∧
      List.Perm order chainABC.blocks ∧
      order.map (fun B => B.addr) = StdMap.keys a.live_variables ∧
      errsText chainABC 100 = .finished
        ("LivenessAnalysis: " ++ chainABC.name ++ "\n" ++ concatLines
          (order.map (fun B => printLine B.name (StdMap.get a.live_variables B.addr)))) ∧
      ∀ B ∈ chainABC.blocks,
        (printLine B.name (StdMap.get a.live_variables B.addr)).data =
          B.name.data ++ ": ".data
            ++ ((setOrder (StdMap.get a.live_variables B.addr)).map
                  (fun n => n.data ++ " ".data)).flatten
            ++ "\n".data ∧
        (setOrder (StdMap.get a.live_variables B.addr)).Nodup ∧
        ∀ n, n ∈ setOrder (StdMap.get a.live_variables B.addr) ↔
          n ∈ StdMap.get a.live_variables B.addr :=
  ⟨by decide, by decide, report_format chainABC (by decide) 100 (by decide)⟩

/-- C14 fails as stated: for `chainABC`, a unit of three blocks, the text has
four lines. The first line, `LivenessAnalysis: chain`, is the line of no block,
and in the lines of the blocks a space follows the colon and the last name. -/
theorem report_counterexample :
    chainABC.blocks.length = 3 ∧
    errsText chainABC 100
      = .finished "LivenessAnalysis: chain\nA: x \nB: x \nC: \n" ∧
    ("LivenessAnalysis: chain\nA: x \nB: x \nC: \n".data.filter
      (fun c => c = Char.ofNat 10)).length = 4 := by
  decide

/-! ## The scenarios stated on the instructions -/

theorem use_empty_of_readsNothing {F : Func} (hnd : F.addrs.Nodup) {uk : UseKill}
    (hex : extractUseKill F = some uk) {B : BasicBlock} (hB : B ∈ F.blocks)
    (h : B.ReadsNothing) : StdMap.get uk.variable_use B.addr = ∅ := by
  rw [(extract_get hnd hex hB).1]
  ext n
  simp only [Finset.not_mem_empty, iff_false]
  intro hn
  rcases scanInstructions_use_origin n B.insts (∅, ∅) hn with h1 | ⟨I, hI, hex1, hmem⟩
  · simp at h1
  · rw [h I hI hex1] at hmem
    exact absurd hmem (List.not_mem_nil _)

theorem not_mem_kill_of_doesNotDefine {F : Func} (hnd : F.addrs.Nodup) {uk : UseKill}
    (hex : extractUseKill F = some uk) {B : BasicBlock} (hB : B ∈ F.blocks)
    {x : StringRef} (h : B.DoesNotDefine x) : x ∉ StdMap.get uk.variable_kill B.addr := by
  rw [(extract_get hnd hex hB).2, scanInstructions_kill_iff]
  rintro (h1 | ⟨I, hI, hname | ⟨hst, hops⟩⟩)
  · simp at h1
  · exact (h I hI).1 hname
  · exact (h I hI).2 hst hops

theorem use_singleton_of_reads {F : Func} (hnd : F.addrs.Nodup) {uk : UseKill}
    (hex : extractUseKill F = some uk) {B : BasicBlock} (hB : B ∈ F.blocks)
    {x : StringRef} (honly : B.ReadsOnly x) (hread : B.ReadsBeforeDef x) :
    StdMap.get uk.variable_use B.addr = {x} := by
  rw [(extract_get hnd hex hB).1]
  ext n
  rw [Finset.mem_singleton]
  constructor
  · intro hn
    rcases scanInstructions_use_origin n B.insts (∅, ∅) hn with h1 | ⟨I, hI, hex1, hmem⟩
    · simp at h1
    · exact honly I hI hex1 n hmem
  · intro hn
    subst hn
    obtain ⟨pre, I, post, hsplit, hex1, hmem, hpre⟩ := hread
    rw [scanInstructions_use_iff]
    refine Or.inr ⟨pre, I, post, hsplit, hex1, hmem, ?_⟩
    rw [scanInstructions_kill_iff]
    rintro (h1 | ⟨J, hJ, hname | ⟨hst, hops⟩⟩)
    · simp at h1
    · exact (hpre J hJ).1 hname
    · exact (hpre J hJ).2 hst hops

theorem linearChain_of_instructions {F : Func} (hnd : F.addrs.Nodup) {uk : UseKill}
    (hex : extractUseKill F = some uk) (x : StringRef) :
    ∀ chain : List BasicBlock, (∀ B ∈ chain, B ∈ F.blocks) →
      InstructionChain x chain → LinearChain uk x chain := by
  intro chain
  induction chain with
  | nil => intro _ h; exact absurd h (by simp [InstructionChain])
  | cons B rest ih =>
    intro hmem h
    have hB := hmem B (List.mem_cons_self _ _)
    cases rest with
    | nil =>
      simp only [InstructionChain] at h
      simp only [LinearChain]
      exact ⟨h.1, use_singleton_of_reads hnd hex hB h.2.1 h.2.2⟩
    | cons B1 rest =>
      simp only [InstructionChain] at h
      simp only [LinearChain]
      exact ⟨h.1, use_empty_of_readsNothing hnd hex hB h.2.1,
        not_mem_kill_of_doesNotDefine hnd hex hB h.2.2.1,
        ih (fun X hX => hmem X (List.mem_cons_of_mem _ hX)) h.2.2.2⟩

/-- C10 (as the code counts reads): the linear chain. In a well-formed unit let
`chain = [B1, ..., Bn]` (`n ≥ 1`) be blocks of the unit such that each `Bi` with
`i < n` has `B(i+1)` as its only successor, has no operand of any kind in an
instruction outside the four excluded categories, and has neither an
instruction with result name `x` nor a `store` with an operand named `x`; and
`Bn` has no successor, reads `x` in an instruction outside the excluded
categories before any definition of `x`, and has no operand other than `x` in
such instructions. Then the pass finishes, the final `LIVE_OUT[Bn]` is ∅ and
the final `LIVE_OUT[Bi]` is `{x}` for every `i < n`. -/
theorem linear_chain (F : Func) (hwf : WellFormed F) (fuel : Nat)
    (hfuel : fuelBound F ≤ fuel) (chain : List BasicBlock) (x : StringRef)
    (hmem : ∀ B ∈ chain, B ∈ F.blocks) (hchain : InstructionChain x chain) :
    ∃ a, runOnFunction F fuel = .finished a ∧
      (∀ Bn, chain.getLast? = some Bn → StdMap.find a.live_variables Bn.addr = some ∅) ∧
      (∀ B ∈ chain.dropLast, StdMap.find a.live_variables B.addr = some {x}) := by
  obtain ⟨uk, hex, _, _, _⟩ := extractUseKill_spec F
  obtain ⟨live, hrun, hlast, hmid⟩ :=
    linearChain_run F hwf uk hex fuel hfuel chain x hmem
      (linearChain_of_instructions hwf.1 hex x chain hmem hchain)
  exact ⟨_, hrun, hlast, hmid⟩

/-- Witness for C10 (as the code counts reads): A -> B -> C with `ret i32 %x` in
C gives `LIVE_OUT[C] = ∅`, `LIVE_OUT[B] = {x}` and `LIVE_OUT[A] = {x}`. -/
theorem linear_chain_witness :
    WellFormed chainABC ∧ fuelBound chainABC ≤ 100 ∧
    (∀ B ∈ [blockA, blockB, blockC], B ∈ chainABC.blocks) ∧
    InstructionChain "x" [blockA, blockB, blockC] ∧
    ∃ a, runOnFunction chainABC 100 = .finished a ∧
      (∀ Bn, [blockA, blockB, blockC].getLast? = some Bn →
        StdMap.find a.live_variables Bn.addr = some ∅) ∧
      (∀ B ∈ [blockA, blockB, blockC].dropLast,
        StdMap.find a.live_variables B.addr = some {"x"}) :=
  have hchain : InstructionChain "x" [blockA, blockB, blockC] :=
    ⟨by decide, by decide, by decide, by decide, by decide, by decide, by decide, by decide,
      [], retVar "x", [], by decide, by decide, by decide, by decide⟩
  ⟨by decide, by decide, by decide, hchain,
    linear_chain chainABC (by decide) 100 (by decide) [blockA, blockB, blockC] "x"
      (by decide) hchain⟩

/-- C10 fails as stated: in the well-formed chain `chainCall`, A and B read and
define no variable and C reads the variable `x` in a call and defines none, yet
the final `LIVE_OUT[B]` is `{g, x}` and the final `LIVE_OUT[A]` is `{h, g, x}`,
because the callees `g` and `h` are operands of the calls. -/
theorem linear_chain_counterexample :
    WellFormed chainCall ∧
    runOnFunction chainCall 100 = .finished
      { variable_use := [(10, ∅), (20, {"h"}), (30, {"g", "x"})]
        variable_kill := [(10, {""}), (20, {""}), (30, {""})]
        live_variables := [(10, {"h", "g", "x"}), (20, {"g", "x"}), (30, ∅)] } ∧
    "g" ∈ StdMap.get [(10, {"h", "g", "x"}), (20, {"g", "x"}), (30, ∅)] 20 ∧
    "h" ∈ StdMap.get [(10, {"h", "g", "x"}), (20, {"g", "x"}), (30, ∅)] 10 ∧
    "g" ∉ ({"x"} : Finset StringRef) ∧ "h" ∉ ({"x"} : Finset StringRef) := by
  decide

/-- C11 (as the code counts reads): the diamond. In a well-formed unit let `A`,
`B`, `C`, `D` be blocks such that the successors of `A` are `B` and `C`, the
only successor of `B` and of `C` is `D`, and `D` has no successor; `B` reads
`v` in an instruction outside the four excluded categories before any
definition of `v` and has no operand other than `v` in such instructions; `C`
and `D` have no operand of any kind in such instructions. Then the pass
finishes with `LIVE_OUT[A] = {v}` and
`LIVE_OUT[B] = LIVE_OUT[C] = LIVE_OUT[D] = ∅`. -/
theorem diamond_merge (F : Func) (hwf : WellFormed F) (fuel : Nat)
    (hfuel : fuelBound F ≤ fuel) (A B C D : BasicBlock) (v : StringRef)
    (hA : A ∈ F.blocks) (hB : B ∈ F.blocks) (hC : C ∈ F.blocks) (hD : D ∈ F.blocks)
    (hAs : ∀ s, s ∈ A.succs ↔ s = B.addr ∨ s = C.addr)
    (hBs : ∀ s, s ∈ B.succs ↔ s = D.addr) (hCs : ∀ s, s ∈ C.succs ↔ s = D.addr)
    (hDs : D.succs = [])
    (hBonly : B.ReadsOnly v) (hBread : B.ReadsBeforeDef v)
    (hCno : C.ReadsNothing) (hDno : D.ReadsNothing) :
    ∃ a, runOnFunction F fuel = .finished a ∧
      StdMap.find a.live_variables A.addr = some {v} ∧
      StdMap.find a.live_variables B.addr = some ∅ ∧
      StdMap.find a.live_variables C.addr = some ∅ ∧
      StdMap.find a.live_variables D.addr = some ∅ := by
  obtain ⟨uk, hex, _, _, _⟩ := extractUseKill_spec F
  obtain ⟨live, hrun, h1, h2, h3, h4⟩ :=
    diamond_run F hwf uk hex fuel hfuel A B C D v hA hB hC hD hAs hBs hCs hDs
      (use_singleton_of_reads hwf.1 hex hB hBonly hBread)
      (use_empty_of_readsNothing hwf.1 hex hC hCno)
      (use_empty_of_readsNothing hwf.1 hex hD hDno)
  exact ⟨_, hrun, h1, h2, h3, h4⟩

/-- Witness for C11 (as the code counts reads): `diamondUnit`, where B is
`%t = add i32 %v, %v; br label %D`. -/
theorem diamond_merge_witness :
    WellFormed diamondUnit ∧ fuelBound diamondUnit ≤ 100 ∧
    diamondB.ReadsOnly "v" ∧ diamondB.ReadsBeforeDef "v" ∧
    diamondC.ReadsNothing ∧ diamondD.ReadsNothing ∧
    ∃ a, runOnFunction diamondUnit 100 = .finished a ∧
      StdMap.find a.live_variables diamondA.addr = some {"v"} ∧
      StdMap.find a.live_variables diamondB.addr = some ∅ ∧
      StdMap.find a.live_variables diamondC.addr = some ∅ ∧
      StdMap.find a.live_variables diamondD.addr = some ∅ :=
  have hread : diamondB.ReadsBeforeDef "v" :=
    ⟨[], { opcode := .Add, operands := ["v", "v"], name := "t", successors := [] },
      [brTo "D" 4], by decide, by decide, by decide, by decide⟩
  ⟨by decide, by decide, by decide, hread, by decide, by decide,
    diamond_merge diamondUnit (by decide) 100 (by decide)
      diamondA diamondB diamondC diamondD "v" (by decide) (by decide) (by decide)
      (by decide)
      (by intro s; rw [show diamondA.succs = [2, 3] from by decide]; simp [diamondB, diamondC])
      (by intro s; rw [show diamondB.succs = [4] from by decide]; simp [diamondD])
      (by intro s; rw [show diamondC.succs = [4] from by decide]; simp [diamondD])
      (by decide) (by decide) hread (by decide) (by decide)⟩

/-- C11 fails as stated: in the well-formed diamond `diamondConst`, B is
`%t = add i32 %v, 1; br label %D`, so B reads the variable `v` before any
definition and A, C and D read and define no variable, yet the final
`LIVE_OUT[A]` is `{"", v}`: the unnamed constant is an operand of the addition. -/
theorem diamond_merge_counterexample :
    WellFormed diamondConst ∧
    runOnFunction diamondConst 100 = .finished
      { variable_use := [(1, ∅), (2, {"", "v"}), (3, ∅), (4, ∅)]
        variable_kill := [(1, {""}), (2, {"", "t"}), (3, {""}), (4, {""})]
        live_variables := [(1, {"", "v"}), (2, ∅), (3, ∅), (4, ∅)] } ∧
    "" ∈ StdMap.get [(1, {"", "v"}), (2, ∅), (3, ∅), (4, ∅)] 1 ∧
    "" ∉ ({"v"} : Finset StringRef) := by
  decide

end LivenessAnalysis
